import Mathlib

/-!
# Sable `Event` / `Listener`

A shallow embedding of `source/Event.h` and a verification of its specification.

* `EventImpl` is the callback registry: `callbacks_` (a `std::map<int, F>`, kept as a
  list of pairs in ascending key order), `erased_` (a `std::list<int>`) and
  `nextCallbackId_` (a 32-bit `int`, incremented with two's-complement wrap).
* `Listener` holds a `std::weak_ptr` to a registry (an address that may have expired)
  and an id; `Event` holds a `std::shared_ptr` (an address or null).
* Registries live in a heap of reference-counted cells; addresses are never reused,
  as a `weak_ptr` never resolves to a different object.
* Callables are user code. A callable is a tag (its identity in the call record) and
  a body of statements that may again operate on events and listeners, which is how
  re-entrant attach and detach are expressed. Every call of a stored callable is
  recorded in `World.calls` with the key of its entry, its tag and the arguments.
* Execution of user code takes fuel: a body may attach callables to the registry
  that is being iterated, or invoke an event again, so a loop need not end.
* `EventImpl::operator()` hands `std::forward<Args>(args)...` to every callable of
  its loop. What a call leaves in the by-value parameters `args` depends on the
  argument types and is a parameter of the embedding (`ArgPack.movedFrom`).
-/

set_option autoImplicit false

namespace sable

/-! ## Machine integers -/

/-- Value of a 32-bit two's-complement `int` holding the mathematical integer `x`. -/
def wrapInt (x : Int) : Int := (x + 2147483648) % 4294967296 - 2147483648

/-! ## Argument packs -/

/-- The argument types `Args...` of an event, taken together as one type `A` of
argument packs. `movedFrom x` is the state in which `std::forward<Args>(args)...`
leaves the by-value parameters `args` of `EventImpl::operator()` after they have
initialised the parameters of one call of a `std::function<void(Args...)>`: `x`
itself for types that are copied (`int`, reference parameters), the moved-from state
for types with a move constructor (`std::string`). -/
class ArgPack (A : Type) where
  movedFrom : A → A

/-! ## User code and callables -/

mutual
/-- Statements of user code over numbered `Event` variables (`e`, `dst`, `src`) and
numbered `ListenerPtr` variables (`h`, `dst`, `src`). A variable that was never
assigned holds an `Event` without registry, respectively a null `ListenerPtr`. -/
inductive Stmt (A : Type) : Type where
  /-- `e = Event<Args...>()`: a new event with a registry of its own. -/
  | newEvent (e : Nat)
  /-- `dst = src` on events. -/
  | copyEvent (dst src : Nat)
  /-- `dst = std::move(src)` on events. -/
  | moveEvent (dst src : Nat)
  /-- The event `e` goes out of scope. -/
  | dropEvent (e : Nat)
  /-- `h = e.attach(f)`; with `h = none` the returned pointer is a temporary that
  is destroyed at the end of the statement. -/
  | attach (e : Nat) (f : Callable A) (h : Option Nat)
  /-- `e(args)`. -/
  | invoke (e : Nat) (args : A)
  /-- `e.getListenersCount()`, result unused. -/
  | count (e : Nat)
  /-- `h->detach()`. -/
  | detach (h : Nat)
  /-- `h.reset()`, or `h` goes out of scope. -/
  | dropListener (h : Nat)
  /-- `dst = ListenerPtr(new Listener(std::move(*src)))`: the move constructor. -/
  | moveListener (dst src : Nat)
  /-- `*dst = std::move(*src)`: the move assignment operator of `Listener`. -/
  | assignListener (dst src : Nat)
  /-- `dst = std::move(src)` on the `unique_ptr`s. -/
  | movePtr (dst src : Nat)
/-- A callable stored in a registry (`std::function<void(Args...)>`). -/
inductive Callable (A : Type) : Type where
  | mk (tag : Nat) (body : List (Stmt A))
end

variable {A : Type}

/-- Tag of a callable: the name under which its calls are recorded. -/
def Callable.tag : Callable A → Nat
  | .mk t _ => t

/-- Body of a callable: what it does, besides being recorded, when it is called. -/
def Callable.body : Callable A → List (Stmt A)
  | .mk _ b => b

/-! ## `std::map<int, F>` -/

/-- The map `callbacks_`: pairs in ascending key order. -/
abbrev CallbackMap (A : Type) := List (Int × Callable A)

/-- `std::map::erase(key)`. -/
def mapErase (k : Int) (m : CallbackMap A) : CallbackMap A :=
  m.filter (fun p => decide (p.1 ≠ k))

/-- `std::map::emplace(key, value)`: the pair goes to its place in key order; a key
that is already present keeps its old value and nothing is inserted. -/
def mapEmplace (k : Int) (f : Callable A) : CallbackMap A → CallbackMap A
  | [] => [(k, f)]
  | (k', f') :: m =>
    if k < k' then (k, f) :: (k', f') :: m
    else if k = k' then (k', f') :: m
    else (k', f') :: mapEmplace k f m

/-- Keys of the map. -/
def mapKeys (m : CallbackMap A) : List Int := m.map Prod.fst

/-- Iterator step of the range-for. The iterator is the key of the node it points to;
`none` is the position before `begin()`. The result is the node the iterator points
to next, `none` for `end()`. -/
def mapNext (cur : Option Int) (m : CallbackMap A) : Option (Int × Callable A) :=
  match cur with
  | none => m.head?
  | some k => m.find? (fun p => decide (k < p.1))

/-- The node under the iterator is still in the map. -/
def iteratorValid (cur : Option Int) (m : CallbackMap A) : Bool :=
  match cur with
  | none => true
  | some k => decide (k ∈ mapKeys m)

/-! ## `EventImpl` -/

/-- `EventImpl<Args...>`. -/
structure EventImpl (A : Type) where
  callbacks_ : CallbackMap A
  erased_ : List Int
  nextCallbackId_ : Int

/-- `EventImpl() = default`. -/
def EventImpl.fresh : EventImpl A :=
  { callbacks_ := [], erased_ := [], nextCallbackId_ := 0 }

/-- `EventImpl::removeErased`. -/
def EventImpl.removeErased (r : EventImpl A) : EventImpl A :=
  { r with
    callbacks_ := r.erased_.foldl (fun m i => mapErase i m) r.callbacks_
    erased_ := [] }

/-- `EventImpl::attach`: the new state and the id handed to the `Listener`. -/
def EventImpl.attach (r : EventImpl A) (f : Callable A) : EventImpl A × Int :=
  let r1 := r.removeErased
  let n := wrapInt (r1.nextCallbackId_ + 1)
  ({ r1 with nextCallbackId_ := n, callbacks_ := mapEmplace n f r1.callbacks_ }, n)

/-- `EventImpl::remove`. -/
def EventImpl.remove (r : EventImpl A) (id : Int) : EventImpl A :=
  { r with erased_ := r.erased_ ++ [id] }

/-- `EventImpl::getListenersCount`: the new state and the returned size. -/
def EventImpl.getListenersCount (r : EventImpl A) : EventImpl A × Nat :=
  let r1 := r.removeErased
  (r1, r1.callbacks_.length)

/-! ## The world: heap, variables, call record -/

/-- `Listener<Args...>`: `event_` is the `weak_ptr` (the address it was made from, or
`none` when empty), `id_` the id. -/
structure Listener where
  event_ : Option Nat
  id_ : Int
  deriving DecidableEq, Repr

/-- `Event<Args...>`: `eventImpl_` is the `shared_ptr` (an address, or `none` when
null). -/
structure Event where
  eventImpl_ : Option Nat
  deriving DecidableEq, Repr

/-- One call of a stored callable: key of the entry, tag of the callable, arguments. -/
structure Call (A : Type) where
  id : Int
  tag : Nat
  args : A
  deriving DecidableEq, Repr

/-- A registry made by `std::make_shared` together with its use count. -/
structure Shared (A : Type) where
  useCount : Nat
  obj : EventImpl A

/-- State of the program. `heap a = none` when no registry lives at `a` (never
allocated, or destroyed: a `weak_ptr` to it has expired). -/
structure World (A : Type) where
  heap : Nat → Option (Shared A)
  nextAddr : Nat
  events : Nat → Event
  listeners : Nat → Option Listener
  calls : List (Call A)
  /-- Ghost state: `nextCallbackId_ += 1` was executed on the largest `int` (a signed
  overflow, undefined behaviour in C++; the registries go on with the wrapped
  value). Nothing reads it. -/
  overflow : Bool

/-- The world before anything was constructed. -/
def World.init : World A :=
  { heap := fun _ => none, nextAddr := 0, events := fun _ => ⟨none⟩,
    listeners := fun _ => none, calls := [], overflow := false }

/-- Replace the registry stored at `a`, keeping the use count `c.useCount`. -/
def World.setObj (w : World A) (a : Nat) (c : Shared A) (r : EventImpl A) : World A :=
  { w with heap := Function.update w.heap a (some { c with obj := r }) }

/-- Assign the event variable `e`. -/
def World.setEvent (w : World A) (e : Nat) (ev : Event) : World A :=
  { w with events := Function.update w.events e ev }

/-- Assign the listener variable `h`. -/
def World.setListener (w : World A) (h : Nat) (l : Option Listener) : World A :=
  { w with listeners := Function.update w.listeners h l }

/-- Destructor of a `shared_ptr`: the use count drops, the registry is destroyed with
the last owner. -/
def World.release (w : World A) (p : Option Nat) : World A :=
  match p with
  | none => w
  | some a =>
    match w.heap a with
    | none => w
    | some c =>
      if c.useCount ≤ 1 then { w with heap := Function.update w.heap a none }
      else { w with heap := Function.update w.heap a (some { c with useCount := c.useCount - 1 }) }

/-- Copy of a `shared_ptr`: the use count goes up. -/
def World.acquire (w : World A) (p : Option Nat) : World A :=
  match p with
  | none => w
  | some a =>
    match w.heap a with
    | none => w
    | some c => { w with heap := Function.update w.heap a (some { c with useCount := c.useCount + 1 }) }

/-! ## `Listener` -/

/-- The sentinel state of a `Listener`: empty `weak_ptr`, id `0`. -/
def Listener.sentinel : Listener := { event_ := none, id_ := 0 }

/-- `Listener::detach`: the state of the listener afterwards and the new world. -/
def Listener.detach (l : Listener) (w : World A) : Listener × World A :=
  if l.id_ = 0 then (l, w)
  else
    let w1 :=
      match l.event_ with
      | none => w
      | some a =>
        match w.heap a with
        | none => w
        | some c => w.setObj a c (c.obj.remove l.id_)
    ({ event_ := none, id_ := 0 }, w1)

/-- `Listener::~Listener`: the body is `detach()`. -/
def Listener.destroy (l : Listener) (w : World A) : Listener × World A :=
  l.detach w

/-- `Listener::Listener(Listener &&rhs)`: the new listener and the state of `rhs`
afterwards. -/
def Listener.moveConstruct (rhs : Listener) : Listener × Listener :=
  ({ event_ := rhs.event_, id_ := rhs.id_ }, { event_ := none, id_ := 0 })

/-- Destructor of a `ListenerPtr`: destroys the listener it owns, if any. -/
def World.destroyPtr (w : World A) (p : Option Listener) : World A :=
  match p with
  | none => w
  | some l => (l.destroy w).2

/-! ## `Event` -/

/-- Bookkeeping for `nextCallbackId_ += 1` on the registry state `r`: the increment
overflows when the counter is the largest `int`. -/
def World.noteOverflow (w : World A) (r : EventImpl A) : World A :=
  if r.nextCallbackId_ = 2147483647 then { w with overflow := true } else w

/-- `Event::attach(T&& f)`: the returned `ListenerPtr` and the new world. (A
`shared_ptr` keeps its registry alive, so `w.heap a = none` does not occur for the
address of an event; the functions below leave the world alone there.) -/
def Event.attach (ev : Event) (f : Callable A) (w : World A) : Option Listener × World A :=
  match ev.eventImpl_ with
  | none => (none, w)
  | some a =>
    match w.heap a with
    | none => (none, w)
    | some c =>
      let r := c.obj.attach f
      (some { event_ := some a, id_ := r.2 }, (w.noteOverflow c.obj).setObj a c r.1)

/-- `Event::getListenersCount`: the returned count and the new world. -/
def Event.getListenersCount (ev : Event) (w : World A) : Nat × World A :=
  match ev.eventImpl_ with
  | none => (0, w)
  | some a =>
    match w.heap a with
    | none => (0, w)
    | some c =>
      let r := c.obj.getListenersCount
      (r.2, w.setObj a c r.1)

/-- Assignment to the event variable `dst`: the new pointer is stored, then the old
one is released (`shared_ptr(std::move(r)).swap(*this)`). -/
def World.assignEvent (w : World A) (dst : Nat) (p : Option Nat) : World A :=
  let old := (w.events dst).eventImpl_
  (w.setEvent dst ⟨p⟩).release old

/-- `e = Event<Args...>()`: `std::make_shared<EventImpl<Args...>>()` at a new address. -/
def World.newEvent (w : World A) (e : Nat) : World A :=
  let a := w.nextAddr
  let w1 : World A :=
    { w with heap := Function.update w.heap a (some { useCount := 1, obj := EventImpl.fresh })
             nextAddr := a + 1 }
  w1.assignEvent e (some a)

/-- `dst = src` on events. -/
def World.copyEvent (w : World A) (dst src : Nat) : World A :=
  let p := (w.events src).eventImpl_
  (w.acquire p).assignEvent dst p

/-- `dst = std::move(src)` on events: `src` is left null. -/
def World.moveEvent (w : World A) (dst src : Nat) : World A :=
  let p := (w.events src).eventImpl_
  (w.setEvent src ⟨none⟩).assignEvent dst p

/-- The event variable `e` goes out of scope. -/
def World.dropEvent (w : World A) (e : Nat) : World A :=
  w.assignEvent e none

/-- Assignment to the `ListenerPtr` variable `h`: the listener it owned is destroyed. -/
def World.assignPtr (w : World A) (h : Nat) (p : Option Listener) : World A :=
  (w.destroyPtr (w.listeners h)).setListener h p

/-- `h = e.attach(f)`, or `e.attach(f);` with the result dropped when `h = none`. -/
def World.attach (w : World A) (e : Nat) (f : Callable A) (h : Option Nat) : World A :=
  let r := (w.events e).attach f w
  match h with
  | none => r.2.destroyPtr r.1
  | some h => r.2.assignPtr h r.1

/-- `e.getListenersCount();`. -/
def World.count (w : World A) (e : Nat) : World A :=
  ((w.events e).getListenersCount w).2

/-- Outcome of running user code that does not return a world. -/
inductive Err where
  /-- The C++ program has undefined behaviour: a null `ListenerPtr` is dereferenced,
  the node under the iterator of a running invocation was erased, or the registry
  was destroyed while it was being iterated. -/
  | undefinedBehaviour
  /-- The fuel ran out. -/
  | outOfFuel
  deriving DecidableEq, Repr

/-- `h->detach()`. -/
def World.detach (w : World A) (h : Nat) : Except Err (World A) :=
  match w.listeners h with
  | none => .error .undefinedBehaviour
  | some l =>
    let r := l.detach w
    .ok (r.2.setListener h (some r.1))

/-- `h.reset()`. -/
def World.dropListener (w : World A) (h : Nat) : World A :=
  w.assignPtr h none

/-- `dst = ListenerPtr(new Listener(std::move(*src)))`. -/
def World.moveListener (w : World A) (dst src : Nat) : Except Err (World A) :=
  match w.listeners src with
  | none => .error .undefinedBehaviour
  | some s =>
    let r := s.moveConstruct
    .ok ((w.setListener src (some r.2)).assignPtr dst (some r.1))

/-- `Listener::operator=(Listener &&rhs)` as `*dst = std::move(*src)`. The fields of
`rhs` are read after `detach()` has run, as in the source (`dst` and `src` may be
the same variable). -/
def World.assignListener (w : World A) (dst src : Nat) : Except Err (World A) :=
  match w.listeners dst, w.listeners src with
  | some d, some _ =>
    let r := d.detach w
    let w1 := r.2.setListener dst (some r.1)
    match w1.listeners src with
    | none => .error .undefinedBehaviour
    | some s =>
      let w2 := w1.setListener dst (some { event_ := s.event_, id_ := s.id_ })
      .ok (w2.setListener src (some { event_ := none, id_ := 0 }))
  | _, _ => .error .undefinedBehaviour

/-- `dst = std::move(src)` on `ListenerPtr`s (`reset(src.release())`). -/
def World.movePtr (w : World A) (dst src : Nat) : World A :=
  (w.setListener src none).assignPtr dst (w.listeners src)

/-- Record the call of entry `k` holding `f`. -/
def World.record (w : World A) (k : Int) (f : Callable A) (args : A) : World A :=
  { w with calls := w.calls ++ [{ id := k, tag := f.tag, args := args }] }

/-- Start of `EventImpl::operator()` on the registry at `a`: `removeErased()`. -/
def World.purge (w : World A) (a : Nat) (c : Shared A) : World A :=
  w.setObj a c c.obj.removeErased

mutual
/-- Run a body of user code, statement by statement. -/
def execBody [ArgPack A] : Nat → List (Stmt A) → World A → Except Err (World A)
  | _, [], w => .ok w
  | 0, _ :: _, _ => .error .outOfFuel
  | fuel + 1, s :: rest, w =>
    match s with
    | .newEvent e => execBody fuel rest (w.newEvent e)
    | .copyEvent dst src => execBody fuel rest (w.copyEvent dst src)
    | .moveEvent dst src => execBody fuel rest (w.moveEvent dst src)
    | .dropEvent e => execBody fuel rest (w.dropEvent e)
    | .attach e f h => execBody fuel rest (w.attach e f h)
    | .count e => execBody fuel rest (w.count e)
    | .dropListener h => execBody fuel rest (w.dropListener h)
    | .movePtr dst src => execBody fuel rest (w.movePtr dst src)
    | .detach h =>
      match w.detach h with
      | .ok w1 => execBody fuel rest w1
      | .error err => .error err
    | .moveListener dst src =>
      match w.moveListener dst src with
      | .ok w1 => execBody fuel rest w1
      | .error err => .error err
    | .assignListener dst src =>
      match w.assignListener dst src with
      | .ok w1 => execBody fuel rest w1
      | .error err => .error err
    | .invoke e args =>
      match (w.events e).eventImpl_ with
      | none => execBody fuel rest w
      | some a =>
        match w.heap a with
        | none => execBody fuel rest w
        | some c =>
          match invokeLoop fuel a none args (w.purge a c) with
          | .ok w1 => execBody fuel rest w1
          | .error err => .error err
/-- The range-for of `EventImpl::operator()` over `callbacks_` of the registry at
`a`, with the iterator at `cur`: advance, call the callable, repeat. The map is read
anew at every step, since the callables may change it. Every call is made with
`std::forward<Args>(args)...`, so the next step goes on with what the call has left
in `args`. -/
def invokeLoop [ArgPack A] : Nat → Nat → Option Int → A → World A → Except Err (World A)
  | 0, _, _, _, _ => .error .outOfFuel
  | fuel + 1, a, cur, args, w =>
    match w.heap a with
    | none => .error .undefinedBehaviour
    | some c =>
      if iteratorValid cur c.obj.callbacks_ then
        match mapNext cur c.obj.callbacks_ with
        | none => .ok w
        | some (k, f) =>
          match execBody fuel f.body (w.record k f args) with
          | .ok w1 => invokeLoop fuel a (some k) (ArgPack.movedFrom args) w1
          | .error err => .error err
      else .error .undefinedBehaviour
end

/-- `EventImpl::operator()` on the registry at `a`. -/
def EventImpl.invoke [ArgPack A] (fuel : Nat) (a : Nat) (args : A) (w : World A) :
    Except Err (World A) :=
  match w.heap a with
  | none => .ok w
  | some c => invokeLoop fuel a none args (w.purge a c)

/-- `Event::operator()`. -/
def Event.invoke [ArgPack A] (fuel : Nat) (ev : Event) (args : A) (w : World A) :
    Except Err (World A) :=
  match ev.eventImpl_ with
  | none => .ok w
  | some a => EventImpl.invoke fuel a args w

/-- Invoke the event `n` times in a row. -/
def Event.invokeTimes [ArgPack A] (fuel : Nat) (ev : Event) (args : A) :
    Nat → World A → Except Err (World A)
  | 0, w => .ok w
  | n + 1, w =>
    match ev.invoke fuel args w with
    | .ok w1 => Event.invokeTimes fuel ev args n w1
    | .error err => .error err

/-- Run a program from the initial world. -/
def run [ArgPack A] (fuel : Nat) (prog : List (Stmt A)) : Except Err (World A) :=
  execBody fuel prog World.init

/-- Calls recorded by a run. -/
def callsOfRun (r : Except Err (World A)) : Option (List (Call A)) :=
  match r with
  | .ok w => some w.calls
  | .error _ => none

/-- Count reported by event variable `e` at the end of a run. -/
def countOfRun (e : Nat) (r : Except Err (World A)) : Option Nat :=
  match r with
  | .ok w => some ((w.events e).getListenersCount w).1
  | .error _ => none

/-! ## Vocabulary of the specification -/

/-- The keys of the map are strictly ascending: the representation invariant of
`std::map`. -/
def mapSorted (m : CallbackMap A) : Prop :=
  m.Pairwise (fun p q => p.1 < q.1)

/-- Live entries of a registry: the entries whose id is not pending removal. -/
def EventImpl.live (r : EventImpl A) : CallbackMap A :=
  r.callbacks_.filter (fun p => decide (p.1 ∉ r.erased_))

/-- The calls made by one pass over the entries `m`, in the order of `m`, that starts
with the arguments `args`: every call goes on with what the call before it has left
of the arguments. -/
def callsOf [ArgPack A] : CallbackMap A → A → List (Call A)
  | [], _ => []
  | p :: m, args =>
    { id := p.1, tag := p.2.tag, args := args } :: callsOf m (ArgPack.movedFrom args)

/-- The list `l` repeated `n` times. -/
def repeatCalls (n : Nat) (l : List (Call A)) : List (Call A) :=
  match n with
  | 0 => []
  | n + 1 => l ++ repeatCalls n l

/-- A callable that does nothing to events and listeners: its body is empty, so a
call of it is recorded and nothing else happens. -/
def Callable.inert (f : Callable A) : Prop := f.body = []

/-- All callables stored in `m` are inert. -/
def mapInert (m : CallbackMap A) : Prop := ∀ p ∈ m, p.2.inert

/-- Entries made of the callables `fs` under the consecutive ids `k`, `k + 1`, ... -/
def numbered (k : Int) : List (Callable A) → CallbackMap A
  | [] => []
  | f :: fs => (k, f) :: numbered (k + 1) fs

/-- Attach the callables `fs` one after another through event variable `e` and keep
the handles in the listener variables `h0`, `h0 + 1`, ... -/
def attachAll (e : Nat) (h0 : Nat) : List (Callable A) → World A → World A
  | [], w => w
  | f :: fs, w => attachAll e (h0 + 1) fs (w.attach e f (some h0))

/-- Representation invariant of a registry whose counter has not wrapped: keys
strictly ascending, every key between `1` and the counter, and room for `room` more
attachments below the largest `int`. -/
structure EventImpl.WF (r : EventImpl A) (room : Nat) : Prop where
  sorted : mapSorted r.callbacks_
  keys_pos : ∀ k ∈ mapKeys r.callbacks_, 1 ≤ k
  keys_le : ∀ k ∈ mapKeys r.callbacks_, k ≤ r.nextCallbackId_
  next_nonneg : 0 ≤ r.nextCallbackId_
  next_room : r.nextCallbackId_ + room < 2147483648

/-! ## Sample states

Small worlds built with the operations above from `World.init`; the registries
they hold are written out next to them. -/

/-- Events of signature `Event<int>`: an `int` is copied, forwarding leaves it as it
is. -/
instance : ArgPack Nat := ⟨fun x => x⟩

/-- Events of signature `Event<int, std::string>` as in the test `Parameters`: the
`int` is copied, the string is moved from and left empty (the state in which the
move constructor of the common standard libraries leaves its source). -/
instance : ArgPack (Nat × String) := ⟨fun x => (x.1, "")⟩

/-- A registry with two inert callables under the ids `1` and `2`, nothing pending. -/
def sampleRegistry : EventImpl Nat :=
  { callbacks_ := [(1, .mk 7 []), (2, .mk 8 [])], erased_ := [], nextCallbackId_ := 2 }

/-- The world after `e0 = Event(); h0 = e0.attach(f7); h1 = e0.attach(f8);`: it holds
`sampleRegistry` at address `0`, owned by event variable `0`, and the two listeners
in the listener variables `0` and `1`. -/
def sampleWorld : World Nat :=
  (((World.init.newEvent 0).attach 0 (.mk 7 []) (some 0)).attach 0 (.mk 8 []) (some 1))

/-- A registry with three callables; the second one detaches the listener held in
listener variable `1`. -/
def selfDetachRegistry : EventImpl Nat :=
  { callbacks_ := [(1, .mk 7 []), (2, .mk 8 [.detach 1]), (3, .mk 9 [])], erased_ := [],
    nextCallbackId_ := 3 }

/-- The world after `e0 = Event(); h0 = e0.attach(f7); h1 = e0.attach(f8);
h2 = e0.attach(f9);` where `f8` runs `h1->detach()`: it holds `selfDetachRegistry` at
address `0`, and the second callable detaches its own listener. -/
def selfDetachWorld : World Nat :=
  ((((World.init.newEvent 0).attach 0 (.mk 7 []) (some 0)).attach 0
      (.mk 8 [.detach 1]) (some 1)).attach 0 (.mk 9 []) (some 2))

/-- A registry with one callable, which attaches an inert callable to event variable
`0` and keeps the handle in listener variable `1`. -/
def attachingRegistry : EventImpl Nat :=
  { callbacks_ := [(1, .mk 1 [.attach 0 (.mk 2 []) (some 1)])], erased_ := [],
    nextCallbackId_ := 1 }

/-- The world after `e0 = Event(); h0 = e0.attach(f1);` where `f1` runs
`h1 = e0.attach(f2)`: it holds `attachingRegistry` at address `0`; listener variable
`1` is empty. -/
def attachingWorld : World Nat :=
  ((World.init.newEvent 0).attach 0 (.mk 1 [.attach 0 (.mk 2 []) (some 1)]) (some 0))

/-- A registry with one inert callable under the id `1`. -/
def oneListenerRegistry : EventImpl Nat :=
  { callbacks_ := [(1, .mk 7 [])], erased_ := [], nextCallbackId_ := 1 }

/-- The world of the test `MoveIntoEventWithListeners` before the move:
`e0 = Event(); e1 = Event(); h0 = e1.attach(f7);`. Event variable `1` is the only
owner of the registry at address `1`, which has one listener; event variable `0`
owns the fresh registry at address `0`. -/
def twoEventWorld : World Nat :=
  (((World.init.newEvent 0).newEvent 1).attach 1 (.mk 7 []) (some 0))

/-- Keys of the entries of the registry owned by event variable `e` at the end of a
run. -/
def keysOfRun (e : Nat) (r : Except Err (World A)) : Option (List Int) :=
  match r with
  | .ok w =>
    match (w.events e).eventImpl_ with
    | none => none
    | some a => (w.heap a).map (fun c => mapKeys c.obj.callbacks_)
  | .error _ => none

/-! ## Sequences of operations on one registry -/

/-- A call of one of the four public member functions of `EventImpl`. -/
inductive RegOp (A : Type) where
  /-- `attach(f)`. -/
  | attach (f : Callable A)
  /-- `remove(id)`. -/
  | remove (id : Int)
  /-- `operator()(args...)`, as far as the registry goes: `removeErased()`; the loop
  itself reads `callbacks_` only (what the callables do to the registry are further
  operations). -/
  | invoke
  /-- `getListenersCount()`. -/
  | count

/-- The registry after the operation, and the id handed out if it is an `attach`. -/
def RegOp.apply (op : RegOp A) (r : EventImpl A) : EventImpl A × Option Int :=
  match op with
  | .attach f => ((r.attach f).1, some (r.attach f).2)
  | .remove id => (r.remove id, none)
  | .invoke => (r.removeErased, none)
  | .count => (r.getListenersCount.1, none)

/-- Run the operations one after another: the registry at the end and the ids handed
out by the `attach` operations, in order. -/
def runOps : List (RegOp A) → EventImpl A → EventImpl A × List Int
  | [], r => (r, [])
  | op :: ops, r =>
    ((runOps ops (op.apply r).1).1, (op.apply r).2.toList ++ (runOps ops (op.apply r).1).2)

/-- Number of `attach` operations in a sequence. -/
def attachCount : List (RegOp A) → Nat
  | [] => 0
  | .attach _ :: ops => attachCount ops + 1
  | _ :: ops => attachCount ops


/-- The world after `e0 = Event(); h0 = e0.attach(f1); h1 = e0.attach(f2);` where
`f1` runs `h1->detach(); e0.getListenersCount();`: the first callable detaches the
listener of the second one and then asks the same event for its count. -/
def detachCountWorld : World Nat :=
  (((World.init.newEvent 0).attach 0 (.mk 1 [.detach 1, .count 0]) (some 0)).attach 0
    (.mk 2 []) (some 1))

/-- The world after `e0 = Event(); h0 = e0.attach(f1); h1 = e0.attach(f2);` where
`f1` runs `h1->detach();`: the first callable detaches the listener of the second
one. -/
def detachOtherWorld : World Nat :=
  (((World.init.newEvent 0).attach 0 (.mk 1 [.detach 1]) (some 0)).attach 0
    (.mk 2 []) (some 1))


/-! ## Handles and the entries they name -/

/-- Every listener held in a listener variable that has a non-sentinel id and whose
registry still exists has its id among the keys of `callbacks_` or in `erased_` of
that registry. -/
def World.handlesTracked (w : World A) : Prop :=
  ∀ h l a c, w.listeners h = some l → l.id_ ≠ 0 → l.event_ = some a → w.heap a = some c →
    l.id_ ∈ mapKeys c.obj.callbacks_ ∨ l.id_ ∈ c.obj.erased_

/-- The counter is a value of `int`. -/
def EventImpl.counterInRange (r : EventImpl A) : Prop :=
  -2147483648 ≤ r.nextCallbackId_ ∧ r.nextCallbackId_ ≤ 2147483647

/-- The listener `l` names an address that was allocated and, when its id is not the
sentinel and its registry exists, an entry of the registry that is not pending
removal, with an id the counter has passed. -/
def World.fits (w : World A) (l : Listener) : Prop :=
  (∀ a, l.event_ = some a → a < w.nextAddr)
  ∧ (∀ a c, l.id_ ≠ 0 → l.event_ = some a → w.heap a = some c →
      l.id_ ∈ mapKeys c.obj.callbacks_ ∧ l.id_ ∉ c.obj.erased_
        ∧ l.id_ ≤ c.obj.nextCallbackId_)

/-- Invariant of the worlds reached without overflow of a counter: counters are
values of `int`, registries live at allocated addresses, every listener in a
variable fits, and no two variables hold listeners with the same registry and the
same non-sentinel id. -/
structure World.Good (w : World A) : Prop where
  range : ∀ a c, w.heap a = some c → c.obj.counterInRange
  heap_lt : ∀ a c, w.heap a = some c → a < w.nextAddr
  fits : ∀ h l, w.listeners h = some l → w.fits l
  unique : ∀ h1 h2 l1 l2 a, h1 ≠ h2 → w.listeners h1 = some l1 → w.listeners h2 = some l2 →
    l1.event_ = some a → l2.event_ = some a → l1.id_ ≠ 0 → l1.id_ ≠ l2.id_

/-- A counter has overflowed, or the world is good. -/
def World.Inv (w : World A) : Prop := w.overflow = true ∨ w.Good


/-- The world after `e0 = Event(); h0 = e0.attach(f7); h1 = e0.attach(f8);
h2 = e0.attach(f9);` where `f8` runs `h1->detach(); e0.getListenersCount();`: the
second callable detaches its own listener and then asks the same event for its
count. -/
def selfDetachCountWorld : World Nat :=
  ((((World.init.newEvent 0).attach 0 (.mk 7 []) (some 0)).attach 0
      (.mk 8 [.detach 1, .count 0]) (some 1)).attach 0 (.mk 9 []) (some 2))

/-! ## Lemmas on the map -/

theorem wrapInt_eq (x : Int) (h1 : -2147483648 ≤ x) (h2 : x < 2147483648) :
    wrapInt x = x := by
  unfold wrapInt
  omega

theorem mapKeys_cons (p : Int × Callable A) (m : CallbackMap A) :
    mapKeys (p :: m) = p.1 :: mapKeys m := rfl

theorem mapKeys_append (m1 m2 : CallbackMap A) :
    mapKeys (m1 ++ m2) = mapKeys m1 ++ mapKeys m2 := by
  simp [mapKeys]

theorem mem_mapKeys {k : Int} {m : CallbackMap A} :
    k ∈ mapKeys m ↔ ∃ f, (k, f) ∈ m := by
  simp [mapKeys]

theorem mapErase_eq_filter (k : Int) (m : CallbackMap A) :
    mapErase k m = m.filter (fun p => decide (p.1 ≠ k)) := rfl

theorem foldl_mapErase (er : List Int) (m : CallbackMap A) :
    er.foldl (fun m i => mapErase i m) m = m.filter (fun p => decide (p.1 ∉ er)) := by
  induction er generalizing m with
  | nil => simp
  | cons i er ih =>
    rw [List.foldl_cons, ih, mapErase, List.filter_filter]
    congr 1
    funext p
    by_cases h : p.1 = i <;> simp [h]

theorem removeErased_callbacks (r : EventImpl A) :
    r.removeErased.callbacks_ = r.live := by
  simp [EventImpl.removeErased, EventImpl.live, foldl_mapErase]

theorem removeErased_erased (r : EventImpl A) : r.removeErased.erased_ = [] := rfl

theorem removeErased_next (r : EventImpl A) :
    r.removeErased.nextCallbackId_ = r.nextCallbackId_ := rfl

theorem live_of_erased_nil (r : EventImpl A) (h : r.erased_ = []) :
    r.live = r.callbacks_ := by
  simp [EventImpl.live, h]

theorem removeErased_of_erased_nil (r : EventImpl A) (h : r.erased_ = []) :
    r.removeErased = r := by
  cases r with
  | mk c e n =>
    simp only at h
    subst h
    simp [EventImpl.removeErased]

theorem mapSorted_filter (q : Int × Callable A → Bool) (m : CallbackMap A)
    (h : mapSorted m) : mapSorted (m.filter q) :=
  List.Pairwise.filter q h

theorem live_sorted (r : EventImpl A) (h : mapSorted r.callbacks_) : mapSorted r.live :=
  mapSorted_filter _ _ h

theorem live_subset (r : EventImpl A) : ∀ p ∈ r.live, p ∈ r.callbacks_ := by
  intro p hp
  exact (List.mem_filter.mp hp).1

theorem mapEmplace_append (k : Int) (f : Callable A) (m : CallbackMap A)
    (h : ∀ j ∈ mapKeys m, j < k) : mapEmplace k f m = m ++ [(k, f)] := by
  induction m with
  | nil => rfl
  | cons p m ih =>
    obtain ⟨j, g⟩ := p
    have hj : j < k := h j (by simp [mapKeys])
    have hrest : ∀ i ∈ mapKeys m, i < k := fun i hi => h i (by simp [mapKeys] at hi ⊢; exact Or.inr hi)
    simp only [mapEmplace, List.cons_append]
    rw [if_neg (by omega), if_neg (by omega), ih hrest]

theorem mapSorted_append_singleton (k : Int) (f : Callable A) (m : CallbackMap A)
    (hs : mapSorted m) (h : ∀ j ∈ mapKeys m, j < k) : mapSorted (m ++ [(k, f)]) := by
  unfold mapSorted
  rw [List.pairwise_append]
  refine ⟨hs, List.pairwise_singleton _ _, ?_⟩
  intro p hp q hq
  simp only [List.mem_singleton] at hq
  subst hq
  exact h p.1 (by simp only [mapKeys, List.mem_map]; exact ⟨p, hp, rfl⟩)

theorem mapNext_sorted_append (pre suf : CallbackMap A) (k : Int) (f : Callable A)
    (hs : mapSorted (pre ++ (k, f) :: suf)) :
    mapNext (some k) (pre ++ (k, f) :: suf) = suf.head? := by
  unfold mapSorted at hs
  rw [List.pairwise_append] at hs
  obtain ⟨_, hsuf, hcross⟩ := hs
  rw [List.pairwise_cons] at hsuf
  simp only [mapNext]
  rw [List.find?_append]
  have h1 : pre.find? (fun p => decide (k < p.1)) = none := by
    rw [List.find?_eq_none]
    intro p hp
    have := hcross p hp (k, f) (by simp)
    simp only [decide_eq_true_eq, not_lt]
    exact le_of_lt this
  rw [h1]
  simp only [Option.none_or, List.find?_cons, lt_self_iff_false, decide_False]
  cases suf with
  | nil => rfl
  | cons q suf =>
    have := hsuf.1 q (by simp)
    simp only [this, List.find?_cons, decide_True, List.head?_cons]

theorem execBody_nil [ArgPack A] (fuel : Nat) (w : World A) : execBody fuel [] w = .ok w := by
  cases fuel <;> simp [execBody]

/-- The iterator position after the entries `pre` have been visited. -/
theorem mapNext_cursor (pre suf : CallbackMap A) (hs : mapSorted (pre ++ suf)) :
    mapNext (pre.getLast?.map Prod.fst) (pre ++ suf) = suf.head? := by
  rcases List.eq_nil_or_concat pre with h | ⟨L, b, h⟩
  · subst h
    rfl
  · rw [List.concat_eq_append] at h
    subst h
    obtain ⟨k, f⟩ := b
    have hl : (L ++ [(k, f)]).getLast?.map Prod.fst = some k := by simp
    rw [hl, List.append_assoc, List.singleton_append]
    rw [List.append_assoc, List.singleton_append] at hs
    exact mapNext_sorted_append L suf k f hs

theorem iteratorValid_cursor (pre suf : CallbackMap A) :
    iteratorValid (pre.getLast?.map Prod.fst) (pre ++ suf) = true := by
  rcases List.eq_nil_or_concat pre with h | ⟨L, b, h⟩
  · subst h
    rfl
  · rw [List.concat_eq_append] at h
    subst h
    simp [iteratorValid, mapKeys]

theorem callsOf_nil [ArgPack A] (args : A) : callsOf ([] : CallbackMap A) args = [] := rfl

theorem callsOf_cons [ArgPack A] (p : Int × Callable A) (m : CallbackMap A) (args : A) :
    callsOf (p :: m) args
      = { id := p.1, tag := p.2.tag, args := args } :: callsOf m (ArgPack.movedFrom args) :=
  rfl

theorem callsOf_append [ArgPack A] (m1 m2 : CallbackMap A) (args : A) :
    callsOf (m1 ++ m2) args
      = callsOf m1 args ++ callsOf m2 (ArgPack.movedFrom^[m1.length] args) := by
  induction m1 generalizing args with
  | nil => rfl
  | cons p m1 ih =>
    simp only [List.cons_append, callsOf_cons, ih, List.length_cons,
      Function.iterate_succ_apply]

theorem callsOf_length [ArgPack A] (m : CallbackMap A) (args : A) :
    (callsOf m args).length = m.length := by
  induction m generalizing args with
  | nil => rfl
  | cons p m ih => simp [callsOf_cons, ih]

/-- Every recorded call of a pass is the call of an entry of the pass. -/
theorem mem_callsOf [ArgPack A] (m : CallbackMap A) (args : A) (x : Call A) (hx : x ∈ callsOf m args) :
    ∃ p ∈ m, x.id = p.1 ∧ x.tag = p.2.tag := by
  induction m generalizing args with
  | nil => simp [callsOf_nil] at hx
  | cons p m ih =>
    rw [callsOf_cons, List.mem_cons] at hx
    rcases hx with hx | hx
    · subst hx
      exact ⟨p, by simp, rfl, rfl⟩
    · obtain ⟨q, hq, h1, h2⟩ := ih _ hx
      exact ⟨q, by simp [hq], h1, h2⟩

/-- With arguments that forwarding leaves as they are, every call of a pass is made
with the arguments of the invocation. -/
theorem callsOf_copied [ArgPack A] (m : CallbackMap A) (args : A)
    (h : ArgPack.movedFrom args = args) :
    callsOf m args = m.map (fun p => { id := p.1, tag := p.2.tag, args := args }) := by
  induction m with
  | nil => rfl
  | cons p m ih => rw [callsOf_cons, h, ih, List.map_cons]

/-- The loop over a tail of inert entries: each of them is called once, in order,
and nothing but the call record changes. -/
theorem invokeLoop_inert [ArgPack A] (a : Nat) (c : Shared A) :
    ∀ (suf pre : CallbackMap A) (args : A) (fuel : Nat) (w : World A),
      w.heap a = some c → c.obj.callbacks_ = pre ++ suf → mapSorted (pre ++ suf) →
      mapInert suf → suf.length < fuel →
      invokeLoop fuel a (pre.getLast?.map Prod.fst) args w
        = .ok { w with calls := w.calls ++ callsOf suf args } := by
  intro suf
  induction suf with
  | nil =>
    intro pre args fuel w hh hc hs _ hf
    obtain ⟨fuel, rfl⟩ : ∃ n, fuel = n + 1 := ⟨fuel - 1, by simp at hf; omega⟩
    have h1 := iteratorValid_cursor pre ([] : CallbackMap A)
    have h2 := mapNext_cursor pre [] hs
    rw [List.append_nil] at h1 h2 hc
    rw [invokeLoop.eq_def]
    simp only [hh, hc, h1, h2, if_true, List.head?_nil, callsOf_nil, List.append_nil]
  | cons p suf ih =>
    intro pre args fuel w hh hc hs hin hf
    obtain ⟨fuel, rfl⟩ : ∃ n, fuel = n + 1 := ⟨fuel - 1, by simp at hf; omega⟩
    obtain ⟨k, f⟩ := p
    have hbody : f.body = [] := hin (k, f) (by simp)
    rw [invokeLoop.eq_def]
    simp only [hh, hc, iteratorValid_cursor, mapNext_cursor pre _ hs, if_true,
      List.head?_cons, hbody, execBody_nil]
    have hpre : (pre ++ [(k, f)]).getLast?.map Prod.fst = some k := by simp
    have hc2 : c.obj.callbacks_ = (pre ++ [(k, f)]) ++ suf := by simp [hc]
    have hs2 : mapSorted ((pre ++ [(k, f)]) ++ suf) := by simpa using hs
    have hin2 : mapInert suf := fun q hq => hin q (by simp [hq])
    have := ih (pre ++ [(k, f)]) (ArgPack.movedFrom args) fuel (w.record k f args) hh hc2
      hs2 hin2 (by simp at hf; omega)
    rw [hpre] at this
    rw [this]
    simp [World.record, callsOf_cons]

theorem purge_heap (w : World A) (a : Nat) (c : Shared A) :
    (w.purge a c).heap a = some { c with obj := c.obj.removeErased } := by
  simp [World.purge, World.setObj]

theorem purge_of_erased_nil (w : World A) (a : Nat) (c : Shared A)
    (hh : w.heap a = some c) (he : c.obj.erased_ = []) : w.purge a c = w := by
  unfold World.purge World.setObj
  rw [removeErased_of_erased_nil _ he]
  have : Function.update w.heap a (some { c with obj := c.obj }) = w.heap := by
    rw [← hh]
    exact Function.update_eq_self a w.heap
  rw [this]

/-- One invocation of an event whose live callables are inert: the pending removals
are purged and every live callable is called once, in ascending order of ids. -/
theorem invoke_inert [ArgPack A] (ev : Event) (a : Nat) (c : Shared A) (args : A) (fuel : Nat)
    (w : World A) (hev : ev.eventImpl_ = some a) (hh : w.heap a = some c)
    (hs : mapSorted c.obj.callbacks_) (hin : mapInert c.obj.live)
    (hf : c.obj.live.length < fuel) :
    ev.invoke fuel args w
      = .ok { (w.purge a c) with calls := w.calls ++ callsOf c.obj.live args } := by
  unfold Event.invoke EventImpl.invoke
  simp only [hev, hh]
  have h := invokeLoop_inert a { c with obj := c.obj.removeErased } c.obj.live [] args
    fuel (w.purge a c) (purge_heap w a c) (by simp [removeErased_callbacks])
    (by simpa using live_sorted _ hs) hin hf
  simp only [List.getLast?_nil, Option.map_none'] at h
  rw [h]
  rfl

/-- Repeated invocation of an event whose registry has nothing pending and only
inert callables. -/
theorem invokeTimes_inert_purged [ArgPack A] (ev : Event) (a : Nat) (c : Shared A) (args : A)
    (fuel : Nat) (hev : ev.eventImpl_ = some a) (he : c.obj.erased_ = [])
    (hs : mapSorted c.obj.callbacks_) (hin : mapInert c.obj.callbacks_)
    (hf : c.obj.callbacks_.length < fuel) :
    ∀ (n : Nat) (w : World A), w.heap a = some c →
      ev.invokeTimes fuel args n w
        = .ok { w with calls := w.calls ++ repeatCalls n (callsOf c.obj.callbacks_ args) } := by
  intro n
  induction n with
  | zero =>
    intro w _
    simp [Event.invokeTimes, repeatCalls]
  | succ n ih =>
    intro w hh
    have hl := live_of_erased_nil c.obj he
    have h1 := invoke_inert ev a c args fuel w hev hh hs (by rw [hl]; exact hin)
      (by rw [hl]; exact hf)
    rw [purge_of_erased_nil w a c hh he, hl] at h1
    simp only [Event.invokeTimes, h1]
    rw [ih { w with calls := w.calls ++ callsOf c.obj.callbacks_ args } hh]
    simp [repeatCalls, List.append_assoc]

/-! ## Attaching -/

/-- `EventImpl::attach` on a registry with nothing pending whose counter has room:
the callable is appended under the next id. -/
theorem EventImpl.attach_eq (r : EventImpl A) (f : Callable A) (room : Nat)
    (hwf : r.WF (room + 1)) (he : r.erased_ = []) :
    r.attach f = ({ callbacks_ := r.callbacks_ ++ [(r.nextCallbackId_ + 1, f)],
                    erased_ := [], nextCallbackId_ := r.nextCallbackId_ + 1 },
                  r.nextCallbackId_ + 1) := by
  have h0 := hwf.next_nonneg
  have h1 := hwf.next_room
  have hw : wrapInt (r.nextCallbackId_ + 1) = r.nextCallbackId_ + 1 :=
    wrapInt_eq _ (by omega) (by push_cast at h1; omega)
  have hk : ∀ j ∈ mapKeys r.callbacks_, j < r.nextCallbackId_ + 1 := fun j hj => by
    have := hwf.keys_le j hj
    omega
  unfold EventImpl.attach
  simp only [removeErased_of_erased_nil r he, hw, mapEmplace_append _ f _ hk, he]

theorem EventImpl.attach_WF (r : EventImpl A) (f : Callable A) (room : Nat)
    (hwf : r.WF (room + 1)) (he : r.erased_ = []) : (r.attach f).1.WF room := by
  rw [EventImpl.attach_eq r f room hwf he]
  have h0 := hwf.next_nonneg
  have h1 := hwf.next_room
  have hk : ∀ j ∈ mapKeys r.callbacks_, j < r.nextCallbackId_ + 1 := fun j hj => by
    have := hwf.keys_le j hj
    omega
  refine ⟨mapSorted_append_singleton _ f _ hwf.sorted hk, ?_, ?_, ?_, ?_⟩
  · intro k hk2
    simp only [mapKeys_append, List.mem_append] at hk2
    rcases hk2 with h | h
    · exact hwf.keys_pos k h
    · simp only [mapKeys, List.map_cons, List.map_nil, List.mem_singleton] at h
      omega
  · intro k hk2
    simp only [mapKeys_append, List.mem_append] at hk2
    rcases hk2 with h | h
    · have := hwf.keys_le k h
      simp only
      omega
    · simp only [mapKeys, List.map_cons, List.map_nil, List.mem_singleton] at h
      simp only
      omega
  · simp only
    omega
  · simp only
    push_cast at h1
    omega

theorem EventImpl.fresh_WF (room : Nat) (h : room < 2147483648) :
    (EventImpl.fresh : EventImpl A).WF room := by
  refine ⟨List.Pairwise.nil, ?_, ?_, ?_, ?_⟩
  · intro k hk
    simp [EventImpl.fresh, mapKeys] at hk
  · intro k hk
    simp [EventImpl.fresh, mapKeys] at hk
  · simp [EventImpl.fresh]
  · simp only [EventImpl.fresh]
    omega

/-- The increment of a counter with room below the largest `int` does not overflow. -/
theorem noteOverflow_WF (w : World A) (r : EventImpl A) (room : Nat)
    (hwf : r.WF (room + 1)) : w.noteOverflow r = w := by
  have h1 := hwf.next_room
  have hne : r.nextCallbackId_ ≠ 2147483647 := by
    push_cast at h1
    omega
  simp [World.noteOverflow, hne]

/-- `h = e.attach(f)` on a bound event and a null `h`. -/
theorem attach_bound (w : World A) (e h a : Nat) (c : Shared A) (f : Callable A)
    (room : Nat) (hwf : c.obj.WF (room + 1))
    (hev : (w.events e).eventImpl_ = some a) (hh : w.heap a = some c)
    (hl : w.listeners h = none) :
    w.attach e f (some h)
      = (w.setObj a c (c.obj.attach f).1).setListener h
          (some { event_ := some a, id_ := (c.obj.attach f).2 }) := by
  simp [World.attach, Event.attach, hev, hh, World.assignPtr, World.setObj, hl,
    World.destroyPtr, noteOverflow_WF w c.obj room hwf]

theorem numbered_length (k : Int) (fs : List (Callable A)) :
    (numbered k fs).length = fs.length := by
  induction fs generalizing k with
  | nil => rfl
  | cons f fs ih => simp [numbered, ih]

/-- Attaching `fs` to a bound event whose registry has nothing pending and room in its
counter appends `fs` under consecutive ids and leaves events and calls alone. -/
theorem attachAll_spec (e a : Nat) :
    ∀ (fs : List (Callable A)) (h0 : Nat) (w : World A) (c : Shared A),
      (w.events e).eventImpl_ = some a → w.heap a = some c → c.obj.erased_ = [] →
      c.obj.WF fs.length → (∀ i, i < fs.length → w.listeners (h0 + i) = none) →
      (attachAll e h0 fs w).heap a
          = some { c with obj :=
              { callbacks_ := c.obj.callbacks_ ++ numbered (c.obj.nextCallbackId_ + 1) fs,
                erased_ := [],
                nextCallbackId_ := c.obj.nextCallbackId_ + fs.length } }
        ∧ (attachAll e h0 fs w).events = w.events
        ∧ (attachAll e h0 fs w).calls = w.calls := by
  intro fs
  induction fs with
  | nil =>
    intro h0 w c _ hh he _ _
    refine ⟨?_, rfl, rfl⟩
    simp only [attachAll, numbered, List.append_nil, List.length_nil, Nat.cast_zero, add_zero]
    rw [hh, ← he]
  | cons f fs ih =>
    intro h0 w c hev hh he hwf hfree
    have hl : w.listeners h0 = none := by
      have := hfree 0 (by simp)
      simpa using this
    have hwf1 : c.obj.WF (fs.length + 1) := by simpa using hwf
    simp only [attachAll]
    rw [attach_bound w e h0 a c f fs.length hwf1 hev hh hl]
    have hat := EventImpl.attach_eq c.obj f fs.length hwf1 he
    have hwf2 := EventImpl.attach_WF c.obj f fs.length hwf1 he
    obtain ⟨i1, i2, i3⟩ := ih (h0 + 1)
      ((w.setObj a c (c.obj.attach f).1).setListener h0
          (some { event_ := some a, id_ := (c.obj.attach f).2 }))
      { c with obj := (c.obj.attach f).1 } hev
      (by simp [World.setListener, World.setObj])
      (by rw [hat]) hwf2
      (by
        intro i hi
        have := hfree (i + 1) (by simp; omega)
        have hne : h0 + 1 + i ≠ h0 := by omega
        simp only [World.setListener, World.setObj, Function.update_noteq hne]
        rw [← this]
        congr 1
        omega)
    refine ⟨?_, i2, i3⟩
    rw [i1, hat]
    simp only [numbered, List.append_assoc, List.singleton_append, List.length_cons,
      Nat.cast_add, Nat.cast_one]
    congr 3
    omega

theorem newEvent_spec (w : World A) (e : Nat) (hnew : (w.events e).eventImpl_ = none) :
    ((w.newEvent e).events e).eventImpl_ = some w.nextAddr
      ∧ (w.newEvent e).heap w.nextAddr = some { useCount := 1, obj := EventImpl.fresh }
      ∧ (w.newEvent e).listeners = w.listeners
      ∧ (w.newEvent e).calls = w.calls := by
  simp [World.newEvent, World.assignEvent, World.setEvent, hnew, World.release]

theorem count_bound (ev : Event) (a : Nat) (c : Shared A) (w : World A)
    (hev : ev.eventImpl_ = some a) (hh : w.heap a = some c) :
    ev.getListenersCount w = (c.obj.live.length, w.purge a c) := by
  simp [Event.getListenersCount, hev, hh, EventImpl.getListenersCount,
    removeErased_callbacks, World.purge]

theorem mapInert_numbered (k : Int) (fs : List (Callable A)) (h : ∀ f ∈ fs, f.inert) :
    mapInert (numbered k fs) := by
  induction fs generalizing k with
  | nil =>
    intro p hp
    simp [numbered] at hp
  | cons f fs ih =>
    intro p hp
    simp only [numbered, List.mem_cons] at hp
    rcases hp with hp | hp
    · subst hp
      exact h f (by simp)
    · exact ih (k + 1) (fun g hg => h g (by simp [hg])) p hp

theorem numbered_keys_ge (k : Int) (fs : List (Callable A)) :
    ∀ p ∈ numbered k fs, k ≤ p.1 := by
  induction fs generalizing k with
  | nil =>
    intro p hp
    simp [numbered] at hp
  | cons f fs ih =>
    intro p hp
    simp only [numbered, List.mem_cons] at hp
    rcases hp with hp | hp
    · subst hp
      exact le_refl _
    · have := ih (k + 1) p hp
      omega

theorem numbered_sorted (k : Int) (fs : List (Callable A)) : mapSorted (numbered k fs) := by
  induction fs generalizing k with
  | nil => exact List.Pairwise.nil
  | cons f fs ih =>
    unfold mapSorted
    simp only [numbered, List.pairwise_cons]
    refine ⟨?_, ih (k + 1)⟩
    intro p hp
    have := numbered_keys_ge (k + 1) fs p hp
    omega

/-- What holds of attaching and invoking in general: attaching `N` inert callables one
after another to a freshly constructed event, with the handles kept in unused
listener variables and `N` within the range of the `int` counter, makes
`getListenersCount()` return `N`, and one invocation with `args` succeeds and records
one pass over the `N` entries in the order of attachment (ids `1 .. N`), that starts
with `args`. -/
theorem attach_count_invoke [ArgPack A] (w : World A) (e h0 : Nat) (fs : List (Callable A))
    (args : A)
    (hnew : (w.events e).eventImpl_ = none)
    (hfree : ∀ i, i < fs.length → w.listeners (h0 + i) = none)
    (hin : ∀ f ∈ fs, f.inert)
    (hN : fs.length < 2147483648) :
    (((attachAll e h0 fs (w.newEvent e)).events e).getListenersCount
        (attachAll e h0 fs (w.newEvent e))).1 = fs.length
    ∧ ∀ fuel, fs.length < fuel →
        ∃ w2, ((attachAll e h0 fs (w.newEvent e)).events e).invoke fuel args
                (attachAll e h0 fs (w.newEvent e)) = .ok w2
          ∧ w2.calls = w.calls ++ callsOf (numbered 1 fs) args := by
  obtain ⟨n1, n2, n3, n4⟩ := newEvent_spec w e hnew
  obtain ⟨a1, a2, a3⟩ := attachAll_spec e w.nextAddr fs h0 (w.newEvent e)
    { useCount := 1, obj := EventImpl.fresh } n1 n2 rfl (EventImpl.fresh_WF _ hN)
    (by rw [n3]; exact hfree)
  have hev : ((attachAll e h0 fs (w.newEvent e)).events e).eventImpl_ = some w.nextAddr := by
    rw [a2]
    exact n1
  simp only [EventImpl.fresh, List.nil_append, zero_add] at a1
  constructor
  · rw [count_bound _ _ _ _ hev a1]
    simp [EventImpl.live, numbered_length]
  · intro fuel hf
    have hlive := live_of_erased_nil
      ({ callbacks_ := numbered 1 fs, erased_ := [], nextCallbackId_ := (fs.length : Int) }
        : EventImpl A) rfl
    have hsorted : mapSorted (numbered (1 : Int) fs) := numbered_sorted 1 fs
    refine ⟨_, invoke_inert _ _ _ args fuel _ hev a1 hsorted ?_ ?_, ?_⟩
    · simp only [hlive]
      exact mapInert_numbered 1 fs hin
    · simp only [hlive, numbered_length]
      exact hf
    · simp only [hlive, a3, n4]

/-- With arguments that forwarding leaves as they are (`int`, reference parameters),
the invocation of `attach_count_invoke` calls every callable with exactly `args`. -/
theorem attach_count_invoke_copied [ArgPack A] (w : World A) (e h0 : Nat) (fs : List (Callable A))
    (args : A)
    (hnew : (w.events e).eventImpl_ = none)
    (hfree : ∀ i, i < fs.length → w.listeners (h0 + i) = none)
    (hin : ∀ f ∈ fs, f.inert)
    (hN : fs.length < 2147483648)
    (hcopy : ArgPack.movedFrom args = args) :
    ∀ fuel, fs.length < fuel →
      ∃ w2, ((attachAll e h0 fs (w.newEvent e)).events e).invoke fuel args
              (attachAll e h0 fs (w.newEvent e)) = .ok w2
        ∧ w2.calls = w.calls
            ++ (numbered 1 fs).map (fun p => { id := p.1, tag := p.2.tag, args := args }) := by
  intro fuel hf
  obtain ⟨w2, h1, h2⟩ := (attach_count_invoke w e h0 fs args hnew hfree hin hN).2 fuel hf
  exact ⟨w2, h1, by rw [h2, callsOf_copied _ _ hcopy]⟩

/-- Claim C1 at a failing input: an `Event<int, std::string>` with two callables (tags
`7` and `8`, handles kept), invoked once with `(1337, "hello world")`. The count is
`2` and each callable is called once, in the order of attachment, but the second one
is called with `(1337, "")`: `EventImpl::operator()` hands `std::forward<Args>(args)...`
to every callable of the loop, and the first call has moved the string out of
`args`. -/
theorem C1_second_callable_gets_moved_from_args :
    countOfRun 0 (run 10
      [Stmt.newEvent 0, Stmt.attach 0 (.mk 7 []) (some 0), Stmt.attach 0 (.mk 8 []) (some 1)]
        : Except Err (World (Nat × String))) = some 2
    ∧ callsOfRun (run 10
      [Stmt.newEvent 0, Stmt.attach 0 (.mk 7 []) (some 0), Stmt.attach 0 (.mk 8 []) (some 1),
       Stmt.invoke 0 ((1337 : Nat), "hello world")])
      = some [{ id := 1, tag := 7, args := (1337, "hello world") },
              { id := 2, tag := 8, args := (1337, "") }] := by
  exact ⟨rfl, rfl⟩

/-! ## Detaching -/

theorem live_remove (r : EventImpl A) (id : Int) :
    (r.remove id).live = r.live.filter (fun p => decide (p.1 ≠ id)) := by
  simp only [EventImpl.live, EventImpl.remove, List.filter_filter]
  congr 1
  funext p
  by_cases h : p.1 = id <;> simp [h]

/-- `detach()` on a listener with a non-zero id whose registry is alive. -/
theorem detach_live (l : Listener) (a : Nat) (c : Shared A) (w : World A)
    (hid : l.id_ ≠ 0) (hl : l.event_ = some a) (hh : w.heap a = some c) :
    l.detach w = (Listener.sentinel, w.setObj a c (c.obj.remove l.id_)) := by
  simp [Listener.detach, hid, hl, hh, Listener.sentinel]

/-- Repeated invocation of an event whose live callables are inert. -/
theorem invokeTimes_inert [ArgPack A] (ev : Event) (a : Nat) (c : Shared A) (args : A) (fuel : Nat)
    (hev : ev.eventImpl_ = some a) (hs : mapSorted c.obj.callbacks_)
    (hin : mapInert c.obj.live) (hf : c.obj.live.length < fuel) (n : Nat) (w : World A)
    (hh : w.heap a = some c) :
    ∃ w2, ev.invokeTimes fuel args n w = .ok w2
      ∧ w2.calls = w.calls ++ repeatCalls n (callsOf c.obj.live args) := by
  cases n with
  | zero => exact ⟨w, rfl, by simp [repeatCalls]⟩
  | succ n =>
    have h1 := invoke_inert ev a c args fuel w hev hh hs hin hf
    simp only [Event.invokeTimes, h1]
    have h2 := invokeTimes_inert_purged ev a { c with obj := c.obj.removeErased } args fuel
      hev rfl (by simpa [removeErased_callbacks] using live_sorted _ hs)
      (by simpa [removeErased_callbacks] using hin)
      (by simpa [removeErased_callbacks] using hf) n
      { (w.purge a c) with calls := w.calls ++ callsOf c.obj.live args }
      (purge_heap w a c)
    rw [h2]
    refine ⟨_, rfl, ?_⟩
    simp [repeatCalls, removeErased_callbacks, List.append_assoc]

theorem mem_repeatCalls (n : Nat) (l : List (Call A)) (x : Call A)
    (h : x ∈ repeatCalls n l) : x ∈ l := by
  induction n with
  | zero => simp [repeatCalls] at h
  | succ n ih =>
    simp only [repeatCalls, List.mem_append] at h
    rcases h with h | h
    · exact h
    · exact ih h

/-- After `detach()` on a listener with a non-zero id on the registry of `ev`, the
invocations of `ev` pass over the live entries other than the detached one. -/
theorem detach_then_invokeTimes [ArgPack A] (w : World A) (ev : Event) (a : Nat) (c : Shared A)
    (l : Listener) (args : A)
    (hev : ev.eventImpl_ = some a) (hh : w.heap a = some c)
    (hl : l.event_ = some a) (hid : l.id_ ≠ 0)
    (hs : mapSorted c.obj.callbacks_)
    (hin : mapInert (c.obj.live.filter (fun p => decide (p.1 ≠ l.id_))))
    (n fuel : Nat) (hf : c.obj.live.length < fuel) :
    ∃ w2, ev.invokeTimes fuel args n (l.detach w).2 = .ok w2
      ∧ w2.calls = w.calls ++ repeatCalls n
          (callsOf (c.obj.live.filter (fun p => decide (p.1 ≠ l.id_))) args)
      ∧ ∀ x ∈ repeatCalls n
          (callsOf (c.obj.live.filter (fun p => decide (p.1 ≠ l.id_))) args),
          x.id ≠ l.id_ := by
  rw [detach_live l a c w hid hl hh]
  have hlen : (c.obj.live.filter (fun p => decide (p.1 ≠ l.id_))).length < fuel :=
    lt_of_le_of_lt (List.length_filter_le _ _) hf
  obtain ⟨w2, h1, h2⟩ := invokeTimes_inert ev a { c with obj := c.obj.remove l.id_ } args
    fuel hev hs (by simpa [live_remove] using hin) (by simpa [live_remove] using hlen) n
    (w.setObj a c (c.obj.remove l.id_)) (by simp [World.setObj])
  refine ⟨w2, h1, ?_, ?_⟩
  · rw [h2]
    simp [live_remove, World.setObj]
  · intro x hx
    obtain ⟨p, hp, hid2, _⟩ := mem_callsOf _ _ _ (mem_repeatCalls _ _ _ hx)
    rw [hid2]
    simpa using (List.mem_filter.mp hp).2

/-- Claim C2. Take any event bound to a live registry and any listener with a
non-zero id that refers to this registry (as `attach` returns it). After `detach()`
on the listener, with the other live callables inert, any number `n` of invocations
succeeds and records `n` passes over exactly the live entries other than the
detached one: the detached callable is never called, every other live callable is
called each time. -/
theorem C2_detached_never_called [ArgPack A] (w : World A) (ev : Event) (a : Nat) (c : Shared A)
    (l : Listener) (args : A)
    (hev : ev.eventImpl_ = some a) (hh : w.heap a = some c)
    (hl : l.event_ = some a) (hid : l.id_ ≠ 0)
    (hs : mapSorted c.obj.callbacks_)
    (hin : mapInert (c.obj.live.filter (fun p => decide (p.1 ≠ l.id_)))) :
    ∀ (n fuel : Nat), c.obj.live.length < fuel →
      ∃ w2, ev.invokeTimes fuel args n (l.detach w).2 = .ok w2
        ∧ w2.calls = w.calls ++ repeatCalls n
            (callsOf (c.obj.live.filter (fun p => decide (p.1 ≠ l.id_))) args)
        ∧ ∀ x ∈ repeatCalls n
            (callsOf (c.obj.live.filter (fun p => decide (p.1 ≠ l.id_))) args),
            x.id ≠ l.id_ :=
  fun n fuel hf => detach_then_invokeTimes w ev a c l args hev hh hl hid hs hin n fuel hf

theorem sampleRegistry_sorted : mapSorted sampleRegistry.callbacks_ := by
  simp [mapSorted, sampleRegistry]

theorem C2_detached_never_called_witness :
    sampleWorld.heap 0 = some { useCount := 1, obj := sampleRegistry }
    ∧ ∀ (n fuel : Nat), 2 < fuel →
      ∃ w2, Event.invokeTimes fuel ⟨some 0⟩ 5 n
              (Listener.detach { event_ := some 0, id_ := 1 } sampleWorld).2 = .ok w2
        ∧ w2.calls = repeatCalls n [{ id := 2, tag := 8, args := 5 }]
        ∧ ∀ x ∈ repeatCalls n [({ id := 2, tag := 8, args := 5 } : Call Nat)], x.id ≠ 1 :=
  ⟨rfl, C2_detached_never_called sampleWorld ⟨some 0⟩ 0 { useCount := 1, obj := sampleRegistry }
    { event_ := some 0, id_ := 1 } 5 rfl rfl rfl (by decide) sampleRegistry_sorted
    (by intro p hp; simp [sampleRegistry, EventImpl.live] at hp; subst hp; rfl)⟩

/-! ## Destruction of a listener -/

theorem removeErased_WF (r : EventImpl A) (room : Nat) (h : r.WF room) :
    r.removeErased.WF room := by
  refine ⟨?_, ?_, ?_, h.next_nonneg, h.next_room⟩
  · rw [removeErased_callbacks]
    exact live_sorted r h.sorted
  · intro k hk
    rw [removeErased_callbacks] at hk
    obtain ⟨f, hf⟩ := mem_mapKeys.mp hk
    exact h.keys_pos k (mem_mapKeys.mpr ⟨f, live_subset r _ hf⟩)
  · intro k hk
    rw [removeErased_callbacks] at hk
    obtain ⟨f, hf⟩ := mem_mapKeys.mp hk
    exact h.keys_le k (mem_mapKeys.mpr ⟨f, live_subset r _ hf⟩)

theorem attach_removeErased (r : EventImpl A) (f : Callable A) :
    r.attach f = r.removeErased.attach f := by
  simp [EventImpl.attach, removeErased_of_erased_nil r.removeErased rfl]

/-- `EventImpl::attach` on a registry whose counter has room: the pending removals
are purged and the callable is appended under the next id. -/
theorem EventImpl.attach_eq_live (r : EventImpl A) (f : Callable A) (room : Nat)
    (hwf : r.WF (room + 1)) :
    r.attach f = ({ callbacks_ := r.live ++ [(r.nextCallbackId_ + 1, f)],
                    erased_ := [], nextCallbackId_ := r.nextCallbackId_ + 1 },
                  r.nextCallbackId_ + 1) := by
  rw [attach_removeErased, EventImpl.attach_eq _ f room (removeErased_WF r _ hwf) rfl,
    removeErased_callbacks, removeErased_next]

theorem filter_keys_ne_of_lt (m : CallbackMap A) (k : Int)
    (h : ∀ j ∈ mapKeys m, j < k) : m.filter (fun p => decide (p.1 ≠ k)) = m := by
  rw [List.filter_eq_self]
  intro p hp
  have := h p.1 (by simp only [mapKeys, List.mem_map]; exact ⟨p, hp, rfl⟩)
  simp only [ne_eq, decide_not, Bool.not_eq_true', decide_eq_false_iff_not]
  omega

theorem live_keys_le (r : EventImpl A) (room : Nat) (hwf : r.WF room) :
    ∀ j ∈ mapKeys r.live, j < r.nextCallbackId_ + 1 := by
  intro j hj
  obtain ⟨f, hf⟩ := mem_mapKeys.mp hj
  have := hwf.keys_le j (mem_mapKeys.mpr ⟨f, live_subset r _ hf⟩)
  omega

/-- Live entries after `attach` followed by `remove` of the new id. -/
theorem live_attach_remove (r : EventImpl A) (f : Callable A) (room : Nat)
    (hwf : r.WF (room + 1)) :
    (((r.attach f).1).remove (r.attach f).2).live = r.live := by
  rw [live_remove, EventImpl.attach_eq_live r f room hwf]
  simp only
  rw [live_of_erased_nil
    ({ callbacks_ := r.live ++ [(r.nextCallbackId_ + 1, f)], erased_ := [],
       nextCallbackId_ := r.nextCallbackId_ + 1 } : EventImpl A) rfl]
  simp only
  rw [List.filter_append, filter_keys_ne_of_lt _ _ (live_keys_le r _ hwf)]
  simp

/-- Claim C3. The destructor of a listener is `detach()`: same listener state, same
world. In particular, on an event bound to a registry whose counter has room,
attaching a callable and destroying the returned handle at once leaves
`getListenersCount()` at its value before the attach, and a following invocation
(the live callables being inert) records exactly one call per entry that was live
before the attach, none of them under the id the handle had. On an event without
registry the returned pointer is null and nothing changes. -/
theorem C3_destroy_is_detach [ArgPack A] :
    (∀ (l : Listener) (w : World A), l.destroy w = l.detach w)
    ∧ (∀ (w : World A) (ev : Event) (a : Nat) (c : Shared A) (f : Callable A) (args : A),
        ev.eventImpl_ = some a → w.heap a = some c → c.obj.WF 1 → mapInert c.obj.live →
        ((ev.attach f w).1 = some { event_ := some a, id_ := c.obj.nextCallbackId_ + 1 })
        ∧ (ev.getListenersCount ((ev.attach f w).2.destroyPtr (ev.attach f w).1)).1
            = (ev.getListenersCount w).1
        ∧ (∀ fuel, c.obj.live.length < fuel →
            ∃ w2, ev.invoke fuel args ((ev.attach f w).2.destroyPtr (ev.attach f w).1)
                    = .ok w2
              ∧ w2.calls = w.calls ++ callsOf c.obj.live args)
        ∧ (∀ x ∈ callsOf c.obj.live args, x.id ≠ c.obj.nextCallbackId_ + 1))
    ∧ (∀ (w : World A) (ev : Event) (f : Callable A),
        ev.eventImpl_ = none →
        (ev.attach f w).1 = none ∧ (ev.attach f w).2.destroyPtr (ev.attach f w).1 = w) := by
  refine ⟨fun _ _ => rfl, ?_, ?_⟩
  · intro w ev a c f args hev hh hwf hin
    have hat : ev.attach f w = (some { event_ := some a, id_ := (c.obj.attach f).2 },
        w.setObj a c (c.obj.attach f).1) := by
      simp [Event.attach, hev, hh, noteOverflow_WF w c.obj 0 hwf]
    have hid : (c.obj.attach f).2 = c.obj.nextCallbackId_ + 1 := by
      rw [EventImpl.attach_eq_live c.obj f 0 hwf]
    have hne : c.obj.nextCallbackId_ + 1 ≠ 0 := by
      have := hwf.next_nonneg
      omega
    have hdes : (ev.attach f w).2.destroyPtr (ev.attach f w).1
        = (w.setObj a c (c.obj.attach f).1).setObj a { c with obj := (c.obj.attach f).1 }
            (((c.obj.attach f).1).remove (c.obj.attach f).2) := by
      rw [hat]
      simp only [World.destroyPtr, Listener.destroy]
      rw [detach_live _ a { c with obj := (c.obj.attach f).1 } _ (by rw [hid]; exact hne) rfl
        (by simp [World.setObj])]
    have hheap : ((ev.attach f w).2.destroyPtr (ev.attach f w).1).heap a
        = some { c with obj := ((c.obj.attach f).1).remove (c.obj.attach f).2 } := by
      rw [hdes]
      simp [World.setObj]
    have hlive := live_attach_remove c.obj f 0 hwf
    have hcalls : ((ev.attach f w).2.destroyPtr (ev.attach f w).1).calls = w.calls := by
      rw [hdes]
      rfl
    refine ⟨?_, ?_, ?_, ?_⟩
    · rw [hat, hid]
    · rw [count_bound ev a _ _ hev hheap, count_bound ev a c w hev hh]
      simp only [hlive]
    · intro fuel hf
      have hs : mapSorted (((c.obj.attach f).1).remove (c.obj.attach f).2).callbacks_ := by
        rw [EventImpl.attach_eq_live c.obj f 0 hwf]
        exact mapSorted_append_singleton _ f _ (live_sorted _ hwf.sorted)
          (live_keys_le c.obj _ hwf)
      refine ⟨_, invoke_inert ev a _ args fuel _ hev hheap hs ?_ ?_, ?_⟩
      · simp only [hlive]
        exact hin
      · simp only [hlive]
        exact hf
      · simp only [hlive, hcalls]
    · intro x hx
      obtain ⟨p, hp, hid2, _⟩ := mem_callsOf _ _ _ hx
      have := live_keys_le c.obj _ hwf p.1
        (by simp only [mapKeys, List.mem_map]; exact ⟨p, hp, rfl⟩)
      rw [hid2]
      omega
  · intro w ev f hev
    simp [Event.attach, hev, World.destroyPtr]

theorem sampleRegistry_WF : sampleRegistry.WF 1 := by
  refine ⟨sampleRegistry_sorted, ?_, ?_, ?_, ?_⟩
  · intro k hk
    simp [sampleRegistry, mapKeys] at hk
    omega
  · intro k hk
    simp [sampleRegistry, mapKeys] at hk
    simp only [sampleRegistry]
    omega
  · simp [sampleRegistry]
  · simp [sampleRegistry]

theorem sampleRegistry_inert : mapInert sampleRegistry.live := by
  intro p hp
  simp [sampleRegistry, EventImpl.live] at hp
  rcases hp with h | h <;> subst h <;> rfl

theorem C3_destroy_is_detach_witness :
    ((Event.attach ⟨some 0⟩ (Callable.mk 9 []) sampleWorld).1 = some { event_ := some 0, id_ := 3 })
    ∧ (Event.getListenersCount ⟨some 0⟩
          ((Event.attach ⟨some 0⟩ (Callable.mk 9 []) sampleWorld).2.destroyPtr
            (Event.attach ⟨some 0⟩ (Callable.mk 9 []) sampleWorld).1)).1
        = (Event.getListenersCount ⟨some 0⟩ sampleWorld).1
    ∧ (∀ fuel, 2 < fuel →
        ∃ w2, Event.invoke fuel ⟨some 0⟩ 5
                ((Event.attach ⟨some 0⟩ (Callable.mk 9 []) sampleWorld).2.destroyPtr
                  (Event.attach ⟨some 0⟩ (Callable.mk 9 []) sampleWorld).1) = .ok w2
          ∧ w2.calls = [{ id := 1, tag := 7, args := 5 }, { id := 2, tag := 8, args := 5 }])
    ∧ (∀ x ∈ [({ id := 1, tag := 7, args := 5 } : Call Nat), { id := 2, tag := 8, args := 5 }],
        x.id ≠ 3) :=
  (C3_destroy_is_detach (A := Nat)).2.1 sampleWorld ⟨some 0⟩ 0
    { useCount := 1, obj := sampleRegistry } (Callable.mk 9 []) 5 rfl rfl sampleRegistry_WF
    sampleRegistry_inert

/-! ## Moving and copying events -/

theorem release_heap_other (w : World A) (p : Option Nat) (a : Nat) (h : p ≠ some a) :
    (w.release p).heap a = w.heap a := by
  cases p with
  | none => rfl
  | some b =>
    have hne : a ≠ b := fun hab => h (by rw [hab])
    simp only [World.release]
    cases hb : w.heap b with
    | none => rfl
    | some cb =>
      simp only
      split <;> simp [Function.update_noteq hne]

theorem release_frame (w : World A) (p : Option Nat) :
    (w.release p).events = w.events ∧ (w.release p).listeners = w.listeners
      ∧ (w.release p).calls = w.calls ∧ (w.release p).nextAddr = w.nextAddr := by
  cases p with
  | none => exact ⟨rfl, rfl, rfl, rfl⟩
  | some b =>
    simp only [World.release]
    cases hb : w.heap b with
    | none => exact ⟨rfl, rfl, rfl, rfl⟩
    | some cb =>
      simp only
      split <;> exact ⟨rfl, rfl, rfl, rfl⟩

/-- `dst = std::move(src)` where `src` owns the registry at `a` and `dst` does not. -/
theorem moveEvent_spec (w : World A) (dst src a : Nat)
    (hsrc : (w.events src).eventImpl_ = some a)
    (hdst : (w.events dst).eventImpl_ ≠ some a) :
    (w.moveEvent dst src).events dst = ⟨some a⟩
      ∧ (w.moveEvent dst src).events src = ⟨none⟩
      ∧ (w.moveEvent dst src).heap a = w.heap a
      ∧ (w.moveEvent dst src).calls = w.calls
      ∧ (w.moveEvent dst src).listeners = w.listeners := by
  have hne : dst ≠ src := fun h => hdst (by rw [h]; exact hsrc)
  have hold : ((w.setEvent src ⟨none⟩).events dst).eventImpl_ = (w.events dst).eventImpl_ := by
    simp [World.setEvent, Function.update_noteq hne]
  obtain ⟨f1, f2, f3, _⟩ := release_frame
    ((w.setEvent src ⟨none⟩).setEvent dst ⟨some a⟩) (w.events dst).eventImpl_
  simp only [World.moveEvent, World.assignEvent, hsrc, hold]
  refine ⟨?_, ?_, ?_, ?_, ?_⟩
  · rw [f1]
    simp [World.setEvent]
  · rw [f1]
    simp [World.setEvent, Function.update_noteq (Ne.symm hne)]
  · rw [release_heap_other _ _ _ hdst]
    rfl
  · rw [f3]
    rfl
  · rw [f2]
    rfl

/-- Claim C4. Let `e1` own the registry at `a` and let `e2` be an event that does not
share it (a new variable in particular). After `e2 = std::move(e1)`: `e2` owns the
registry, which is untouched; `getListenersCount()` on `e2` returns what it returned
on `e1` before, and (the live callables being inert) invoking `e2` records the very
calls that invoking `e1` would have recorded; `e1` holds no registry, its
`getListenersCount()` is `0`, invoking it and attaching to it change nothing and
`attach` returns a null pointer. -/
theorem C4_move_event [ArgPack A] (w : World A) (e1 e2 a : Nat) (c : Shared A) (args : A)
    (h1 : (w.events e1).eventImpl_ = some a) (hh : w.heap a = some c)
    (h2 : (w.events e2).eventImpl_ ≠ some a)
    (hs : mapSorted c.obj.callbacks_) (hin : mapInert c.obj.live)
    (w1 : World A) (hw1 : w1 = w.moveEvent e2 e1) :
    (w1.events e2).eventImpl_ = some a
    ∧ w1.heap a = some c
    ∧ ((w1.events e2).getListenersCount w1).1 = ((w.events e1).getListenersCount w).1
    ∧ (∀ fuel, c.obj.live.length < fuel →
        ∃ w2 w3, (w1.events e2).invoke fuel args w1 = .ok w2
          ∧ (w.events e1).invoke fuel args w = .ok w3
          ∧ w2.calls = w3.calls
          ∧ w3.calls = w.calls ++ callsOf c.obj.live args)
    ∧ (w1.events e1).eventImpl_ = none
    ∧ (w1.events e1).getListenersCount w1 = (0, w1)
    ∧ (∀ fuel, (w1.events e1).invoke fuel args w1 = .ok w1)
    ∧ (∀ f : Callable A, (w1.events e1).attach f w1 = (none, w1)) := by
  obtain ⟨m1, m2, m3, m4, _⟩ := moveEvent_spec w e2 e1 a h1 h2
  rw [← hw1] at m1 m2 m3 m4
  have he2 : (w1.events e2).eventImpl_ = some a := by rw [m1]
  have he1 : (w1.events e1).eventImpl_ = none := by rw [m2]
  have hh1 : w1.heap a = some c := by rw [m3, hh]
  refine ⟨he2, hh1, ?_, ?_, he1, ?_, ?_, ?_⟩
  · rw [count_bound _ a c w1 he2 hh1, count_bound _ a c w h1 hh]
  · intro fuel hf
    refine ⟨_, _, invoke_inert _ a c args fuel w1 he2 hh1 hs hin hf,
      invoke_inert _ a c args fuel w h1 hh hs hin hf, ?_, rfl⟩
    simp only [m4]
  · simp [Event.getListenersCount, he1]
  · intro fuel
    simp [Event.invoke, he1]
  · intro f
    simp [Event.attach, he1]

theorem C4_move_event_witness :
    sampleWorld.heap 0 = some { useCount := 1, obj := sampleRegistry }
    ∧ ((sampleWorld.moveEvent 1 0).events 1).eventImpl_ = some 0
    ∧ (sampleWorld.moveEvent 1 0).heap 0 = some { useCount := 1, obj := sampleRegistry }
    ∧ (((sampleWorld.moveEvent 1 0).events 1).getListenersCount (sampleWorld.moveEvent 1 0)).1
        = ((sampleWorld.events 0).getListenersCount sampleWorld).1
    ∧ (∀ fuel, 2 < fuel →
        ∃ w2 w3, ((sampleWorld.moveEvent 1 0).events 1).invoke fuel 5 (sampleWorld.moveEvent 1 0)
            = .ok w2
          ∧ (sampleWorld.events 0).invoke fuel 5 sampleWorld = .ok w3
          ∧ w2.calls = w3.calls
          ∧ w3.calls = [{ id := 1, tag := 7, args := 5 }, { id := 2, tag := 8, args := 5 }])
    ∧ ((sampleWorld.moveEvent 1 0).events 0).eventImpl_ = none
    ∧ ((sampleWorld.moveEvent 1 0).events 0).getListenersCount (sampleWorld.moveEvent 1 0)
        = (0, sampleWorld.moveEvent 1 0)
    ∧ (∀ fuel, ((sampleWorld.moveEvent 1 0).events 0).invoke fuel 5 (sampleWorld.moveEvent 1 0)
        = .ok (sampleWorld.moveEvent 1 0))
    ∧ (∀ f : Callable Nat, ((sampleWorld.moveEvent 1 0).events 0).attach f
        (sampleWorld.moveEvent 1 0) = (none, sampleWorld.moveEvent 1 0)) :=
  ⟨rfl, C4_move_event sampleWorld 0 1 0 { useCount := 1, obj := sampleRegistry } 5 rfl rfl
    (by decide) sampleRegistry_sorted sampleRegistry_inert _ rfl⟩

/-- `dst = src` where `src` owns the registry at `a` and `dst` does not. -/
theorem copyEvent_spec (w : World A) (dst src a : Nat) (c : Shared A)
    (hsrc : (w.events src).eventImpl_ = some a) (hh : w.heap a = some c)
    (hdst : (w.events dst).eventImpl_ ≠ some a) :
    (w.copyEvent dst src).events dst = ⟨some a⟩
      ∧ (w.copyEvent dst src).events src = ⟨some a⟩
      ∧ (w.copyEvent dst src).heap a = some { c with useCount := c.useCount + 1 }
      ∧ (w.copyEvent dst src).calls = w.calls := by
  have hne : dst ≠ src := fun h => hdst (by rw [h]; exact hsrc)
  have hacq : w.acquire (some a)
      = { w with heap := Function.update w.heap a (some { c with useCount := c.useCount + 1 }) } := by
    simp [World.acquire, hh]
  obtain ⟨f1, _, f3, _⟩ := release_frame
    ((w.acquire (some a)).setEvent dst ⟨some a⟩) (w.events dst).eventImpl_
  have hold : ((w.acquire (some a)).events dst).eventImpl_ = (w.events dst).eventImpl_ := by
    rw [hacq]
  simp only [World.copyEvent, World.assignEvent, hsrc, hold]
  refine ⟨?_, ?_, ?_, ?_⟩
  · rw [f1]
    simp [World.setEvent]
  · rw [f1]
    simp only [World.setEvent, Function.update_noteq (Ne.symm hne), hacq]
    cases hv : w.events src with
    | mk q =>
      rw [hv] at hsrc
      simp only at hsrc
      rw [hsrc]
  · rw [release_heap_other _ _ _ hdst, hacq]
    simp [World.setEvent]
  · rw [f3, hacq]
    rfl

theorem repeatCalls_add (m n : Nat) (l : List (Call A)) :
    repeatCalls (m + n) l = repeatCalls m l ++ repeatCalls n l := by
  induction m with
  | zero => simp [repeatCalls]
  | succ m ih =>
    rw [Nat.succ_add]
    simp [repeatCalls, ih, List.append_assoc]

theorem invokeTimes_add [ArgPack A] (fuel : Nat) (ev : Event) (args : A) (m n : Nat) :
    ∀ (w w1 : World A), ev.invokeTimes fuel args m w = .ok w1 →
      ev.invokeTimes fuel args (m + n) w = ev.invokeTimes fuel args n w1 := by
  induction m with
  | zero =>
    intro w w1 h
    simp only [Event.invokeTimes, Except.ok.injEq] at h
    subst h
    simp
  | succ m ih =>
    intro w w1 h
    rw [Nat.succ_add]
    simp only [Event.invokeTimes] at h ⊢
    cases hi : ev.invoke fuel args w with
    | error err =>
      rw [hi] at h
      simp at h
    | ok w0 =>
      rw [hi] at h
      simp only at h ⊢
      exact ih w0 w1 h

/-- Claim C5. Let `src` own the registry at `a` and let `dst` be an event that does
not share it. After `dst = src` both variables hold the same event value, owning the
registry at `a`. A callable attached through one is counted through the other and
called when the other is invoked (after the entries that were live before), and
invoking `src` `m` times and then `dst` `n` times records `m + n` passes over the
live entries (the callables being inert, the counter having room). -/
theorem C5_copy_shares_registry [ArgPack A] (w : World A) (dst src a : Nat) (c : Shared A) (args : A)
    (f : Callable A)
    (hsrc : (w.events src).eventImpl_ = some a) (hh : w.heap a = some c)
    (hdst : (w.events dst).eventImpl_ ≠ some a)
    (hwf : c.obj.WF 1) (hin : mapInert c.obj.live) (hf : f.inert)
    (w1 : World A) (hw1 : w1 = w.copyEvent dst src) :
    w1.events dst = w1.events src
    ∧ (w1.events src).eventImpl_ = some a
    ∧ ((w1.events src).getListenersCount ((w1.events dst).attach f w1).2).1
        = c.obj.live.length + 1
    ∧ ((w1.events dst).getListenersCount ((w1.events src).attach f w1).2).1
        = c.obj.live.length + 1
    ∧ (∀ fuel, c.obj.live.length + 1 < fuel →
        ∃ w2 w3, (w1.events src).invoke fuel args ((w1.events dst).attach f w1).2 = .ok w2
          ∧ (w1.events dst).invoke fuel args ((w1.events src).attach f w1).2 = .ok w3
          ∧ w2.calls = w.calls
              ++ callsOf (c.obj.live ++ [(c.obj.nextCallbackId_ + 1, f)]) args
          ∧ w3.calls = w2.calls)
    ∧ (∀ (m n fuel : Nat), c.obj.live.length < fuel →
        ∃ w2 w3, (w1.events src).invokeTimes fuel args m w1 = .ok w2
          ∧ (w1.events dst).invokeTimes fuel args n w2 = .ok w3
          ∧ w3.calls = w.calls ++ repeatCalls (m + n) (callsOf c.obj.live args)) := by
  obtain ⟨c1, c2, c3, c4⟩ := copyEvent_spec w dst src a c hsrc hh hdst
  rw [← hw1] at c1 c2 c3 c4
  have hsame : w1.events dst = w1.events src := by rw [c1, c2]
  have hev : (w1.events src).eventImpl_ = some a := by rw [c2]
  have hat : (w1.events src).attach f w1
      = (some { event_ := some a, id_ := c.obj.nextCallbackId_ + 1 },
         w1.setObj a { c with useCount := c.useCount + 1 }
          { callbacks_ := c.obj.live ++ [(c.obj.nextCallbackId_ + 1, f)],
            erased_ := [], nextCallbackId_ := c.obj.nextCallbackId_ + 1 }) := by
    simp [Event.attach, hev, c3, EventImpl.attach_eq_live c.obj f 0 hwf,
      noteOverflow_WF w1 c.obj 0 hwf]
  have hheap : ((w1.events src).attach f w1).2.heap a
      = some { useCount := c.useCount + 1,
               obj := { callbacks_ := c.obj.live ++ [(c.obj.nextCallbackId_ + 1, f)],
                        erased_ := [], nextCallbackId_ := c.obj.nextCallbackId_ + 1 } } := by
    rw [hat]
    simp [World.setObj]
  have hlive := live_of_erased_nil
    ({ callbacks_ := c.obj.live ++ [(c.obj.nextCallbackId_ + 1, f)],
       erased_ := [], nextCallbackId_ := c.obj.nextCallbackId_ + 1 } : EventImpl A) rfl
  have hcount : ((w1.events src).getListenersCount ((w1.events src).attach f w1).2).1
      = c.obj.live.length + 1 := by
    rw [count_bound _ a _ _ hev hheap]
    simp only [hlive]
    simp
  have hsorted : mapSorted (c.obj.live ++ [(c.obj.nextCallbackId_ + 1, f)]) :=
    mapSorted_append_singleton _ f _ (live_sorted _ hwf.sorted) (live_keys_le c.obj _ hwf)
  have hinert : mapInert (c.obj.live ++ [(c.obj.nextCallbackId_ + 1, f)]) := by
    intro p hp
    rcases List.mem_append.mp hp with h | h
    · exact hin p h
    · simp only [List.mem_singleton] at h
      subst h
      exact hf
  refine ⟨hsame, hev, ?_, ?_, ?_, ?_⟩
  · rw [hsame]
    exact hcount
  · rw [hsame]
    exact hcount
  · intro fuel hfuel
    have hinv := invoke_inert (w1.events src) a _ args fuel _ hev hheap hsorted
      (by simp only [hlive]; exact hinert) (by simp only [hlive]; simpa using hfuel)
    rw [hsame]
    refine ⟨_, _, hinv, hinv, ?_, rfl⟩
    simp only [hlive, hat]
    rw [← c4]
    rfl
  · intro m n fuel hfuel
    obtain ⟨w3, h3, h3c⟩ := invokeTimes_inert (w1.events src) a
      { c with useCount := c.useCount + 1 } args fuel hev hwf.sorted hin hfuel (m + n) w1 c3
    cases hm : (w1.events src).invokeTimes fuel args m w1 with
    | error err =>
      exfalso
      have : ∀ (k : Nat) (w0 : World A),
          (w1.events src).invokeTimes fuel args m w0 = .error err →
          (w1.events src).invokeTimes fuel args (m + k) w0 = .error err := by
        clear hm h3 h3c
        induction m with
        | zero =>
          intro k w0 h0
          simp [Event.invokeTimes] at h0
        | succ m ih =>
          intro k w0 h0
          rw [Nat.succ_add]
          simp only [Event.invokeTimes] at h0 ⊢
          cases hi : (w1.events src).invoke fuel args w0 with
          | error e2 =>
            rw [hi] at h0
            exact h0
          | ok w5 =>
            rw [hi] at h0
            exact ih k w5 h0
      rw [this n w1 hm] at h3
      simp at h3
    | ok w2 =>
      refine ⟨w2, w3, rfl, ?_, ?_⟩
      · rw [hsame, ← invokeTimes_add fuel _ args m n w1 w2 hm]
        exact h3
      · rw [h3c, c4]

theorem C5_copy_shares_registry_witness :
    sampleWorld.heap 0 = some { useCount := 1, obj := sampleRegistry }
    ∧ (sampleWorld.copyEvent 1 0).events 1 = (sampleWorld.copyEvent 1 0).events 0
    ∧ ((sampleWorld.copyEvent 1 0).events 0).eventImpl_ = some 0
    ∧ (((sampleWorld.copyEvent 1 0).events 0).getListenersCount
          (((sampleWorld.copyEvent 1 0).events 1).attach (Callable.mk 9 [])
            (sampleWorld.copyEvent 1 0)).2).1 = 3
    ∧ (((sampleWorld.copyEvent 1 0).events 1).getListenersCount
          (((sampleWorld.copyEvent 1 0).events 0).attach (Callable.mk 9 [])
            (sampleWorld.copyEvent 1 0)).2).1 = 3
    ∧ (∀ fuel, 3 < fuel →
        ∃ w2 w3, ((sampleWorld.copyEvent 1 0).events 0).invoke fuel 5
              (((sampleWorld.copyEvent 1 0).events 1).attach (Callable.mk 9 [])
                (sampleWorld.copyEvent 1 0)).2 = .ok w2
          ∧ ((sampleWorld.copyEvent 1 0).events 1).invoke fuel 5
              (((sampleWorld.copyEvent 1 0).events 0).attach (Callable.mk 9 [])
                (sampleWorld.copyEvent 1 0)).2 = .ok w3
          ∧ w2.calls = [{ id := 1, tag := 7, args := 5 }, { id := 2, tag := 8, args := 5 },
                        { id := 3, tag := 9, args := 5 }]
          ∧ w3.calls = w2.calls)
    ∧ (∀ (m n fuel : Nat), 2 < fuel →
        ∃ w2 w3, ((sampleWorld.copyEvent 1 0).events 0).invokeTimes fuel 5 m
              (sampleWorld.copyEvent 1 0) = .ok w2
          ∧ ((sampleWorld.copyEvent 1 0).events 1).invokeTimes fuel 5 n w2 = .ok w3
          ∧ w3.calls = repeatCalls (m + n)
              [{ id := 1, tag := 7, args := 5 }, { id := 2, tag := 8, args := 5 }]) :=
  ⟨rfl, C5_copy_shares_registry sampleWorld 1 0 0 { useCount := 1, obj := sampleRegistry } 5
    (Callable.mk 9 []) rfl rfl (by decide) sampleRegistry_WF sampleRegistry_inert rfl _ rfl⟩

/-! ## Moving listeners -/

theorem detach_sentinel (w : World A) (l : Listener) (h : l.id_ = 0) :
    l.detach w = (l, w) := by
  simp [Listener.detach, h]

/-- Claim C6. Let the listener variable `src` hold a listener with a non-zero id on
the live registry at `a`, and let `dst` be an unused listener variable.
Move-constructing `dst` from `src` succeeds, leaves the heap (entries, pending
removals and counter of every registry) as it was, leaves `src` in the sentinel
state, on which `detach()` and destruction change nothing, and gives `dst` the
registry reference and id. An invocation after the move still passes over all live
entries (the callables being inert); after `detach()` on the new listener, any
number of invocations records passes over the live entries other than this id
only. -/
theorem C6_move_construct_listener [ArgPack A] (w : World A) (dst src a : Nat) (c : Shared A)
    (l : Listener) (ev : Event) (args : A)
    (hsrc : w.listeners src = some l) (hdst : w.listeners dst = none)
    (hl : l.event_ = some a) (hid : l.id_ ≠ 0) (hh : w.heap a = some c)
    (hev : ev.eventImpl_ = some a) (hs : mapSorted c.obj.callbacks_)
    (hin : mapInert (c.obj.live.filter (fun p => decide (p.1 ≠ l.id_)))) :
    ∃ w1, w.moveListener dst src = .ok w1
      ∧ w1.heap = w.heap
      ∧ w1.events = w.events
      ∧ w1.calls = w.calls
      ∧ w1.listeners src = some Listener.sentinel
      ∧ w1.listeners dst = some l
      ∧ Listener.sentinel.detach w1 = (Listener.sentinel, w1)
      ∧ Listener.sentinel.destroy w1 = (Listener.sentinel, w1)
      ∧ (mapInert c.obj.live → ∀ fuel, c.obj.live.length < fuel →
          ∃ w2, ev.invoke fuel args w1 = .ok w2
            ∧ w2.calls = w.calls ++ callsOf c.obj.live args)
      ∧ ∀ (n fuel : Nat), c.obj.live.length < fuel →
          ∃ w2, ev.invokeTimes fuel args n (l.detach w1).2 = .ok w2
            ∧ w2.calls = w.calls ++ repeatCalls n
                (callsOf (c.obj.live.filter (fun p => decide (p.1 ≠ l.id_))) args)
            ∧ ∀ x ∈ repeatCalls n
                (callsOf (c.obj.live.filter (fun p => decide (p.1 ≠ l.id_))) args),
                x.id ≠ l.id_ := by
  have hne : dst ≠ src := fun h => by
    rw [h, hsrc] at hdst
    simp at hdst
  have hmv : w.moveListener dst src
      = .ok ((w.setListener src (some Listener.sentinel)).setListener dst (some l)) := by
    simp only [World.moveListener, hsrc, Listener.moveConstruct, World.assignPtr]
    have : (w.setListener src (some Listener.sentinel)).listeners dst = none := by
      simp [World.setListener, Function.update_noteq hne, hdst]
    simp only [Listener.sentinel] at this
    rw [this]
    rfl
  refine ⟨_, hmv, rfl, rfl, rfl, ?_, ?_, rfl, rfl, ?_, ?_⟩
  · simp [World.setListener, Function.update_noteq (Ne.symm hne)]
  · simp [World.setListener]
  · intro hall fuel hf
    exact ⟨_, invoke_inert ev a c args fuel
      ((w.setListener src (some Listener.sentinel)).setListener dst (some l)) hev hh hs hall hf,
      rfl⟩
  · intro n fuel hf
    exact detach_then_invokeTimes
      ((w.setListener src (some Listener.sentinel)).setListener dst (some l)) ev a c l args
      hev hh hl hid hs hin n fuel hf

theorem C6_move_construct_listener_witness :
    sampleWorld.listeners 0 = some { event_ := some 0, id_ := 1 }
    ∧ sampleWorld.listeners 2 = none
    ∧ ∃ w1, sampleWorld.moveListener 2 0 = .ok w1
      ∧ w1.heap = sampleWorld.heap
      ∧ w1.events = sampleWorld.events
      ∧ w1.calls = sampleWorld.calls
      ∧ w1.listeners 0 = some Listener.sentinel
      ∧ w1.listeners 2 = some { event_ := some 0, id_ := 1 }
      ∧ Listener.sentinel.detach w1 = (Listener.sentinel, w1)
      ∧ Listener.sentinel.destroy w1 = (Listener.sentinel, w1)
      ∧ (∀ fuel, 2 < fuel →
          ∃ w2, Event.invoke fuel ⟨some 0⟩ 5 w1 = .ok w2
            ∧ w2.calls = [{ id := 1, tag := 7, args := 5 }, { id := 2, tag := 8, args := 5 }])
      ∧ ∀ (n fuel : Nat), 2 < fuel →
          ∃ w2, Event.invokeTimes fuel ⟨some 0⟩ 5 n
                  (Listener.detach { event_ := some 0, id_ := 1 } w1).2 = .ok w2
            ∧ w2.calls = repeatCalls n [{ id := 2, tag := 8, args := 5 }]
            ∧ ∀ x ∈ repeatCalls n [({ id := 2, tag := 8, args := 5 } : Call Nat)], x.id ≠ 1 := by
  obtain ⟨w1, h1, h2, h3, h4, h5, h6, h7, h8, h9, h10⟩ :=
    C6_move_construct_listener sampleWorld 2 0 0
      { useCount := 1, obj := sampleRegistry } { event_ := some 0, id_ := 1 } ⟨some 0⟩ 5
      rfl rfl rfl (by decide) rfl rfl sampleRegistry_sorted
      (by intro p hp; simp [sampleRegistry, EventImpl.live] at hp; subst hp; rfl)
  exact ⟨rfl, rfl, w1, h1, h2, h3, h4, h5, h6, h7, h8, h9 sampleRegistry_inert, h10⟩

/-! ## Callables that act on the registry while it is iterated -/

/-- One step of the loop at an entry `(k, f)` that follows the visited entries `pre`. -/
theorem invokeLoop_step [ArgPack A] (a : Nat) (args : A) (fuel : Nat) (w : World A) (c : Shared A)
    (pre rest : CallbackMap A) (k : Int) (f : Callable A)
    (hh : w.heap a = some c) (hc : c.obj.callbacks_ = pre ++ (k, f) :: rest)
    (hs : mapSorted (pre ++ (k, f) :: rest)) :
    invokeLoop (fuel + 1) a (pre.getLast?.map Prod.fst) args w
      = match execBody fuel f.body (w.record k f args) with
        | .ok w1 => invokeLoop fuel a (some k) (ArgPack.movedFrom args) w1
        | .error err => .error err := by
  rw [invokeLoop.eq_def]
  simp only [hh, hc, iteratorValid_cursor, mapNext_cursor pre _ hs, if_true, List.head?_cons]

/-- The loop over a run `mid` of inert entries that follows the visited entries
`pre`: each is called once and the loop goes on behind them, with what the calls
have left of the arguments. -/
theorem invokeLoop_segment [ArgPack A] (a : Nat) (c : Shared A) :
    ∀ (mid pre rest : CallbackMap A) (args : A) (fuel : Nat) (w : World A),
      w.heap a = some c → c.obj.callbacks_ = pre ++ (mid ++ rest) →
      mapSorted (pre ++ (mid ++ rest)) → mapInert mid →
      invokeLoop (fuel + mid.length) a (pre.getLast?.map Prod.fst) args w
        = invokeLoop fuel a ((pre ++ mid).getLast?.map Prod.fst)
            (ArgPack.movedFrom^[mid.length] args)
            { w with calls := w.calls ++ callsOf mid args } := by
  intro mid
  induction mid with
  | nil =>
    intro pre rest args fuel w _ _ _ _
    simp [callsOf_nil]
  | cons p mid ih =>
    intro pre rest args fuel w hh hc hs hin
    obtain ⟨k, f⟩ := p
    have hbody : f.body = [] := hin (k, f) (by simp)
    have hstep := invokeLoop_step a args (fuel + mid.length) w c pre (mid ++ rest) k f hh
      (by simpa using hc) (by simpa using hs)
    rw [List.length_cons, ← Nat.add_assoc, hstep]
    simp only [hbody, execBody_nil]
    have hpre : (pre ++ [(k, f)]).getLast?.map Prod.fst = some k := by simp
    have := ih (pre ++ [(k, f)]) rest (ArgPack.movedFrom args) fuel (w.record k f args) hh
      (by simp [hc]) (by simpa using hs) (fun q hq => hin q (by simp [hq]))
    rw [hpre] at this
    rw [this]
    simp [World.record, callsOf_cons, Function.iterate_succ_apply]

theorem filter_ne_of_sorted (pre suf : CallbackMap A) (k : Int) (f : Callable A)
    (hs : mapSorted (pre ++ (k, f) :: suf)) :
    (pre ++ (k, f) :: suf).filter (fun p => decide (p.1 ≠ k)) = pre ++ suf := by
  unfold mapSorted at hs
  rw [List.pairwise_append] at hs
  obtain ⟨_, hsuf, hcross⟩ := hs
  rw [List.pairwise_cons] at hsuf
  rw [List.filter_append, List.filter_cons]
  have h1 : pre.filter (fun p => decide (p.1 ≠ k)) = pre := by
    rw [List.filter_eq_self]
    intro p hp
    have := hcross p hp (k, f) (by simp)
    simp only [ne_eq, decide_not, Bool.not_eq_true', decide_eq_false_iff_not]
    exact ne_of_lt this
  have h2 : suf.filter (fun p => decide (p.1 ≠ k)) = suf := by
    rw [List.filter_eq_self]
    intro p hp
    have := hsuf.1 p hp
    simp only [ne_eq, decide_not, Bool.not_eq_true', decide_eq_false_iff_not]
    exact fun h => absurd this (by rw [h]; exact lt_irrefl _)
  rw [h1, h2]
  simp

/-- `h->detach()` on a variable holding a listener with a non-zero id on a live
registry. -/
theorem detach_var_live (w : World A) (h a : Nat) (c : Shared A) (k : Int)
    (hown : w.listeners h = some { event_ := some a, id_ := k }) (hk : k ≠ 0)
    (hh : w.heap a = some c) :
    w.detach h
      = .ok ((w.setObj a c (c.obj.remove k)).setListener h (some Listener.sentinel)) := by
  simp only [World.detach, hown]
  rw [detach_live { event_ := some a, id_ := k } a c w hk rfl hh]

/-- The loop over `pre`, then an entry whose callable detaches its own listener, then
`suf`, the callables of `pre` and `suf` being inert. -/
theorem invokeLoop_self_detach [ArgPack A] (a : Nat) (args : A) (w : World A) (c : Shared A)
    (pre suf : CallbackMap A) (k : Int) (f : Callable A) (h F : Nat)
    (hh : w.heap a = some c) (hc : c.obj.callbacks_ = pre ++ (k, f) :: suf)
    (hs : mapSorted (pre ++ (k, f) :: suf)) (hbody : f.body = [Stmt.detach h])
    (hown : w.listeners h = some { event_ := some a, id_ := k }) (hk : k ≠ 0)
    (hpre : mapInert pre) (hsuf : mapInert suf) (hF : suf.length < F + 1) :
    ∃ w1, invokeLoop (F + 1 + 1 + pre.length) a none args w = .ok w1
      ∧ w1.calls = w.calls ++ callsOf (pre ++ (k, f) :: suf) args
      ∧ w1.listeners h = some Listener.sentinel
      ∧ w1.heap a = some { c with obj := c.obj.remove k } := by
  have hseg := invokeLoop_segment a c pre [] ((k, f) :: suf) args (F + 1 + 1) w hh
    (by simpa using hc) (by simpa using hs) hpre
  simp only [List.getLast?_nil, Option.map_none', List.nil_append] at hseg
  obtain ⟨args1, hargs1⟩ : ∃ x : A, x = ArgPack.movedFrom^[pre.length] args := ⟨_, rfl⟩
  rw [← hargs1] at hseg
  obtain ⟨wa, hwa⟩ : ∃ wa : World A, wa = { w with calls := w.calls ++ callsOf pre args } :=
    ⟨_, rfl⟩
  rw [← hwa] at hseg
  have hstep := invokeLoop_step a args1 (F + 1) wa c pre suf k f (by rw [hwa]; exact hh) hc hs
  obtain ⟨wb, hwb⟩ : ∃ wb : World A, wb = wa.record k f args1 := ⟨_, rfl⟩
  rw [← hwb] at hstep
  have hdet := detach_var_live wb h a c k (by rw [hwb, hwa]; exact hown) hk
    (by rw [hwb, hwa]; exact hh)
  obtain ⟨wc, hwc⟩ : ∃ wc : World A,
      wc = (wb.setObj a c (c.obj.remove k)).setListener h (some Listener.sentinel) := ⟨_, rfl⟩
  rw [← hwc] at hdet
  have hbody2 : execBody (F + 1) f.body wb = .ok wc := by
    rw [hbody, execBody]
    simp only [hdet, execBody_nil]
  have hrest := invokeLoop_inert a { c with obj := c.obj.remove k } suf (pre ++ [(k, f)])
    (ArgPack.movedFrom args1) (F + 1) wc (by rw [hwc]; simp [World.setListener, World.setObj])
    (by simp [EventImpl.remove, hc]) (by simpa using hs) hsuf hF
  have hcur : (pre ++ [(k, f)]).getLast?.map Prod.fst = some k := by simp
  rw [hcur] at hrest
  refine ⟨{ wc with calls := wc.calls ++ callsOf suf (ArgPack.movedFrom args1) }, ?_, ?_, ?_, ?_⟩
  · rw [hseg, hstep, hbody2]
    simp only
    rw [hrest]
  · rw [callsOf_append, callsOf_cons, ← hargs1]
    simp only [hwc, hwb, hwa, World.setListener, World.setObj, World.record,
      List.append_assoc, List.singleton_append]
  · simp [hwc, World.setListener]
  · simp [hwc, World.setListener, World.setObj]

/-- A callable whose whole body is `detach()` on its own listener. Let the live
entries of the registry of `ev` be `pre`, then `(k, f)`, then `suf`, where the body
of `f` is `h->detach()` on its own listener (held in variable `h`) and nothing else,
and the other callables are inert. An invocation succeeds and records exactly one
call per live entry, in ascending order of ids, the self-detaching one included; the
listener is then in the sentinel state, and any number of later invocations records
passes over `pre` and `suf` only, never the id `k`. -/
theorem invoke_self_detach_only [ArgPack A] (w : World A) (ev : Event) (a : Nat) (c : Shared A) (h : Nat)
    (k : Int) (f : Callable A) (pre suf : CallbackMap A) (args : A)
    (hev : ev.eventImpl_ = some a) (hh : w.heap a = some c)
    (hs : mapSorted c.obj.callbacks_)
    (hlive : c.obj.live = pre ++ (k, f) :: suf)
    (hbody : f.body = [Stmt.detach h])
    (hown : w.listeners h = some { event_ := some a, id_ := k }) (hk : k ≠ 0)
    (hpre : mapInert pre) (hsuf : mapInert suf) :
    ∀ fuel, c.obj.live.length < fuel →
      ∃ w1, ev.invoke fuel args w = .ok w1
        ∧ w1.calls = w.calls ++ callsOf c.obj.live args
        ∧ w1.listeners h = some Listener.sentinel
        ∧ (∀ x ∈ callsOf (pre ++ suf) args, x.id ≠ k)
        ∧ ∀ (n fuel2 : Nat), c.obj.live.length < fuel2 →
            ∃ w2, ev.invokeTimes fuel2 args n w1 = .ok w2
              ∧ w2.calls = w1.calls ++ repeatCalls n (callsOf (pre ++ suf) args) := by
  intro fuel hfuel
  have hsl : mapSorted (pre ++ (k, f) :: suf) := by
    rw [← hlive]
    exact live_sorted _ hs
  have hlen : c.obj.live.length = pre.length + suf.length + 1 := by
    rw [hlive]
    simp
    omega
  obtain ⟨F, rfl⟩ : ∃ F, fuel = (F + 1 + 1) + pre.length :=
    ⟨fuel - pre.length - 2, by omega⟩
  obtain ⟨w1, h1, h2, h3, h4⟩ := invokeLoop_self_detach a args (w.purge a c)
    { c with obj := c.obj.removeErased } pre suf k f h F (purge_heap w a c)
    (by simp only [removeErased_callbacks, hlive]) hsl hbody hown hk hpre hsuf (by omega)
  have hinv : ev.invoke (F + 1 + 1 + pre.length) args w = .ok w1 := by
    unfold Event.invoke EventImpl.invoke
    simp only [hev, hh]
    exact h1
  refine ⟨w1, hinv, ?_, h3, ?_, ?_⟩
  · rw [h2, hlive]
    rfl
  · intro x hx
    have hfil := filter_ne_of_sorted pre suf k f hsl
    rw [← hfil] at hx
    obtain ⟨p, hp, hid2, _⟩ := mem_callsOf _ _ _ hx
    rw [hid2]
    simpa using (List.mem_filter.mp hp).2
  · intro n fuel2 hfuel2
    have hlive2 : (c.obj.removeErased.remove k).live = pre ++ suf := by
      rw [live_remove, live_of_erased_nil _ (removeErased_erased c.obj), removeErased_callbacks,
        hlive, filter_ne_of_sorted pre suf k f hsl]
    have := invokeTimes_inert ev a { c with obj := c.obj.removeErased.remove k } args fuel2 hev
      (by simpa [EventImpl.remove, removeErased_callbacks, hlive] using hsl)
      (by
        simp only [hlive2]
        intro q hq
        rcases List.mem_append.mp hq with hq | hq
        · exact hpre q hq
        · exact hsuf q hq)
      (by simp only [hlive2, List.length_append]; omega) n w1 h4
    simp only [hlive2] at this
    exact this

theorem invoke_self_detach_only_sample :
    selfDetachWorld.listeners 1 = some { event_ := some 0, id_ := 2 }
    ∧ ∀ fuel, 3 < fuel →
      ∃ w1, Event.invoke fuel ⟨some 0⟩ 5 selfDetachWorld = .ok w1
        ∧ w1.calls = [{ id := 1, tag := 7, args := 5 }, { id := 2, tag := 8, args := 5 },
                      { id := 3, tag := 9, args := 5 }]
        ∧ w1.listeners 1 = some Listener.sentinel
        ∧ (∀ x ∈ [({ id := 1, tag := 7, args := 5 } : Call Nat), { id := 3, tag := 9, args := 5 }],
            x.id ≠ 2)
        ∧ ∀ (n fuel2 : Nat), 3 < fuel2 →
            ∃ w2, Event.invokeTimes fuel2 ⟨some 0⟩ 5 n w1 = .ok w2
              ∧ w2.calls = w1.calls ++ repeatCalls n
                  [{ id := 1, tag := 7, args := 5 }, { id := 3, tag := 9, args := 5 }] :=
  ⟨rfl, invoke_self_detach_only selfDetachWorld ⟨some 0⟩ 0 { useCount := 1, obj := selfDetachRegistry } 1
    2 (.mk 8 [.detach 1]) [(1, .mk 7 [])] [(3, .mk 9 [])] 5 rfl rfl
    (by simp [mapSorted, selfDetachRegistry]) rfl rfl rfl (by decide)
    (by intro p hp; simp at hp; subst hp; rfl)
    (by intro p hp; simp at hp; subst hp; rfl)⟩

/-- Claim C7: a callable that detaches its own handle can corrupt the iteration. In
`selfDetachCountWorld` the event `e0` has the live entries `1`, `2`, `3`, nothing
pending, and the callable of entry `2` runs `h1->detach(); e0.getListenersCount();`
on its own listener `h1`. In the invocation `e0(5)` the body of that callable leaves
`h1` sentinel and erases entry `2`, the map node the iterator of the running loop
points to; the loop then advances an iterator to a destroyed node: undefined
behaviour, and the entry `3`, live at the start, is not reached by a defined
execution. The same happens when the callable runs `e0.attach(f3)` or `e0(6)` after
`h1->detach()`. -/
theorem C7_self_detach_then_purge_is_undefined :
    selfDetachCountWorld.listeners 1 = some { event_ := some 0, id_ := 2 }
    ∧ keysOfRun 0 (.ok selfDetachCountWorld) = some [1, 2, 3]
    ∧ (selfDetachCountWorld.heap 0).map (fun c => c.obj.erased_) = some []
    ∧ (∃ w1, execBody (A := Nat) 5 [Stmt.detach 1, .count 0]
          (selfDetachCountWorld.record 2 (.mk 8 [.detach 1, .count 0]) 5) = .ok w1
        ∧ w1.listeners 1 = some Listener.sentinel
        ∧ (w1.heap 0).map (fun c => mapKeys c.obj.callbacks_) = some [1, 3]
        ∧ (w1.heap 0).map (fun c => iteratorValid (some 2) c.obj.callbacks_) = some false)
    ∧ Event.invoke (A := Nat) 10 ⟨some 0⟩ 5 selfDetachCountWorld = .error .undefinedBehaviour
    ∧ run 20 [Stmt.newEvent 0, .attach 0 (.mk 7 []) (some 0),
          .attach 0 (.mk 8 [.detach 1, .count 0]) (some 1), .attach 0 (.mk 9 []) (some 2),
          .invoke 0 (5 : Nat)] = .error .undefinedBehaviour
    ∧ run 20 [Stmt.newEvent 0, .attach 0 (.mk 7 []) (some 0),
          .attach 0 (.mk 8 [.detach 1, .attach 0 (.mk 3 []) (some 3)]) (some 1),
          .attach 0 (.mk 9 []) (some 2), .invoke 0 (5 : Nat)] = .error .undefinedBehaviour
    ∧ run 20 [Stmt.newEvent 0, .attach 0 (.mk 7 []) (some 0),
          .attach 0 (.mk 8 [.detach 1, .invoke 0 6]) (some 1),
          .attach 0 (.mk 9 []) (some 2), .invoke 0 (5 : Nat)] = .error .undefinedBehaviour := by
  refine ⟨rfl, rfl, rfl, ⟨_, rfl, rfl, rfl, rfl⟩, rfl, rfl, rfl, rfl⟩

/-- Destroying a `ListenerPtr` changes at most the pending removals of a registry. -/
theorem destroyPtr_frame (w : World A) (p : Option Listener) (a : Nat) (c : Shared A)
    (hh : w.heap a = some c) :
    ∃ c1, (w.destroyPtr p).heap a = some c1
      ∧ c1.obj.callbacks_ = c.obj.callbacks_
      ∧ c1.obj.nextCallbackId_ = c.obj.nextCallbackId_
      ∧ (w.destroyPtr p).calls = w.calls
      ∧ (w.destroyPtr p).events = w.events
      ∧ (w.destroyPtr p).listeners = w.listeners := by
  cases p with
  | none => exact ⟨c, hh, rfl, rfl, rfl, rfl, rfl⟩
  | some l =>
    by_cases hid : l.id_ = 0
    · have hw : w.destroyPtr (some l) = w := by
        simp [World.destroyPtr, Listener.destroy, Listener.detach, hid]
      rw [hw]
      exact ⟨c, hh, rfl, rfl, rfl, rfl, rfl⟩
    · cases hle : l.event_ with
      | none =>
        have hw : w.destroyPtr (some l) = w := by
          simp [World.destroyPtr, Listener.destroy, Listener.detach, hid, hle]
        rw [hw]
        exact ⟨c, hh, rfl, rfl, rfl, rfl, rfl⟩
      | some b =>
        cases hb : w.heap b with
        | none =>
          have hw : w.destroyPtr (some l) = w := by
            simp [World.destroyPtr, Listener.destroy, Listener.detach, hid, hle, hb]
          rw [hw]
          exact ⟨c, hh, rfl, rfl, rfl, rfl, rfl⟩
        | some cb =>
          have hw : w.destroyPtr (some l) = w.setObj b cb (cb.obj.remove l.id_) := by
            simp [World.destroyPtr, Listener.destroy, Listener.detach, hid, hle, hb]
          rw [hw]
          by_cases hab : a = b
          · subst hab
            rw [hh] at hb
            simp only [Option.some.injEq] at hb
            subst hb
            exact ⟨{ c with obj := c.obj.remove l.id_ }, by simp [World.setObj], rfl, rfl, rfl,
              rfl, rfl⟩
          · exact ⟨c, by simp [World.setObj, Function.update_noteq hab, hh], rfl, rfl, rfl,
              rfl, rfl⟩

/-- The statement `h = e.attach(g)` (or `e.attach(g);`) on an event bound to a
registry with nothing pending and room in its counter: the callable is appended
under the next id, whatever the variable held before. -/
theorem attach_stmt_frame (w : World A) (e a : Nat) (c : Shared A) (g : Callable A)
    (hopt : Option Nat) (hev : (w.events e).eventImpl_ = some a) (hh : w.heap a = some c)
    (he : c.obj.erased_ = []) (hwf : c.obj.WF 1) :
    ∃ c1, (w.attach e g hopt).heap a = some c1
      ∧ c1.obj.callbacks_ = c.obj.callbacks_ ++ [(c.obj.nextCallbackId_ + 1, g)]
      ∧ c1.obj.nextCallbackId_ = c.obj.nextCallbackId_ + 1
      ∧ (w.attach e g hopt).calls = w.calls
      ∧ (w.attach e g hopt).events = w.events
      ∧ (∀ h, hopt = some h → w.listeners h = none → c1.obj.erased_ = []) := by
  have hat : (w.events e).attach g w
      = (some { event_ := some a, id_ := c.obj.nextCallbackId_ + 1 },
         w.setObj a c { callbacks_ := c.obj.callbacks_ ++ [(c.obj.nextCallbackId_ + 1, g)],
                        erased_ := [], nextCallbackId_ := c.obj.nextCallbackId_ + 1 }) := by
    simp [Event.attach, hev, hh, EventImpl.attach_eq c.obj g 0 hwf he,
      noteOverflow_WF w c.obj 0 hwf]
  obtain ⟨wA, hwA⟩ : ∃ wA : World A, wA = w.setObj a c
      { callbacks_ := c.obj.callbacks_ ++ [(c.obj.nextCallbackId_ + 1, g)],
        erased_ := [], nextCallbackId_ := c.obj.nextCallbackId_ + 1 } := ⟨_, rfl⟩
  rw [← hwA] at hat
  have hhA : wA.heap a = some { c with obj :=
      { callbacks_ := c.obj.callbacks_ ++ [(c.obj.nextCallbackId_ + 1, g)],
        erased_ := [], nextCallbackId_ := c.obj.nextCallbackId_ + 1 } } := by
    rw [hwA]
    simp [World.setObj]
  have hcA : wA.calls = w.calls := by rw [hwA]; rfl
  have heA : wA.events = w.events := by rw [hwA]; rfl
  have hlA : wA.listeners = w.listeners := by rw [hwA]; rfl
  cases hopt with
  | none =>
    simp only [World.attach, hat]
    obtain ⟨c1, d1, d2, d3, d4, d5, _⟩ := destroyPtr_frame wA
      (some { event_ := some a, id_ := c.obj.nextCallbackId_ + 1 }) a _ hhA
    refine ⟨c1, d1, d2, d3, by rw [d4, hcA], by rw [d5, heA], ?_⟩
    intro h hh2
    simp at hh2
  | some h =>
    simp only [World.attach, hat, World.assignPtr]
    cases hl : wA.listeners h with
    | none =>
      refine ⟨{ c with obj :=
        { callbacks_ := c.obj.callbacks_ ++ [(c.obj.nextCallbackId_ + 1, g)],
          erased_ := [], nextCallbackId_ := c.obj.nextCallbackId_ + 1 } },
        ?_, rfl, rfl, ?_, ?_, ?_⟩
      · simp only [World.setListener, World.destroyPtr]
        exact hhA
      · simp only [World.setListener, World.destroyPtr]
        exact hcA
      · simp only [World.setListener, World.destroyPtr]
        exact heA
      · intro _ _ _
        rfl
    | some l =>
      obtain ⟨c1, d1, d2, d3, d4, d5, _⟩ := destroyPtr_frame wA (some l) a _ hhA
      refine ⟨c1, ?_, d2, d3, ?_, ?_, ?_⟩
      · simp only [World.setListener]
        exact d1
      · simp only [World.setListener]
        rw [d4, hcA]
      · simp only [World.setListener]
        rw [d5, heA]
      · intro h2 hh2 hn
        simp only [Option.some.injEq] at hh2
        subst hh2
        rw [hlA] at hl
        rw [hl] at hn
        simp at hn

/-- The loop over `pre`, then an entry whose callable attaches the inert callable
`g` to the registry being iterated, then `suf`: the new entry is reached by the same
loop, after `suf`. -/
theorem invokeLoop_attach [ArgPack A] (a : Nat) (args : A) (w : World A) (c : Shared A)
    (pre suf : CallbackMap A) (k : Int) (f g : Callable A) (e : Nat) (hopt : Option Nat)
    (F : Nat)
    (hh : w.heap a = some c) (hc : c.obj.callbacks_ = pre ++ (k, f) :: suf)
    (he : c.obj.erased_ = []) (hwf : c.obj.WF 1)
    (hev : (w.events e).eventImpl_ = some a)
    (hbody : f.body = [Stmt.attach e g hopt]) (hg : g.inert)
    (hpre : mapInert pre) (hsuf : mapInert suf) (hF : suf.length + 1 < F + 1) :
    ∃ w1, invokeLoop (F + 1 + 1 + pre.length) a none args w = .ok w1
      ∧ w1.calls = w.calls
          ++ callsOf (pre ++ (k, f) :: (suf ++ [(c.obj.nextCallbackId_ + 1, g)])) args
      ∧ w1.events = w.events
      ∧ ∃ c1, w1.heap a = some c1
        ∧ c1.obj.callbacks_ = pre ++ (k, f) :: (suf ++ [(c.obj.nextCallbackId_ + 1, g)])
        ∧ c1.obj.nextCallbackId_ = c.obj.nextCallbackId_ + 1
        ∧ (∀ h, hopt = some h → w.listeners h = none → c1.obj.erased_ = []) := by
  have hs : mapSorted (pre ++ (k, f) :: suf) := by
    rw [← hc]
    exact hwf.sorted
  have hseg := invokeLoop_segment a c pre [] ((k, f) :: suf) args (F + 1 + 1) w hh
    (by simpa using hc) (by simpa using hs) hpre
  simp only [List.getLast?_nil, Option.map_none', List.nil_append] at hseg
  obtain ⟨args1, hargs1⟩ : ∃ x : A, x = ArgPack.movedFrom^[pre.length] args := ⟨_, rfl⟩
  rw [← hargs1] at hseg
  obtain ⟨wa, hwa⟩ : ∃ wa : World A, wa = { w with calls := w.calls ++ callsOf pre args } :=
    ⟨_, rfl⟩
  rw [← hwa] at hseg
  have hstep := invokeLoop_step a args1 (F + 1) wa c pre suf k f (by rw [hwa]; exact hh) hc hs
  obtain ⟨wb, hwb⟩ : ∃ wb : World A, wb = wa.record k f args1 := ⟨_, rfl⟩
  rw [← hwb] at hstep
  obtain ⟨c1, a1, a2, a3, a4, a5, a6⟩ := attach_stmt_frame wb e a c g hopt
    (by rw [hwb, hwa]; exact hev) (by rw [hwb, hwa]; exact hh) he hwf
  have hbody2 : execBody (F + 1) f.body wb = .ok (wb.attach e g hopt) := by
    rw [hbody, execBody]
    simp only [execBody_nil]
  have hkeys : ∀ j ∈ mapKeys (pre ++ (k, f) :: suf), j < c.obj.nextCallbackId_ + 1 := by
    intro j hj
    rw [← hc] at hj
    have := hwf.keys_le j hj
    omega
  have hs2 : mapSorted ((pre ++ [(k, f)]) ++ (suf ++ [(c.obj.nextCallbackId_ + 1, g)])) := by
    have := mapSorted_append_singleton (c.obj.nextCallbackId_ + 1) g _ hs hkeys
    simpa using this
  have hrest := invokeLoop_inert a c1 (suf ++ [(c.obj.nextCallbackId_ + 1, g)])
    (pre ++ [(k, f)]) (ArgPack.movedFrom args1) (F + 1) (wb.attach e g hopt) a1
    (by rw [a2, hc]; simp) hs2
    (by
      intro q hq
      rcases List.mem_append.mp hq with hq | hq
      · exact hsuf q hq
      · simp only [List.mem_singleton] at hq
        subst hq
        exact hg)
    (by simpa using hF)
  have hcur : (pre ++ [(k, f)]).getLast?.map Prod.fst = some k := by simp
  rw [hcur] at hrest
  refine ⟨{ (wb.attach e g hopt) with
      calls := (wb.attach e g hopt).calls
        ++ callsOf (suf ++ [(c.obj.nextCallbackId_ + 1, g)]) (ArgPack.movedFrom args1) },
      ?_, ?_, ?_, c1, a1, ?_, a3, ?_⟩
  · rw [hseg, hstep, hbody2]
    simp only
    rw [hrest]
  · simp only
    rw [a4, callsOf_append pre, callsOf_cons, ← hargs1]
    simp only [hwb, hwa, World.record, List.append_assoc, List.singleton_append]
  · simp only
    rw [a5, hwb, hwa]
    rfl
  · rw [a2, hc]
    simp
  · intro h hh2 hn
    exact a6 h hh2 (by rw [hwb, hwa]; exact hn)

/-- Claim C8, as stated, fails: in the program
`e0 = Event(); h0 = e0.attach(f); e0(5);` where `f` runs `h1 = e0.attach(g)`, the one
invocation calls `f` (tag `1`, id `1`) and then, in the same pass, the callable `g`
(tag `2`, id `2`) that `f` has just attached. -/
theorem C8_counterexample :
    callsOfRun (run 10
      [Stmt.newEvent 0,
       Stmt.attach 0 (.mk 1 [Stmt.attach 0 (.mk 2 []) (some 1)]) (some 0),
       Stmt.invoke 0 (5 : Nat)])
      = some [{ id := 1, tag := 1, args := 5 }, { id := 2, tag := 2, args := 5 }] := by
  rfl

theorem WF_of_appended (r r1 : EventImpl A) (g : Callable A) (room : Nat)
    (hwf : r.WF (room + 1))
    (h1 : r1.callbacks_ = r.live ++ [(r.nextCallbackId_ + 1, g)])
    (h2 : r1.nextCallbackId_ = r.nextCallbackId_ + 1) : r1.WF room := by
  have h0 := hwf.next_nonneg
  have hr := hwf.next_room
  have hk := live_keys_le r _ hwf
  refine ⟨?_, ?_, ?_, ?_, ?_⟩
  · rw [h1]
    exact mapSorted_append_singleton _ g _ (live_sorted _ hwf.sorted) hk
  · intro j hj
    rw [h1, mapKeys_append, List.mem_append] at hj
    rcases hj with hj | hj
    · obtain ⟨f, hf⟩ := mem_mapKeys.mp hj
      exact hwf.keys_pos j (mem_mapKeys.mpr ⟨f, live_subset r _ hf⟩)
    · simp only [mapKeys, List.map_cons, List.map_nil, List.mem_singleton] at hj
      omega
  · intro j hj
    rw [h1, mapKeys_append, List.mem_append] at hj
    rw [h2]
    rcases hj with hj | hj
    · have := hk j hj
      omega
    · simp only [mapKeys, List.map_cons, List.map_nil, List.mem_singleton] at hj
      omega
  · rw [h2]
    omega
  · rw [h2]
    push_cast at hr
    omega

/-- Claim C8, amended. Let the live entries of the registry of event variable `e` be
`pre`, then `(k, f)`, then `suf`, where `f` attaches the inert callable `g` to `e`
(keeping the handle in a listener variable or dropping it) and the other callables
are inert, the counter having room. An invocation of `e` succeeds and records one
pass over the entries that were live at its start followed, in the same invocation,
by the newly attached `g` under the next id. When the handle is kept in a listener
variable that was empty, the next invocation passes over that entry again (and over
the entry `f` attaches during it). -/
theorem C8_attached_is_called_in_same_invocation [ArgPack A] (w : World A) (e a : Nat) (c : Shared A)
    (pre suf : CallbackMap A) (k : Int) (f g : Callable A) (hopt : Option Nat) (args : A)
    (hev : (w.events e).eventImpl_ = some a) (hh : w.heap a = some c)
    (hwf : c.obj.WF 1) (hlive : c.obj.live = pre ++ (k, f) :: suf)
    (hbody : f.body = [Stmt.attach e g hopt]) (hg : g.inert)
    (hpre : mapInert pre) (hsuf : mapInert suf) :
    ∀ fuel, c.obj.live.length + 1 < fuel →
      ∃ w1, (w.events e).invoke fuel args w = .ok w1
        ∧ w1.calls = w.calls
            ++ callsOf (c.obj.live ++ [(c.obj.nextCallbackId_ + 1, g)]) args
        ∧ (∀ h, hopt = some h → w.listeners h = none → c.obj.WF 2 →
            ∀ fuel2, c.obj.live.length + 2 < fuel2 →
              ∃ w2, (w.events e).invoke fuel2 args w1 = .ok w2
                ∧ w2.calls = w1.calls
                    ++ callsOf (c.obj.live ++ [(c.obj.nextCallbackId_ + 1, g),
                        (c.obj.nextCallbackId_ + 1 + 1, g)]) args) := by
  intro fuel hfuel
  have hlen : c.obj.live.length = pre.length + suf.length + 1 := by
    rw [hlive]
    simp
    omega
  obtain ⟨F, rfl⟩ : ∃ F, fuel = (F + 1 + 1) + pre.length :=
    ⟨fuel - pre.length - 2, by omega⟩
  obtain ⟨w1, h1, h2, h3, c1, h4, h5, h6, h7⟩ := invokeLoop_attach a args (w.purge a c)
    { c with obj := c.obj.removeErased } pre suf k f g e hopt F (purge_heap w a c)
    (by simp only [removeErased_callbacks, hlive]) rfl (removeErased_WF _ _ hwf) hev hbody hg
    hpre hsuf (by omega)
  have h5 : c1.obj.callbacks_
      = pre ++ (k, f) :: (suf ++ [(c.obj.nextCallbackId_ + 1, g)]) := h5
  have h6 : c1.obj.nextCallbackId_ = c.obj.nextCallbackId_ + 1 := h6
  have h2 : w1.calls = w.calls
      ++ callsOf (pre ++ (k, f) :: (suf ++ [(c.obj.nextCallbackId_ + 1, g)])) args := h2
  refine ⟨w1, ?_, ?_, ?_⟩
  · unfold Event.invoke EventImpl.invoke
    simp only [hev, hh]
    exact h1
  · rw [h2, hlive]
    simp
  · intro h hh2 hn hwf2 fuel2 hfuel2
    have he1 : c1.obj.erased_ = [] := h7 h hh2 hn
    have hcb1 : c1.obj.callbacks_ = c.obj.live ++ [(c.obj.nextCallbackId_ + 1, g)] := by
      rw [h5, hlive]
      simp
    have hwf1 : c1.obj.WF 1 := WF_of_appended c.obj c1.obj g 1 hwf2 hcb1 h6
    have hev1 : (w1.events e).eventImpl_ = some a := by
      rw [h3]
      exact hev
    obtain ⟨F2, rfl⟩ : ∃ F2, fuel2 = (F2 + 1 + 1) + pre.length :=
      ⟨fuel2 - pre.length - 2, by omega⟩
    obtain ⟨w2, k1, k2, _⟩ := invokeLoop_attach a args (w1.purge a c1)
      { c1 with obj := c1.obj.removeErased } pre (suf ++ [(c.obj.nextCallbackId_ + 1, g)]) k f g
      e hopt F2 (purge_heap w1 a c1)
      (by simp only [removeErased_callbacks, live_of_erased_nil _ he1, h5]) rfl
      (removeErased_WF _ _ hwf1) hev1 hbody hg hpre
      (by
        intro q hq
        rcases List.mem_append.mp hq with hq | hq
        · exact hsuf q hq
        · simp only [List.mem_singleton] at hq
          subst hq
          exact hg)
      (by simp only [List.length_append, List.length_singleton]; omega)
    have k2 : w2.calls = w1.calls
        ++ callsOf (pre ++ (k, f) :: ((suf ++ [(c.obj.nextCallbackId_ + 1, g)])
            ++ [(c1.obj.nextCallbackId_ + 1, g)])) args := k2
    have hinv2 : (w.events e).invoke (F2 + 1 + 1 + pre.length) args w1 = .ok w2 := by
      unfold Event.invoke EventImpl.invoke
      simp only [hev, h4]
      exact k1
    refine ⟨w2, hinv2, ?_⟩
    rw [k2, hlive, h6]
    simp

theorem attachingRegistry_WF (room : Nat) (h : room < 100) : attachingRegistry.WF room := by
  refine ⟨by simp [mapSorted, attachingRegistry], ?_, ?_, ?_, ?_⟩
  · intro k hk
    simp [attachingRegistry, mapKeys] at hk
    omega
  · intro k hk
    simp [attachingRegistry, mapKeys] at hk
    simp only [attachingRegistry]
    omega
  · simp [attachingRegistry]
  · simp only [attachingRegistry]
    omega

theorem C8_attached_is_called_in_same_invocation_witness :
    attachingWorld.heap 0 = some { useCount := 1, obj := attachingRegistry }
    ∧ attachingWorld.listeners 1 = none
    ∧ ∀ fuel, 2 < fuel →
      ∃ w1, (attachingWorld.events 0).invoke fuel 5 attachingWorld = .ok w1
        ∧ w1.calls = [{ id := 1, tag := 1, args := 5 }, { id := 2, tag := 2, args := 5 }]
        ∧ ∀ fuel2, 3 < fuel2 →
            ∃ w2, (attachingWorld.events 0).invoke fuel2 5 w1 = .ok w2
              ∧ w2.calls = w1.calls
                  ++ [{ id := 1, tag := 1, args := 5 }, { id := 2, tag := 2, args := 5 },
                      { id := 3, tag := 2, args := 5 }] :=
  ⟨rfl, rfl, fun fuel hf => by
    obtain ⟨w1, h1, h2, h3⟩ := C8_attached_is_called_in_same_invocation attachingWorld 0 0
      { useCount := 1, obj := attachingRegistry } [] [] 1
      (.mk 1 [.attach 0 (.mk 2 []) (some 1)]) (.mk 2 []) (some 1) 5 rfl rfl
      (attachingRegistry_WF 1 (by decide)) rfl rfl rfl
      (by intro p hp; simp at hp) (by intro p hp; simp at hp) fuel hf
    exact ⟨w1, h1, h2, h3 1 rfl rfl (attachingRegistry_WF 2 (by decide))⟩⟩

/-! ## Listeners of a destroyed registry -/

/-- `detach()` on a listener whose registry is gone. -/
theorem detach_expired (l : Listener) (w : World A) (a : Nat)
    (hl : l.event_ = some a) (hh : w.heap a = none) :
    (l.detach w).2 = w ∧ (l.detach w).1.id_ = 0
      ∧ (l.id_ ≠ 0 → (l.detach w).1 = Listener.sentinel) := by
  by_cases hid : l.id_ = 0
  · simp [Listener.detach, hid]
  · simp [Listener.detach, hid, hl, hh, Listener.sentinel]

/-- `dst = std::move(src)` where `dst` is the only owner of the registry at `a1` and
`src` owns another one: the registry at `a1` is destroyed. -/
theorem moveEvent_overwrite (w : World A) (dst src a1 a2 : Nat) (c1 : Shared A)
    (hdst : (w.events dst).eventImpl_ = some a1) (hsrc : (w.events src).eventImpl_ = some a2)
    (hne : a1 ≠ a2) (hh1 : w.heap a1 = some c1) (hcnt : c1.useCount = 1) :
    (w.moveEvent dst src).heap a1 = none := by
  have hvar : dst ≠ src := fun h => hne (by
    rw [h, hsrc] at hdst
    exact (Option.some.inj hdst).symm)
  have hold : ((w.setEvent src ⟨none⟩).events dst).eventImpl_ = some a1 := by
    simp [World.setEvent, Function.update_noteq hvar, hdst]
  simp only [World.moveEvent, World.assignEvent, hsrc, hold, World.release]
  have : ((w.setEvent src ⟨none⟩).setEvent dst ⟨some a2⟩).heap a1 = some c1 := hh1
  simp [this, hcnt]

/-- Claim C9. On a listener whose registry has been destroyed, `detach()` and the
destructor leave the whole world as it is and leave the id `0` (the sentinel state
when the id was not `0` already). In particular, when an event that is the only
owner of a registry with a listener is overwritten by move-assignment from another
event, the old registry is destroyed, invoking the event records calls of the live
entries of the new registry only, and destroying the old listener changes nothing. -/
theorem C9_expired_registry [ArgPack A] :
    (∀ (l : Listener) (w : World A) (a : Nat), l.event_ = some a → w.heap a = none →
        (l.detach w).2 = w ∧ (l.detach w).1.id_ = 0
        ∧ (l.destroy w).2 = w ∧ (l.destroy w).1.id_ = 0
        ∧ (l.id_ ≠ 0 → (l.detach w).1 = Listener.sentinel
            ∧ (l.destroy w).1 = Listener.sentinel))
    ∧ (∀ (w : World A) (e1 e2 a1 a2 : Nat) (c1 c2 : Shared A) (l : Listener) (args : A),
        (w.events e1).eventImpl_ = some a1 → (w.events e2).eventImpl_ = some a2 → a1 ≠ a2 →
        w.heap a1 = some c1 → c1.useCount = 1 → w.heap a2 = some c2 →
        l.event_ = some a1 → mapSorted c2.obj.callbacks_ → mapInert c2.obj.live →
        (w.moveEvent e1 e2).heap a1 = none
        ∧ ((w.moveEvent e1 e2).events e1).eventImpl_ = some a2
        ∧ (w.moveEvent e1 e2).heap a2 = some c2
        ∧ (∀ fuel, c2.obj.live.length < fuel →
            ∃ w2, ((w.moveEvent e1 e2).events e1).invoke fuel args (w.moveEvent e1 e2) = .ok w2
              ∧ w2.calls = w.calls ++ callsOf c2.obj.live args)
        ∧ (l.destroy (w.moveEvent e1 e2)).2 = w.moveEvent e1 e2
        ∧ (l.detach (w.moveEvent e1 e2)).2 = w.moveEvent e1 e2) := by
  constructor
  · intro l w a hl hh
    obtain ⟨d1, d2, d3⟩ := detach_expired l w a hl hh
    exact ⟨d1, d2, d1, d2, fun hid => ⟨d3 hid, d3 hid⟩⟩
  · intro w e1 e2 a1 a2 c1 c2 l args h1 h2 hne hh1 hcnt hh2 hl hs hin
    have hgone := moveEvent_overwrite w e1 e2 a1 a2 c1 h1 h2 hne hh1 hcnt
    obtain ⟨m1, _, m3, m4, _⟩ := moveEvent_spec w e1 e2 a2 h2
      (by rw [h1]; exact fun h => hne (Option.some.inj h))
    have hev : ((w.moveEvent e1 e2).events e1).eventImpl_ = some a2 := by rw [m1]
    have hheap : (w.moveEvent e1 e2).heap a2 = some c2 := by rw [m3, hh2]
    obtain ⟨d1, _, _⟩ := detach_expired l (w.moveEvent e1 e2) a1 hl hgone
    refine ⟨hgone, hev, hheap, ?_, d1, d1⟩
    intro fuel hf
    refine ⟨_, invoke_inert _ a2 c2 args fuel _ hev hheap hs hin hf, ?_⟩
    simp only [m4]

theorem C9_expired_registry_witness :
    ((Listener.detach { event_ := some 5, id_ := 3 } sampleWorld).2 = sampleWorld
      ∧ (Listener.detach { event_ := some 5, id_ := 3 } sampleWorld).1.id_ = 0
      ∧ (Listener.destroy { event_ := some 5, id_ := 3 } sampleWorld).2 = sampleWorld
      ∧ (Listener.destroy { event_ := some 5, id_ := 3 } sampleWorld).1.id_ = 0
      ∧ ((3 : Int) ≠ 0 →
          (Listener.detach { event_ := some 5, id_ := 3 } sampleWorld).1 = Listener.sentinel
          ∧ (Listener.destroy { event_ := some 5, id_ := 3 } sampleWorld).1 = Listener.sentinel))
    ∧ (twoEventWorld.listeners 0 = some { event_ := some 1, id_ := 1 }
      ∧ (twoEventWorld.moveEvent 1 0).heap 1 = none
      ∧ ((twoEventWorld.moveEvent 1 0).events 1).eventImpl_ = some 0
      ∧ (twoEventWorld.moveEvent 1 0).heap 0 = some { useCount := 1, obj := EventImpl.fresh }
      ∧ (∀ fuel, 0 < fuel →
          ∃ w2, ((twoEventWorld.moveEvent 1 0).events 1).invoke fuel 5
                  (twoEventWorld.moveEvent 1 0) = .ok w2
            ∧ w2.calls = [])
      ∧ (Listener.destroy { event_ := some 1, id_ := 1 } (twoEventWorld.moveEvent 1 0)).2
          = twoEventWorld.moveEvent 1 0
      ∧ (Listener.detach { event_ := some 1, id_ := 1 } (twoEventWorld.moveEvent 1 0)).2
          = twoEventWorld.moveEvent 1 0) :=
  ⟨(C9_expired_registry (A := Nat)).1 { event_ := some 5, id_ := 3 } sampleWorld 5 rfl rfl,
   rfl,
   (C9_expired_registry (A := Nat)).2 twoEventWorld 1 0 1 0
      { useCount := 1, obj := oneListenerRegistry }
      { useCount := 1, obj := EventImpl.fresh } { event_ := some 1, id_ := 1 } 5
      rfl rfl (by decide) rfl rfl rfl rfl (by simp [mapSorted, EventImpl.fresh])
      (by intro p hp; simp [EventImpl.live, EventImpl.fresh] at hp)⟩

/-! ## Repeated invocation -/

theorem invokeTimes_inert_succ [ArgPack A] (ev : Event) (a : Nat) (c : Shared A) (args : A) (fuel : Nat)
    (hev : ev.eventImpl_ = some a) (hs : mapSorted c.obj.callbacks_)
    (hin : mapInert c.obj.live) (hf : c.obj.live.length < fuel) (n : Nat) (w : World A)
    (hh : w.heap a = some c) :
    ev.invokeTimes fuel args (n + 1) w
      = .ok { (w.purge a c) with
              calls := w.calls ++ repeatCalls (n + 1) (callsOf c.obj.live args) } := by
  have h1 := invoke_inert ev a c args fuel w hev hh hs hin hf
  simp only [Event.invokeTimes, h1]
  have h2 := invokeTimes_inert_purged ev a { c with obj := c.obj.removeErased } args fuel
    hev rfl (by simpa [removeErased_callbacks] using live_sorted _ hs)
    (by simpa [removeErased_callbacks] using hin)
    (by simpa [removeErased_callbacks] using hf) n
    { (w.purge a c) with calls := w.calls ++ callsOf c.obj.live args }
    (purge_heap w a c)
  rw [h2]
  simp [repeatCalls, removeErased_callbacks, List.append_assoc]

theorem countP_callsOf_of_lt [ArgPack A] (m : CallbackMap A) (args : A) (k : Int)
    (h : ∀ q ∈ m, k < q.1) :
    (callsOf m args).countP (fun x => decide (x.id = k)) = 0 := by
  rw [List.countP_eq_zero]
  intro x hx
  obtain ⟨q, hq, hid, _⟩ := mem_callsOf _ _ _ hx
  have := h q hq
  simp only [decide_eq_true_eq]
  omega

theorem countP_callsOf_sorted [ArgPack A] (m : CallbackMap A) (hs : mapSorted m) :
    ∀ (args : A), ∀ p ∈ m, (callsOf m args).countP (fun x => decide (x.id = p.1)) = 1 := by
  induction m with
  | nil =>
    intro _ p hp
    simp at hp
  | cons q m ih =>
    intro args p hp
    unfold mapSorted at hs
    rw [List.pairwise_cons] at hs
    rw [callsOf_cons, List.countP_cons]
    rcases List.mem_cons.mp hp with hpq | hpm
    · subst hpq
      rw [countP_callsOf_of_lt m _ p.1 hs.1]
      simp
    · have hlt := hs.1 p hpm
      rw [ih hs.2 _ p hpm]
      have : ¬ q.1 = p.1 := by omega
      simp [this]

theorem countP_repeatCalls (n : Nat) (l : List (Call A)) (q : Call A → Bool) :
    (repeatCalls n l).countP q = n * l.countP q := by
  induction n with
  | zero => simp [repeatCalls]
  | succ n ih =>
    simp only [repeatCalls, List.countP_append, ih]
    rw [Nat.succ_mul]
    omega

/-- Claim C10, as stated, fails: with a live inert listener (id `1`) and a second
listener (id `2`) that was detached before, the entries are `1, 2` before the
invocation and `1` after it: the invocation erases the entry pending removal. -/
theorem C10_counterexample :
    keysOfRun 0 (run 10
      [Stmt.newEvent 0, Stmt.attach 0 (.mk 7 []) (some 0), Stmt.attach 0 (.mk 8 []) (some 1),
       Stmt.detach 1] : Except Err (World Nat)) = some [1, 2]
    ∧ keysOfRun 0 (run 10
      [Stmt.newEvent 0, Stmt.attach 0 (.mk 7 []) (some 0), Stmt.attach 0 (.mk 8 []) (some 1),
       Stmt.detach 1, Stmt.invoke 0 (5 : Nat)]) = some [1]
    ∧ callsOfRun (run 10
      [Stmt.newEvent 0, Stmt.attach 0 (.mk 7 []) (some 0), Stmt.attach 0 (.mk 8 []) (some 1),
       Stmt.detach 1, Stmt.invoke 0 (5 : Nat)]) = some [{ id := 1, tag := 7, args := 5 }] := by
  refine ⟨?_, ?_, ?_⟩ <;> rfl

/-- Claim C10, amended. On an event whose live callables are inert, `n` invocations
in a row succeed and record `n` passes over the live entries, so every live callable
is called exactly `n` times. The invocations leave the id counter and the live
entries as they were; from the first invocation on nothing is pending and the
entries are exactly the entries that were live, so the set of entries is unchanged
when nothing was pending, and otherwise loses exactly the entries pending removal. -/
theorem C10_repeated_invocation [ArgPack A] (w : World A) (ev : Event) (a : Nat) (c : Shared A)
    (args : A) (hev : ev.eventImpl_ = some a) (hh : w.heap a = some c)
    (hs : mapSorted c.obj.callbacks_) (hin : mapInert c.obj.live) :
    ∀ (n fuel : Nat), c.obj.live.length < fuel →
      ∃ w2 c2, ev.invokeTimes fuel args n w = .ok w2
        ∧ w2.calls = w.calls ++ repeatCalls n (callsOf c.obj.live args)
        ∧ (∀ p ∈ c.obj.live,
            (repeatCalls n (callsOf c.obj.live args)).countP (fun x => decide (x.id = p.1)) = n)
        ∧ w2.heap a = some c2
        ∧ c2.obj.nextCallbackId_ = c.obj.nextCallbackId_
        ∧ c2.obj.live = c.obj.live
        ∧ (0 < n → c2.obj.callbacks_ = c.obj.live ∧ c2.obj.erased_ = [])
        ∧ (c.obj.erased_ = [] → c2.obj.callbacks_ = c.obj.callbacks_) := by
  intro n fuel hf
  have hcount : ∀ p ∈ c.obj.live,
      (repeatCalls n (callsOf c.obj.live args)).countP (fun x => decide (x.id = p.1)) = n := by
    intro p hp
    rw [countP_repeatCalls, countP_callsOf_sorted _ (live_sorted _ hs) args p hp]
    simp
  cases n with
  | zero =>
    refine ⟨w, c, rfl, by simp [repeatCalls], hcount, hh, rfl, rfl, ?_, fun _ => rfl⟩
    intro h
    exact absurd h (lt_irrefl 0)
  | succ n =>
    refine ⟨_, { c with obj := c.obj.removeErased },
      invokeTimes_inert_succ ev a c args fuel hev hs hin hf n w hh, rfl, hcount,
      purge_heap w a c, rfl, ?_, ?_, ?_⟩
    · rw [live_of_erased_nil _ (removeErased_erased c.obj), removeErased_callbacks]
    · intro _
      exact ⟨removeErased_callbacks c.obj, rfl⟩
    · intro he
      simp only [removeErased_callbacks, live_of_erased_nil c.obj he]

theorem C10_repeated_invocation_witness :
    sampleWorld.heap 0 = some { useCount := 1, obj := sampleRegistry }
    ∧ ∀ (n fuel : Nat), 2 < fuel →
      ∃ w2 c2, Event.invokeTimes fuel ⟨some 0⟩ 5 n sampleWorld = .ok w2
        ∧ w2.calls = repeatCalls n
            [{ id := 1, tag := 7, args := 5 }, { id := 2, tag := 8, args := 5 }]
        ∧ (∀ p ∈ sampleRegistry.live,
            (repeatCalls n (callsOf sampleRegistry.live 5)).countP
              (fun x => decide (x.id = p.1)) = n)
        ∧ w2.heap 0 = some c2
        ∧ c2.obj.nextCallbackId_ = 2
        ∧ c2.obj.live = sampleRegistry.live
        ∧ (0 < n → c2.obj.callbacks_ = sampleRegistry.live ∧ c2.obj.erased_ = [])
        ∧ (sampleRegistry.erased_ = [] → c2.obj.callbacks_ = sampleRegistry.callbacks_) :=
  ⟨rfl, C10_repeated_invocation sampleWorld ⟨some 0⟩ 0 { useCount := 1, obj := sampleRegistry }
    5 rfl rfl sampleRegistry_sorted sampleRegistry_inert⟩

/-! ## Listeners and the registry they are bound to -/

theorem mem_keys_split (m : CallbackMap A) (k : Int) (h : k ∈ mapKeys m) :
    ∃ pre f suf, m = pre ++ (k, f) :: suf := by
  obtain ⟨f, hf⟩ := mem_mapKeys.mp h
  obtain ⟨pre, suf, hm⟩ := List.append_of_mem hf
  exact ⟨pre, f, suf, hm⟩

/-- Erasing a key of a sorted map takes exactly one entry away. -/
theorem length_filter_ne_of_mem (m : CallbackMap A) (k : Int) (hs : mapSorted m)
    (h : k ∈ mapKeys m) :
    (m.filter (fun p => decide (p.1 ≠ k))).length + 1 = m.length := by
  obtain ⟨pre, f, suf, hm⟩ := mem_keys_split m k h
  subst hm
  rw [filter_ne_of_sorted pre suf k f hs]
  simp
  omega

/-- Claim C11. Let `e1` own the registry at `a`, let `l` be a listener of a live entry
of this registry, and let `e2` be an event that does not share the registry. After
`e2 = std::move(e1)`, `detach()` on `l` (and likewise its destructor) schedules the
id of `l` in the registry that `e2` now owns: `getListenersCount()` on `e2` then
returns the count `e1` had before the move minus one (`0` when the listener was the
only one), and the entries of the registry are the former live entries without the
one of `l`. -/
theorem C11_listener_bound_to_registry (w : World A) (e1 e2 a : Nat) (c : Shared A)
    (l : Listener)
    (h1 : (w.events e1).eventImpl_ = some a) (hh : w.heap a = some c)
    (h2 : (w.events e2).eventImpl_ ≠ some a)
    (hl : l.event_ = some a) (hid : l.id_ ≠ 0)
    (hs : mapSorted c.obj.callbacks_) (hmem : l.id_ ∈ mapKeys c.obj.live) :
    (((w.moveEvent e2 e1).events e2).getListenersCount (l.detach (w.moveEvent e2 e1)).2).1 + 1
        = ((w.events e1).getListenersCount w).1
    ∧ (((w.moveEvent e2 e1).events e2).getListenersCount (l.destroy (w.moveEvent e2 e1)).2).1 + 1
        = ((w.events e1).getListenersCount w).1
    ∧ (c.obj.live.length = 1 →
        (((w.moveEvent e2 e1).events e2).getListenersCount
          (l.detach (w.moveEvent e2 e1)).2).1 = 0)
    ∧ (∃ c2, (((w.moveEvent e2 e1).events e2).getListenersCount
          (l.detach (w.moveEvent e2 e1)).2).2.heap a = some c2
        ∧ c2.obj.callbacks_ = c.obj.live.filter (fun p => decide (p.1 ≠ l.id_))
        ∧ c2.obj.erased_ = []
        ∧ l.id_ ∉ mapKeys c2.obj.callbacks_) := by
  obtain ⟨m1, _, m3, _, _⟩ := moveEvent_spec w e2 e1 a h1 h2
  have hev : ((w.moveEvent e2 e1).events e2).eventImpl_ = some a := by rw [m1]
  have hh1 : (w.moveEvent e2 e1).heap a = some c := by rw [m3, hh]
  have hdet := detach_live l a c (w.moveEvent e2 e1) hid hl hh1
  have hheap : (l.detach (w.moveEvent e2 e1)).2.heap a
      = some { c with obj := c.obj.remove l.id_ } := by
    rw [hdet]
    simp [World.setObj]
  have hcnt : (((w.moveEvent e2 e1).events e2).getListenersCount
      (l.detach (w.moveEvent e2 e1)).2).1 + 1 = ((w.events e1).getListenersCount w).1 := by
    rw [count_bound _ a _ _ hev hheap, count_bound _ a c w h1 hh]
    simp only [live_remove]
    exact length_filter_ne_of_mem _ _ (live_sorted _ hs) hmem
  refine ⟨hcnt, hcnt, ?_, ?_⟩
  · intro hone
    rw [count_bound _ a c w h1 hh] at hcnt
    simp only [hone] at hcnt
    omega
  · refine ⟨{ c with obj := (c.obj.remove l.id_).removeErased }, ?_, ?_, rfl, ?_⟩
    · rw [count_bound _ a _ _ hev hheap]
      exact purge_heap _ a _
    · simp only [removeErased_callbacks, live_remove]
    · simp only [removeErased_callbacks, live_remove, mapKeys, List.mem_map, List.mem_filter]
      rintro ⟨p, ⟨_, hp⟩, hk⟩
      simp [hk] at hp

theorem C11_listener_bound_to_registry_witness :
    sampleWorld.heap 0 = some { useCount := 1, obj := sampleRegistry }
    ∧ (((sampleWorld.moveEvent 1 0).events 1).getListenersCount
        (Listener.detach { event_ := some 0, id_ := 1 } (sampleWorld.moveEvent 1 0)).2).1 + 1
        = ((sampleWorld.events 0).getListenersCount sampleWorld).1
    ∧ (((sampleWorld.moveEvent 1 0).events 1).getListenersCount
        (Listener.destroy { event_ := some 0, id_ := 1 } (sampleWorld.moveEvent 1 0)).2).1 + 1
        = ((sampleWorld.events 0).getListenersCount sampleWorld).1
    ∧ (sampleRegistry.live.length = 1 →
        (((sampleWorld.moveEvent 1 0).events 1).getListenersCount
          (Listener.detach { event_ := some 0, id_ := 1 } (sampleWorld.moveEvent 1 0)).2).1 = 0)
    ∧ (∃ c2, (((sampleWorld.moveEvent 1 0).events 1).getListenersCount
          (Listener.detach { event_ := some 0, id_ := 1 } (sampleWorld.moveEvent 1 0)).2).2.heap 0
            = some c2
        ∧ c2.obj.callbacks_ = [(2, .mk 8 [])]
        ∧ c2.obj.erased_ = []
        ∧ (1 : Int) ∉ mapKeys c2.obj.callbacks_) :=
  ⟨rfl, C11_listener_bound_to_registry sampleWorld 0 1 0
    { useCount := 1, obj := sampleRegistry } { event_ := some 0, id_ := 1 } rfl rfl
    (by decide) rfl (by decide) sampleRegistry_sorted
    (by simp [sampleRegistry, EventImpl.live, mapKeys])⟩

/-- Claim C12. `detach()` is idempotent: on every listener and in every world, a
second `detach()` returns the listener state and the world (all registries with
their entries, pending removals and counters) that the first one has left; and
`detach()` on a listener with id `0` changes neither the listener nor the world. -/
theorem C12_detach_idempotent :
    (∀ (l : Listener) (w : World A), (l.detach w).1.detach (l.detach w).2 = l.detach w)
    ∧ (∀ (l : Listener) (w : World A), l.id_ = 0 → l.detach w = (l, w)) := by
  constructor
  · intro l w
    by_cases hid : l.id_ = 0
    · simp [Listener.detach, hid]
    · simp [Listener.detach, hid]
  · intro l w hid
    simp [Listener.detach, hid]

theorem C12_detach_idempotent_witness :
    (Listener.detach (Listener.detach { event_ := some 0, id_ := 1 } sampleWorld).1
        (Listener.detach { event_ := some 0, id_ := 1 } sampleWorld).2
      = Listener.detach { event_ := some 0, id_ := 1 } sampleWorld)
    ∧ Listener.sentinel.id_ = 0
    ∧ Listener.detach Listener.sentinel sampleWorld = (Listener.sentinel, sampleWorld) :=
  ⟨(C12_detach_idempotent (A := Nat)).1 { event_ := some 0, id_ := 1 } sampleWorld, rfl,
   (C12_detach_idempotent (A := Nat)).2 Listener.sentinel sampleWorld rfl⟩

/-! ## Move assignment of listeners -/

/-- What `detach()` does to the heap, by cases. -/
theorem detach_heap_cases (d : Listener) (w : World A) :
    (d.id_ = 0 → (d.detach w).2 = w)
    ∧ (d.id_ ≠ 0 → d.event_ = none → (d.detach w).2 = w)
    ∧ (∀ a, d.id_ ≠ 0 → d.event_ = some a → w.heap a = none → (d.detach w).2 = w)
    ∧ (∀ a c, d.id_ ≠ 0 → d.event_ = some a → w.heap a = some c →
        (d.detach w).2 = w.setObj a c (c.obj.remove d.id_)) := by
  refine ⟨?_, ?_, ?_, ?_⟩
  · intro h
    simp [Listener.detach, h]
  · intro h he
    simp [Listener.detach, h, he]
  · intro a h he hh
    simp [Listener.detach, h, he, hh]
  · intro a c h he hh
    simp [Listener.detach, h, he, hh]

/-- Claim C13. Let the listener variables `dst` and `src` be different and hold the
listeners `d` and `s`. `*dst = std::move(*src)` succeeds; it first runs `detach()` on
`d`, and this is all that happens to the heap (nothing for a sentinel `d` or a
registry that is gone, otherwise the id of `d` is appended to the pending removals
of its registry); afterwards `dst` holds the registry reference and id of `s`, `src`
is sentinel, the other variables are as before. The subscription of `s` is not
removed: its registry keeps its entries and counter, and the id of `s` is pending
afterwards only if it was pending before (`d` and `s` being different
subscriptions). -/
theorem C13_move_assign_listener (w : World A) (dst src : Nat) (d s : Listener)
    (hne : dst ≠ src) (hd : w.listeners dst = some d) (hsrc : w.listeners src = some s) :
    ∃ w1, w.assignListener dst src = .ok w1
      ∧ w1.listeners dst = some s
      ∧ w1.listeners src = some Listener.sentinel
      ∧ (∀ h, h ≠ dst → h ≠ src → w1.listeners h = w.listeners h)
      ∧ w1.heap = (d.detach w).2.heap
      ∧ w1.events = w.events
      ∧ w1.calls = w.calls
      ∧ (d.id_ = 0 → w1.heap = w.heap)
      ∧ (∀ a, d.event_ = some a → w.heap a = none → w1.heap = w.heap)
      ∧ (∀ a c, d.id_ ≠ 0 → d.event_ = some a → w.heap a = some c →
          w1.heap = Function.update w.heap a (some { c with obj := c.obj.remove d.id_ }))
      ∧ (∀ a c, s.event_ = some a → w.heap a = some c →
          ∃ c1, w1.heap a = some c1
            ∧ c1.obj.callbacks_ = c.obj.callbacks_
            ∧ c1.obj.nextCallbackId_ = c.obj.nextCallbackId_
            ∧ ((d.event_ ≠ s.event_ ∨ d.id_ ≠ s.id_) →
                (s.id_ ∈ c1.obj.erased_ ↔ s.id_ ∈ c.obj.erased_))) := by
  obtain ⟨k1, k2, k3, k4⟩ := detach_heap_cases d w
  have hsrc1 : ((d.detach w).2.setListener dst (some (d.detach w).1)).listeners src = some s := by
    have : (d.detach w).2.listeners = w.listeners := by
      by_cases hid : d.id_ = 0
      · rw [k1 hid]
      · cases he : d.event_ with
        | none => rw [k2 hid he]
        | some a =>
          cases hh : w.heap a with
          | none => rw [k3 a hid he hh]
          | some c =>
            rw [k4 a c hid he hh]
            rfl
    simp only [World.setListener, Function.update_noteq (Ne.symm hne), this, hsrc]
  have hres : w.assignListener dst src
      = .ok ((((d.detach w).2.setListener dst (some (d.detach w).1)).setListener dst
          (some { event_ := s.event_, id_ := s.id_ })).setListener src
            (some { event_ := none, id_ := 0 })) := by
    simp only [World.assignListener, hd, hsrc, hsrc1]
  have hframe : ∀ h, ((d.detach w).2).listeners h = w.listeners h := by
    intro h
    by_cases hid : d.id_ = 0
    · rw [k1 hid]
    · cases he : d.event_ with
      | none => rw [k2 hid he]
      | some a =>
        cases hh : w.heap a with
        | none => rw [k3 a hid he hh]
        | some c =>
          rw [k4 a c hid he hh]
          rfl
  have hev : (d.detach w).2.events = w.events ∧ (d.detach w).2.calls = w.calls := by
    by_cases hid : d.id_ = 0
    · rw [k1 hid]
      exact ⟨rfl, rfl⟩
    · cases he : d.event_ with
      | none =>
        rw [k2 hid he]
        exact ⟨rfl, rfl⟩
      | some a =>
        cases hh : w.heap a with
        | none =>
          rw [k3 a hid he hh]
          exact ⟨rfl, rfl⟩
        | some c =>
          rw [k4 a c hid he hh]
          exact ⟨rfl, rfl⟩
  refine ⟨_, hres, ?_, ?_, ?_, rfl, hev.1, hev.2, ?_, ?_, ?_, ?_⟩
  · simp [World.setListener, Function.update_noteq hne]
  · simp [World.setListener, Listener.sentinel]
  · intro h h1 h2
    simp only [World.setListener, Function.update_noteq h1, Function.update_noteq h2]
    exact hframe h
  · intro hid
    show (d.detach w).2.heap = w.heap
    rw [k1 hid]
  · intro a he hh
    show (d.detach w).2.heap = w.heap
    by_cases hid : d.id_ = 0
    · rw [k1 hid]
    · rw [k3 a hid he hh]
  · intro a c hid he hh
    show (d.detach w).2.heap = _
    rw [k4 a c hid he hh]
    rfl
  · intro a c hse hh
    show ∃ c1, (d.detach w).2.heap a = some c1 ∧ _
    by_cases hid : d.id_ = 0
    · rw [k1 hid]
      exact ⟨c, hh, rfl, rfl, fun _ => Iff.rfl⟩
    · cases he : d.event_ with
      | none =>
        rw [k2 hid he]
        exact ⟨c, hh, rfl, rfl, fun _ => Iff.rfl⟩
      | some b =>
        cases hb : w.heap b with
        | none =>
          rw [k3 b hid he hb]
          exact ⟨c, hh, rfl, rfl, fun _ => Iff.rfl⟩
        | some cb =>
          rw [k4 b cb hid he hb]
          by_cases hab : a = b
          · subst hab
            rw [hh] at hb
            simp only [Option.some.injEq] at hb
            subst hb
            refine ⟨{ c with obj := c.obj.remove d.id_ }, by simp [World.setObj], rfl, rfl, ?_⟩
            intro hdiff
            have hids : d.id_ ≠ s.id_ := by
              rcases hdiff with h | h
              · exact absurd (by rw [hse]) h
              · exact h
            simp only [EventImpl.remove, List.mem_append, List.mem_singleton]
            constructor
            · rintro (h | h)
              · exact h
              · exact absurd h.symm hids
            · exact fun h => Or.inl h
          · exact ⟨c, by simp [World.setObj, Function.update_noteq hab, hh], rfl, rfl,
              fun _ => Iff.rfl⟩

theorem C13_move_assign_listener_witness :
    (0 : Nat) ≠ 1
    ∧ sampleWorld.listeners 0 = some { event_ := some 0, id_ := 1 }
    ∧ sampleWorld.listeners 1 = some { event_ := some 0, id_ := 2 }
    ∧ ∃ w1, sampleWorld.assignListener 0 1 = .ok w1
        ∧ w1.listeners 0 = some { event_ := some 0, id_ := 2 }
        ∧ w1.listeners 1 = some Listener.sentinel
        ∧ w1.heap = (Listener.detach { event_ := some 0, id_ := 1 } sampleWorld).2.heap :=
  ⟨by decide, rfl, rfl,
    let ⟨w1, h1, h2, h3, _, h5, _⟩ := C13_move_assign_listener sampleWorld 0 1
      { event_ := some 0, id_ := 1 } { event_ := some 0, id_ := 2 } (by decide) rfl rfl
    ⟨w1, h1, h2, h3, h5⟩⟩

/-! ## Counting and removing -/

theorem filter_keys (m : CallbackMap A) (q : Int → Bool) :
    mapKeys (m.filter (fun p => q p.1)) = (mapKeys m).filter q := by
  induction m with
  | nil => rfl
  | cons p m ih =>
    by_cases hq : q p.1 = true
    · simp [List.filter_cons, hq, mapKeys] at ih ⊢
      exact ih
    · simp [List.filter_cons, hq, mapKeys] at ih ⊢
      exact ih

theorem sorted_keys_nodup (m : CallbackMap A) (hs : mapSorted m) : (mapKeys m).Nodup := by
  unfold mapSorted at hs
  unfold mapKeys List.Nodup
  rw [List.pairwise_map]
  exact hs.imp (fun h => ne_of_lt h)

/-- Claim C14. For every registry state `r` (its map in key order, as a `std::map`
is), `getListenersCount()` returns the number of ids that are keys of `callbacks_`
and not in `erased_` (the list of these ids has no repetitions, and the returned
number is its length); afterwards `erased_` is empty, the keys of `callbacks_` are
exactly those ids, the entries are exactly the former entries under those ids (same
callables, same order) and the counter is as before. An `Event` with a null
`eventImpl_` returns `0` and changes nothing; an `Event` with a registry returns what
its registry returns. -/
theorem C14_get_listeners_count (r : EventImpl A) (hs : mapSorted r.callbacks_) :
    r.getListenersCount.2
        = ((mapKeys r.callbacks_).filter (fun k => decide (k ∉ r.erased_))).length
    ∧ ((mapKeys r.callbacks_).filter (fun k => decide (k ∉ r.erased_))).Nodup
    ∧ r.getListenersCount.1.erased_ = []
    ∧ mapKeys r.getListenersCount.1.callbacks_
        = (mapKeys r.callbacks_).filter (fun k => decide (k ∉ r.erased_))
    ∧ (∀ p, p ∈ r.getListenersCount.1.callbacks_ ↔ (p ∈ r.callbacks_ ∧ p.1 ∉ r.erased_))
    ∧ r.getListenersCount.1.callbacks_
        = r.callbacks_.filter (fun p => decide (p.1 ∉ r.erased_))
    ∧ r.getListenersCount.1.nextCallbackId_ = r.nextCallbackId_
    ∧ (∀ w : World A, Event.getListenersCount ⟨none⟩ w = (0, w))
    ∧ (∀ (ev : Event) (a : Nat) (c : Shared A) (w : World A),
        ev.eventImpl_ = some a → w.heap a = some c →
          ev.getListenersCount w
            = (c.obj.getListenersCount.2, w.setObj a c c.obj.getListenersCount.1)) := by
  have hcb : r.getListenersCount.1.callbacks_
      = r.callbacks_.filter (fun p => decide (p.1 ∉ r.erased_)) := by
    show r.removeErased.callbacks_ = _
    rw [removeErased_callbacks]
    rfl
  have hk : mapKeys r.getListenersCount.1.callbacks_
      = (mapKeys r.callbacks_).filter (fun k => decide (k ∉ r.erased_)) := by
    rw [hcb]
    exact filter_keys r.callbacks_ (fun k => decide (k ∉ r.erased_))
  refine ⟨?_, ?_, rfl, hk, ?_, hcb, rfl, ?_, ?_⟩
  · show r.getListenersCount.1.callbacks_.length = _
    rw [← hk]
    simp [mapKeys]
  · exact (sorted_keys_nodup _ hs).filter _
  · intro p
    rw [hcb]
    simp [List.mem_filter]
  · intro w
    rfl
  · intro ev a c w hev hh
    simp [Event.getListenersCount, hev, hh]

theorem C14_get_listeners_count_witness :
    mapSorted (EventImpl.remove sampleRegistry 1).callbacks_
    ∧ (EventImpl.remove sampleRegistry 1).getListenersCount.2 = 1
    ∧ (EventImpl.remove sampleRegistry 1).getListenersCount.1.erased_ = []
    ∧ mapKeys (EventImpl.remove sampleRegistry 1).getListenersCount.1.callbacks_ = [2] :=
  ⟨sampleRegistry_sorted,
   (C14_get_listeners_count (EventImpl.remove sampleRegistry 1) sampleRegistry_sorted).1.trans
     (by decide),
   (C14_get_listeners_count (EventImpl.remove sampleRegistry 1) sampleRegistry_sorted).2.2.1,
   (C14_get_listeners_count
      (EventImpl.remove sampleRegistry 1) sampleRegistry_sorted).2.2.2.1.trans (by decide)⟩

/-- Claim C17. For every registry state `r` and every id, `remove(id)` is total and
changes `erased_` only, to which it appends `id`: `callbacks_` (keys and callables)
and `nextCallbackId_` are as before, whether or not `id` is a key of `callbacks_`. -/
theorem C17_remove_appends (r : EventImpl A) (id : Int) :
    (r.remove id).erased_ = r.erased_ ++ [id]
    ∧ (r.remove id).callbacks_ = r.callbacks_
    ∧ (r.remove id).nextCallbackId_ = r.nextCallbackId_
    ∧ r.remove id = { r with erased_ := r.erased_ ++ [id] } :=
  ⟨rfl, rfl, rfl, rfl⟩

/-! ## Ids -/

theorem wrapInt_wrapInt_add (x y : Int) : wrapInt (wrapInt x + y) = wrapInt (x + y) := by
  unfold wrapInt
  omega

theorem runOps_append (o1 o2 : List (RegOp A)) (r : EventImpl A) :
    runOps (o1 ++ o2) r
      = ((runOps o2 (runOps o1 r).1).1, (runOps o1 r).2 ++ (runOps o2 (runOps o1 r).1).2) := by
  induction o1 generalizing r with
  | nil => simp [runOps]
  | cons op o1 ih =>
    rw [List.cons_append, runOps, runOps, ih]
    simp only [List.append_assoc]

/-- The counter after `n + 1` attachments in a row. -/
theorem runOps_replicate_next (f : Callable A) (n : Nat) (r : EventImpl A) :
    (runOps (List.replicate (n + 1) (RegOp.attach f)) r).1.nextCallbackId_
      = wrapInt (r.nextCallbackId_ + (n + 1)) := by
  induction n generalizing r with
  | zero =>
    simp [runOps, RegOp.apply, EventImpl.attach, EventImpl.removeErased]
  | succ n ih =>
    rw [List.replicate_succ, runOps]
    simp only []
    rw [ih]
    simp only [RegOp.apply, EventImpl.attach, EventImpl.removeErased]
    rw [wrapInt_wrapInt_add]
    congr 1
    push_cast
    ring

/-- Ids handed out by a sequence of operations that leaves the counter within `int`:
they are the numbers that follow the counter, one by one. -/
theorem runOps_spec (ops : List (RegOp A)) :
    ∀ (r : EventImpl A), 0 ≤ r.nextCallbackId_ →
      r.nextCallbackId_ + attachCount ops < 2147483648 →
      (runOps ops r).2
          = (List.range (attachCount ops)).map (fun (i : Nat) => r.nextCallbackId_ + 1 + (i : Int))
        ∧ (runOps ops r).1.nextCallbackId_ = r.nextCallbackId_ + attachCount ops := by
  induction ops with
  | nil =>
    intro r _ _
    simp [runOps, attachCount]
  | cons op ops ih =>
    intro r h0 hroom
    cases op with
    | attach f =>
      simp only [attachCount] at hroom ⊢
      push_cast at hroom
      have hw : wrapInt (r.nextCallbackId_ + 1) = r.nextCallbackId_ + 1 :=
        wrapInt_eq _ (by omega) (by omega)
      have hn : ((RegOp.attach f).apply r).1.nextCallbackId_ = r.nextCallbackId_ + 1 := by
        simp [RegOp.apply, EventImpl.attach, EventImpl.removeErased, hw]
      have hid : ((RegOp.attach f).apply r).2 = some (r.nextCallbackId_ + 1) := by
        simp [RegOp.apply, EventImpl.attach, EventImpl.removeErased, hw]
      obtain ⟨i1, i2⟩ := ih ((RegOp.attach f).apply r).1 (by rw [hn]; omega)
        (by rw [hn]; omega)
      rw [runOps]
      simp only []
      rw [i1, i2, hid, hn]
      constructor
      · rw [List.range_succ_eq_map]
        simp only [Option.toList, List.map_cons, List.map_map, List.singleton_append,
          Nat.cast_zero, add_zero, List.cons.injEq, true_and]
        apply List.map_congr_left
        intro i _
        simp only [Function.comp, Nat.cast_succ]
        ring
      · push_cast
        ring
    | remove id =>
      exact ih (r.remove id) h0 hroom
    | invoke =>
      exact ih r.removeErased h0 hroom
    | count =>
      exact ih r.getListenersCount.1 h0 hroom

theorem pairwise_lt_range_map (k : Int) (n : Nat) :
    ((List.range n).map (fun (i : Nat) => k + 1 + (i : Int))).Pairwise (fun x y => x < y) := by
  rw [List.pairwise_map]
  have h := List.pairwise_lt_range n
  exact h.imp (fun hab => by omega)

/-- The first and the last id handed out by `n + 2` attachments in a row on a fresh
registry. -/
theorem runOps_replicate_fresh (f : Callable A) (n N : Nat) (z : Int) (hN : N = n + 2)
    (hz : wrapInt ((n : Int) + 2) = z) :
    ∃ mid, (runOps (List.replicate N (RegOp.attach f)) EventImpl.fresh).2
      = 1 :: (mid ++ [z]) := by
  subst hN
  subst hz
  rw [List.replicate_succ, List.replicate_succ', runOps, runOps_append]
  refine ⟨(runOps (List.replicate n (RegOp.attach f))
    ((RegOp.attach f).apply EventImpl.fresh).1).2, ?_⟩
  have hfirst : ((RegOp.attach f).apply (EventImpl.fresh (A := A))).2 = some 1 := rfl
  have hn1 : ((RegOp.attach f).apply (EventImpl.fresh (A := A))).1.nextCallbackId_ = 1 := rfl
  have hnext : (runOps (List.replicate n (RegOp.attach f))
      ((RegOp.attach f).apply EventImpl.fresh).1).1.nextCallbackId_
        = wrapInt (1 + (n : Int)) := by
    cases n with
    | zero => rfl
    | succ m =>
      rw [runOps_replicate_next, hn1]
      push_cast
      rfl
  obtain ⟨r2, hr2⟩ : ∃ r2, r2 = (runOps (List.replicate n (RegOp.attach f))
      ((RegOp.attach f).apply EventImpl.fresh).1).1 := ⟨_, rfl⟩
  rw [← hr2] at hnext ⊢
  have hlast : (runOps [RegOp.attach f] r2).2 = [wrapInt ((n : Int) + 2)] := by
    simp only [runOps, RegOp.apply, EventImpl.attach, Option.toList, List.append_nil,
      removeErased_next]
    rw [hnext, wrapInt_wrapInt_add]
    congr 2
    ring
  simp only []
  rw [hlast, hfirst]
  rfl

/-- Claim C15, as stated, fails: `2147483648` attachments in a row on a fresh
registry hand out the id `1` first and the id `-2147483648` last (the counter is an
`int`: after the id `2147483647` there is no larger one), so the ids handed out are
not strictly increasing. -/
theorem C15_counterexample :
    (∃ mid, (runOps (List.replicate 2147483648 (RegOp.attach (Callable.mk 1 [])))
              (EventImpl.fresh (A := Nat))).2 = 1 :: (mid ++ [-2147483648]))
    ∧ ¬ ((runOps (List.replicate 2147483648 (RegOp.attach (Callable.mk 1 [])))
              (EventImpl.fresh (A := Nat))).2).Pairwise (fun x y => x < y) := by
  have hex := runOps_replicate_fresh (A := Nat) (Callable.mk 1 []) 2147483646 2147483648
    (-2147483648) (by norm_num) (by unfold wrapInt; norm_num)
  refine ⟨hex, ?_⟩
  obtain ⟨mid, hmid⟩ := hex
  rw [hmid]
  intro hp
  have := (List.pairwise_cons.mp hp).1 (-2147483648) (by simp)
  omega

/-- Claim C15, amended. For every sequence of `attach`, `remove`, invocation and
`getListenersCount` operations on a registry whose counter is not negative and stays
below `2147483648` (on a fresh registry: fewer than `2147483648` attachments), the
ids handed out are the numbers that follow the counter, in order: each attachment
returns an id strictly greater than every id returned before it and than the counter
at the start, whatever was removed or purged in between. -/
theorem C15_ids_strictly_increase (ops : List (RegOp A)) (r : EventImpl A)
    (h0 : 0 ≤ r.nextCallbackId_)
    (hroom : r.nextCallbackId_ + attachCount ops < 2147483648) :
    (runOps ops r).2
        = (List.range (attachCount ops)).map (fun (i : Nat) => r.nextCallbackId_ + 1 + (i : Int))
    ∧ ((runOps ops r).2).Pairwise (fun x y => x < y)
    ∧ (∀ id ∈ (runOps ops r).2, r.nextCallbackId_ < id)
    ∧ (runOps ops r).1.nextCallbackId_ = r.nextCallbackId_ + attachCount ops := by
  obtain ⟨h1, h2⟩ := runOps_spec ops r h0 hroom
  refine ⟨h1, ?_, ?_, h2⟩
  · rw [h1]
    exact pairwise_lt_range_map _ _
  · intro id hid
    rw [h1] at hid
    obtain ⟨i, _, hi⟩ := List.mem_map.mp hid
    omega

theorem C15_ids_strictly_increase_witness :
    (0 : Int) ≤ (EventImpl.fresh (A := Nat)).nextCallbackId_
    ∧ (runOps [RegOp.attach (.mk 7 []), .attach (.mk 8 []), .remove 1, .count,
          .attach (.mk 9 []), .remove 3, .invoke, .attach (.mk 7 [])]
        (EventImpl.fresh (A := Nat))).2 = [1, 2, 3, 4] :=
  ⟨by decide,
   (C15_ids_strictly_increase [RegOp.attach (.mk 7 []), .attach (.mk 8 []), .remove 1, .count,
      .attach (.mk 9 []), .remove 3, .invoke, .attach (.mk 7 [])] (EventImpl.fresh (A := Nat))
      (by decide) (by decide)).1.trans (by decide)⟩


/-! ## Operations on the event from inside a callback -/

/-- Claim C16: the code erases entries while the iteration of an invocation is in
progress. In `detachCountWorld` the registry of `e0` has the entries `1` and `2` and
nothing pending when `e0(5)` starts its iteration. The callable of entry `1` runs
`h1->detach(); e0.getListenersCount();`: after its body the entry `2` is erased from
`callbacks_`, in the middle of the iteration, which ends without calling entry `2`.
With `e0.attach(f3)` in place of the count the same happens (entry `2` is erased and
never called, the new entry `3` is called). When the callable detaches its own
listener before the count, the node under the iterator is erased and the iteration
goes on from a destroyed node: undefined behaviour. -/
theorem C16_erasure_during_iteration :
    keysOfRun 0 (.ok detachCountWorld) = some [1, 2]
    ∧ (detachCountWorld.heap 0).map (fun c => c.obj.erased_) = some []
    ∧ keysOfRun 0 (execBody (A := Nat) 5 [Stmt.detach 1, .count 0]
        (detachCountWorld.record 1 (.mk 1 [.detach 1, .count 0]) 5)) = some [1]
    ∧ callsOfRun (Event.invoke (A := Nat) 10 ⟨some 0⟩ 5 detachCountWorld)
        = some [{ id := 1, tag := 1, args := 5 }]
    ∧ keysOfRun 0 (run (A := Nat) 10 [Stmt.newEvent 0,
          .attach 0 (.mk 1 [.detach 1, .attach 0 (.mk 3 []) (some 2)]) (some 0),
          .attach 0 (.mk 2 []) (some 1)]) = some [1, 2]
    ∧ callsOfRun (run 10 [Stmt.newEvent 0,
          .attach 0 (.mk 1 [.detach 1, .attach 0 (.mk 3 []) (some 2)]) (some 0),
          .attach 0 (.mk 2 []) (some 1), .invoke 0 (5 : Nat)])
        = some [{ id := 1, tag := 1, args := 5 }, { id := 3, tag := 3, args := 5 }]
    ∧ run 10 [Stmt.newEvent 0, .attach 0 (.mk 1 [.detach 0, .count 0]) (some 0),
          .attach 0 (.mk 2 []) (some 1), .invoke 0 (5 : Nat)]
        = .error .undefinedBehaviour := by
  refine ⟨rfl, rfl, rfl, rfl, rfl, rfl, rfl⟩

/-- Claim C19. In `detachOtherWorld` the event `e0` has the two live listeners `h0`
(id `1`, callable `f1`) and `h1` (id `2`, callable `f2`), and `f1` runs
`h1->detach()`. In the invocation `e0(5)` the body of `f1` leaves `h1` in the
sentinel state with the id `2` pending and the entry `2` still in `callbacks_`, and
the invocation goes on to call `f2` once; the invocation `e0(6)` that follows calls
`f1` only. -/
theorem C19_detach_takes_effect_at_next_purge :
    detachOtherWorld.listeners 0 = some { event_ := some 0, id_ := 1 }
    ∧ detachOtherWorld.listeners 1 = some { event_ := some 0, id_ := 2 }
    ∧ keysOfRun 0 (.ok detachOtherWorld) = some [1, 2]
    ∧ (detachOtherWorld.heap 0).map (fun c => c.obj.erased_) = some []
    ∧ (∃ w1, execBody (A := Nat) 5 [Stmt.detach 1]
            (detachOtherWorld.record 1 (.mk 1 [.detach 1]) 5)
          = .ok w1
        ∧ w1.listeners 1 = some Listener.sentinel
        ∧ (w1.heap 0).map (fun c => c.obj.erased_) = some [2]
        ∧ (w1.heap 0).map (fun c => mapKeys c.obj.callbacks_) = some [1, 2])
    ∧ (∃ w2, Event.invoke (A := Nat) 10 ⟨some 0⟩ 5 detachOtherWorld = .ok w2
        ∧ w2.calls = [{ id := 1, tag := 1, args := 5 }, { id := 2, tag := 2, args := 5 }]
        ∧ w2.listeners 1 = some Listener.sentinel
        ∧ ∃ w3, Event.invoke 10 ⟨some 0⟩ 6 w2 = .ok w3
          ∧ w3.calls = w2.calls ++ [{ id := 1, tag := 1, args := 6 }]) := by
  refine ⟨rfl, rfl, rfl, rfl, ⟨_, rfl, rfl, rfl, rfl⟩, ⟨_, rfl, rfl, rfl, ⟨_, rfl, rfl⟩⟩⟩

theorem mem_mapEmplace (k : Int) (f : Callable A) (m : CallbackMap A) :
    k ∈ mapKeys (mapEmplace k f m) := by
  induction m with
  | nil => simp [mapEmplace, mapKeys]
  | cons p m ih =>
    obtain ⟨k1, f1⟩ := p
    unfold mapEmplace
    by_cases h1 : k < k1
    · simp [h1, mapKeys]
    · by_cases h2 : k = k1
      · simp [h1, h2, mapKeys]
      · simp only [h1, h2, if_false, mapKeys_cons]
        exact List.mem_cons_of_mem _ ih

/-- Claim C20. The first id of a registry is `1`; in every sequence of operations on
a fresh registry with fewer than `2147483648` attachments every id handed out is at
least `1`; and on an event whose registry has a counter between `0` and the largest
`int` (exclusive), `attach` returns a listener whose id is the counter plus one, at
least `1` and different from the id `0` of the sentinel, stored as a key of
`callbacks_`; `detach()` on that listener is not a no-op: it leaves the listener
sentinel and the id as the one pending removal, so that the next purge erases the
entry. -/
theorem C20_attached_id_is_not_sentinel (w : World A) (ev : Event) (a : Nat) (c : Shared A)
    (f : Callable A) (hev : ev.eventImpl_ = some a) (hh : w.heap a = some c)
    (h0 : 0 ≤ c.obj.nextCallbackId_) (h1 : c.obj.nextCallbackId_ < 2147483647) :
    (EventImpl.fresh.attach f).2 = 1
    ∧ (∀ ops : List (RegOp A), attachCount ops < 2147483648 →
        ∀ id ∈ (runOps ops EventImpl.fresh).2, 1 ≤ id ∧ id ≠ Listener.sentinel.id_)
    ∧ ∃ l w1 c1, ev.attach f w = (some l, w1)
        ∧ l.event_ = some a
        ∧ l.id_ = c.obj.nextCallbackId_ + 1
        ∧ 1 ≤ l.id_
        ∧ l.id_ ≠ Listener.sentinel.id_
        ∧ w1.heap a = some c1
        ∧ l.id_ ∈ mapKeys c1.obj.callbacks_
        ∧ c1.obj.erased_ = []
        ∧ l.detach w1 = (Listener.sentinel, w1.setObj a c1 (c1.obj.remove l.id_))
        ∧ ∃ c2, (l.detach w1).2.heap a = some c2
            ∧ c2.obj.erased_ = [l.id_]
            ∧ l.id_ ∉ mapKeys c2.obj.removeErased.callbacks_ := by
  refine ⟨rfl, ?_, ?_⟩
  · intro ops hc id hid
    have hs := (runOps_spec ops (EventImpl.fresh (A := A)) (by simp [EventImpl.fresh])
      (by simp only [EventImpl.fresh]; omega)).1
    rw [hs] at hid
    obtain ⟨i, _, hi⟩ := List.mem_map.mp hid
    simp only [EventImpl.fresh] at hi
    simp only [Listener.sentinel]
    omega
  · have hw : wrapInt (c.obj.nextCallbackId_ + 1) = c.obj.nextCallbackId_ + 1 :=
      wrapInt_eq _ (by omega) (by omega)
    have hid : (c.obj.attach f).2 = c.obj.nextCallbackId_ + 1 := by
      simp [EventImpl.attach, removeErased_next, hw]
    have hne : c.obj.nextCallbackId_ + 1 ≠ 0 := by omega
    have hkey : (c.obj.attach f).2 ∈ mapKeys (c.obj.attach f).1.callbacks_ := by
      simp only [EventImpl.attach]
      exact mem_mapEmplace _ _ _
    have her : (c.obj.attach f).1.erased_ = [] := rfl
    obtain ⟨w1, hw1⟩ : ∃ w1, w1 = (w.noteOverflow c.obj).setObj a c (c.obj.attach f).1 :=
      ⟨_, rfl⟩
    have hh1 : w1.heap a = some { c with obj := (c.obj.attach f).1 } := by
      rw [hw1]
      simp [World.setObj]
    have hat : ev.attach f w = (some { event_ := some a, id_ := (c.obj.attach f).2 }, w1) := by
      rw [hw1]
      simp [Event.attach, hev, hh]
    have hdet := detach_live { event_ := some a, id_ := (c.obj.attach f).2 } a
      { c with obj := (c.obj.attach f).1 } w1 (by simp only []; rw [hid]; exact hne) rfl hh1
    refine ⟨{ event_ := some a, id_ := (c.obj.attach f).2 }, w1,
      { c with obj := (c.obj.attach f).1 }, hat, rfl, hid, ?_, ?_, hh1, hkey, her, hdet, ?_⟩
    · simp only []
      rw [hid]
      omega
    · simp only [Listener.sentinel]
      rw [hid]
      exact hne
    · rw [hdet]
      refine ⟨{ c with obj := (c.obj.attach f).1.remove (c.obj.attach f).2 },
        by simp [World.setObj], ?_, ?_⟩
      · simp [EventImpl.remove, her]
      · rw [removeErased_callbacks]
        intro hmem
        obtain ⟨g, hg⟩ := mem_mapKeys.mp hmem
        have := (List.mem_filter.mp hg).2
        simp [EventImpl.remove] at this

theorem C20_attached_id_is_not_sentinel_witness :
    sampleWorld.heap 0 = some { useCount := 1, obj := sampleRegistry }
    ∧ (0 : Int) ≤ sampleRegistry.nextCallbackId_
    ∧ sampleRegistry.nextCallbackId_ < 2147483647
    ∧ ∃ l w1, Event.attach ⟨some 0⟩ (Callable.mk 9 []) sampleWorld = (some l, w1)
        ∧ l.id_ = 3
        ∧ l.id_ ≠ Listener.sentinel.id_
        ∧ ∃ c2, (l.detach w1).2.heap 0 = some c2 ∧ c2.obj.erased_ = [l.id_] :=
  ⟨rfl, by decide, by decide,
    let ⟨l, w1, _, h1, _, h3, _, h5, _, _, _, _, c2, h10, h11, _⟩ :=
      (C20_attached_id_is_not_sentinel sampleWorld ⟨some 0⟩ 0
        { useCount := 1, obj := sampleRegistry } (Callable.mk 9 []) rfl rfl
        (by decide) (by decide)).2.2
    ⟨l, w1, h1, h3, h5, c2, h10, h11⟩⟩

/-! ## The invariant of handles -/

theorem fits_congr {w w1 : World A} (l : Listener) (hheap : w1.heap = w.heap)
    (hn : w1.nextAddr = w.nextAddr) (hf : w.fits l) : w1.fits l := by
  unfold World.fits at hf ⊢
  rw [hheap, hn]
  exact hf

/-- A step that keeps the live ids of every registry, apart from the ids in `X`, and
keeps the listeners in the variables or replaces them by listeners with id `0`,
none of them with an id in `X`. -/
theorem Good_step {w w1 : World A} (hg : w.Good) (X : Nat → Int → Prop)
    (hn : w.nextAddr ≤ w1.nextAddr)
    (hheap : ∀ a c1, w1.heap a = some c1 →
      c1.obj.counterInRange ∧
      ((w.nextAddr ≤ a ∧ a < w1.nextAddr) ∨
        ∃ c, w.heap a = some c ∧ c.obj.nextCallbackId_ ≤ c1.obj.nextCallbackId_ ∧
          ∀ id, id ∈ mapKeys c.obj.callbacks_ → id ∉ c.obj.erased_ → ¬ X a id →
            id ∈ mapKeys c1.obj.callbacks_ ∧ id ∉ c1.obj.erased_))
    (hlis : ∀ h l, w1.listeners h = some l →
      (l.id_ = 0 ∧ ∀ a, l.event_ = some a → a < w1.nextAddr) ∨
      (w.listeners h = some l ∧ ∀ a, l.event_ = some a → ¬ X a l.id_)) :
    w1.Good := by
  refine ⟨fun a c1 h => (hheap a c1 h).1, ?_, ?_, ?_⟩
  · intro a c1 h
    rcases (hheap a c1 h).2 with ⟨_, h2⟩ | ⟨c, hc, _⟩
    · exact h2
    · exact lt_of_lt_of_le (hg.heap_lt a c hc) hn
  · intro h l hl
    rcases hlis h l hl with ⟨h0, haddr⟩ | ⟨hw, hX⟩
    · exact ⟨haddr, fun a c hid => absurd h0 hid⟩
    · have hf := hg.fits h l hw
      refine ⟨fun a ha => lt_of_lt_of_le (hf.1 a ha) hn, ?_⟩
      intro a c1 hid he hh1
      rcases (hheap a c1 hh1).2 with ⟨hge, _⟩ | ⟨c, hc, hle, hk⟩
      · have := hf.1 a he
        omega
      · obtain ⟨t1, t2, t3⟩ := hf.2 a c hid he hc
        obtain ⟨k1, k2⟩ := hk _ t1 t2 (hX a he)
        exact ⟨k1, k2, le_trans t3 hle⟩
  · intro h1 h2 l1 l2 a hne hl1 hl2 he1 he2 hid
    rcases hlis h1 l1 hl1 with ⟨h0, _⟩ | ⟨hw1, _⟩
    · exact absurd h0 hid
    · rcases hlis h2 l2 hl2 with ⟨h0, _⟩ | ⟨hw2, _⟩
      · rw [h0]
        exact hid
      · exact hg.unique h1 h2 l1 l2 a hne hw1 hw2 he1 he2 hid

/-- A step that puts a fitting listener, unlike the listeners in the other
variables, into the variable `h`. -/
theorem Good_fill {w w1 : World A} (hg : w.Good) (h : Nat) (l : Listener)
    (hheap : w1.heap = w.heap) (hn : w1.nextAddr = w.nextAddr)
    (hl : w1.listeners h = some l)
    (hother : ∀ h2, h2 ≠ h → w1.listeners h2 = w.listeners h2)
    (hfit : w.fits l)
    (hfresh : ∀ h2 l2 a, h2 ≠ h → w.listeners h2 = some l2 → l.event_ = some a →
      l2.event_ = some a → (l.id_ ≠ 0 ∨ l2.id_ ≠ 0) → l.id_ ≠ l2.id_) :
    w1.Good := by
  refine ⟨?_, ?_, ?_, ?_⟩
  · intro a c hc
    rw [hheap] at hc
    exact hg.range a c hc
  · intro a c hc
    rw [hheap] at hc
    rw [hn]
    exact hg.heap_lt a c hc
  · intro h2 l2 hl2
    by_cases hh : h2 = h
    · subst hh
      rw [hl] at hl2
      cases hl2
      exact fits_congr l hheap hn hfit
    · rw [hother h2 hh] at hl2
      exact fits_congr l2 hheap hn (hg.fits h2 l2 hl2)
  · intro h1 h2 l1 l2 a hne hl1 hl2 he1 he2 hid
    by_cases hh1 : h1 = h
    · subst hh1
      rw [hl] at hl1
      cases hl1
      rw [hother h2 (Ne.symm hne)] at hl2
      exact hfresh h2 l2 a (Ne.symm hne) hl2 he1 he2 (Or.inl hid)
    · rw [hother h1 hh1] at hl1
      by_cases hh2 : h2 = h
      · subst hh2
        rw [hl] at hl2
        cases hl2
        exact (hfresh h1 l1 a hh1 hl1 he2 he1 (Or.inr hid)).symm
      · rw [hother h2 hh2] at hl2
        exact hg.unique h1 h2 l1 l2 a hne hl1 hl2 he1 he2 hid

/-- A step that leaves the registries (up to their use counts, and up to
destruction) and the listeners as they are. -/
theorem Good_same_obj {w w1 : World A} (hg : w.Good) (hn : w1.nextAddr = w.nextAddr)
    (hl : w1.listeners = w.listeners)
    (hheap : ∀ a c1, w1.heap a = some c1 → ∃ c, w.heap a = some c ∧ c1.obj = c.obj) :
    w1.Good := by
  refine Good_step hg (fun _ _ => False) (le_of_eq hn.symm) ?_ ?_
  · intro a c1 hc1
    obtain ⟨c, hc, ho⟩ := hheap a c1 hc1
    rw [ho]
    exact ⟨hg.range a c hc, Or.inr ⟨c, hc, le_refl _, fun id h1 h2 _ => ⟨h1, h2⟩⟩⟩
  · intro h l hl1
    rw [hl] at hl1
    exact Or.inr ⟨hl1, fun _ _ hx => hx⟩

/-- A step that replaces the registry at `a` by one that keeps the live ids and does
not lower the counter. -/
theorem Good_setObj {w : World A} (hg : w.Good) (a : Nat) (c : Shared A) (r : EventImpl A)
    (hh : w.heap a = some c) (hr : r.counterInRange)
    (hle : c.obj.nextCallbackId_ ≤ r.nextCallbackId_)
    (hk : ∀ id, id ∈ mapKeys c.obj.callbacks_ → id ∉ c.obj.erased_ →
      id ∈ mapKeys r.callbacks_ ∧ id ∉ r.erased_) :
    (w.setObj a c r).Good := by
  refine Good_step hg (fun _ _ => False) (le_refl _) ?_ ?_
  · intro b c1 hc1
    by_cases hb : b = a
    · subst hb
      simp only [World.setObj, Function.update_same, Option.some.injEq] at hc1
      subst hc1
      exact ⟨hr, Or.inr ⟨c, hh, hle, fun id h1 h2 _ => hk id h1 h2⟩⟩
    · simp only [World.setObj, Function.update_noteq hb] at hc1
      exact ⟨hg.range b c1 hc1, Or.inr ⟨c1, hc1, le_refl _, fun id h1 h2 _ => ⟨h1, h2⟩⟩⟩
  · intro h l hl1
    exact Or.inr ⟨hl1, fun _ _ hx => hx⟩

theorem detach_frame (l : Listener) (w : World A) :
    (l.detach w).2.nextAddr = w.nextAddr ∧ (l.detach w).2.listeners = w.listeners
      ∧ (l.detach w).2.overflow = w.overflow ∧ (l.detach w).2.events = w.events := by
  obtain ⟨k1, k2, k3, k4⟩ := detach_heap_cases l w
  by_cases hid : l.id_ = 0
  · rw [k1 hid]
    exact ⟨rfl, rfl, rfl, rfl⟩
  · cases he : l.event_ with
    | none =>
      rw [k2 hid he]
      exact ⟨rfl, rfl, rfl, rfl⟩
    | some a =>
      cases hh : w.heap a with
      | none =>
        rw [k3 a hid he hh]
        exact ⟨rfl, rfl, rfl, rfl⟩
      | some c =>
        rw [k4 a c hid he hh]
        exact ⟨rfl, rfl, rfl, rfl⟩

/-- The listener after `detach()` has the id `0`, and a registry reference only if
it had the same one before. -/
theorem detach_result (l : Listener) (w : World A) :
    (l.detach w).1.id_ = 0 ∧ ∀ a, (l.detach w).1.event_ = some a → l.event_ = some a := by
  by_cases hid : l.id_ = 0
  · simp [Listener.detach, hid]
  · simp [Listener.detach, hid]

/-- The step `detach()` on a listener `l`, where the listeners left in the variables
have id `0` or are listeners of before with another id than `l`. -/
theorem Good_detach_step {w w1 : World A} (hg : w.Good) (l : Listener)
    (hheap : w1.heap = (l.detach w).2.heap) (hn : w1.nextAddr = w.nextAddr)
    (hlis : ∀ h l2, w1.listeners h = some l2 →
      (l2.id_ = 0 ∧ ∀ a, l2.event_ = some a → a < w.nextAddr) ∨
      (w.listeners h = some l2 ∧
        ∀ a, l2.event_ = some a → l.event_ = some a → l.id_ ≠ 0 → l2.id_ ≠ l.id_)) :
    w1.Good := by
  obtain ⟨k1, k2, k3, k4⟩ := detach_heap_cases l w
  refine Good_step hg (fun a id => l.event_ = some a ∧ l.id_ ≠ 0 ∧ id = l.id_)
    (le_of_eq hn.symm) ?_ ?_
  · intro b c1 hc1
    rw [hheap] at hc1
    by_cases hid : l.id_ = 0
    · rw [k1 hid] at hc1
      exact ⟨hg.range b c1 hc1, Or.inr ⟨c1, hc1, le_refl _, fun id h1 h2 _ => ⟨h1, h2⟩⟩⟩
    · cases he : l.event_ with
      | none =>
        rw [k2 hid he] at hc1
        exact ⟨hg.range b c1 hc1, Or.inr ⟨c1, hc1, le_refl _, fun id h1 h2 _ => ⟨h1, h2⟩⟩⟩
      | some a =>
        cases hh : w.heap a with
        | none =>
          rw [k3 a hid he hh] at hc1
          exact ⟨hg.range b c1 hc1, Or.inr ⟨c1, hc1, le_refl _, fun id h1 h2 _ => ⟨h1, h2⟩⟩⟩
        | some c =>
          rw [k4 a c hid he hh] at hc1
          by_cases hb : b = a
          · subst hb
            simp only [World.setObj, Function.update_same, Option.some.injEq] at hc1
            subst hc1
            refine ⟨hg.range b c hh, Or.inr ⟨c, hh, le_refl _, ?_⟩⟩
            intro id h1 h2 h3
            refine ⟨h1, ?_⟩
            simp only [EventImpl.remove, List.mem_append, List.mem_singleton, not_or]
            exact ⟨h2, fun heq => h3 ⟨rfl, hid, heq⟩⟩
          · simp only [World.setObj, Function.update_noteq hb] at hc1
            exact ⟨hg.range b c1 hc1, Or.inr ⟨c1, hc1, le_refl _, fun id h1 h2 _ => ⟨h1, h2⟩⟩⟩
  · intro h l2 hl2
    rcases hlis h l2 hl2 with ⟨h0, haddr⟩ | ⟨hw, hne⟩
    · left
      rw [hn]
      exact ⟨h0, haddr⟩
    · right
      exact ⟨hw, fun a he ⟨hle, hid, heq⟩ => hne a he hle hid heq⟩

/-- A listener with id `0` that names no address, or an allocated one. -/
theorem Good_setListener_harmless {w : World A} (hg : w.Good) (h : Nat) (x : Option Listener)
    (hx : ∀ l2, x = some l2 → l2.id_ = 0 ∧ ∀ a, l2.event_ = some a → a < w.nextAddr) :
    (w.setListener h x).Good := by
  refine Good_step hg (fun _ _ => False) (le_refl _) ?_ ?_
  · intro a c1 hc1
    exact ⟨hg.range a c1 hc1, Or.inr ⟨c1, hc1, le_refl _, fun id h1 h2 _ => ⟨h1, h2⟩⟩⟩
  · intro h2 l2 hl2
    by_cases hh : h2 = h
    · subst hh
      simp only [World.setListener, Function.update_same] at hl2
      exact Or.inl (hx l2 hl2)
    · simp only [World.setListener, Function.update_noteq hh] at hl2
      exact Or.inr ⟨hl2, fun _ _ hx => hx⟩

/-- The step `detach()` on the listener in the variable `h`, which is then given a
listener with id `0`, or emptied. -/
theorem Good_detach_var {w : World A} (hg : w.Good) (h : Nat) (l : Listener)
    (hl : w.listeners h = some l) (x : Option Listener)
    (hx : ∀ l2, x = some l2 → l2.id_ = 0 ∧ ∀ a, l2.event_ = some a → a < w.nextAddr) :
    ((l.detach w).2.setListener h x).Good := by
  obtain ⟨f1, f2, _, _⟩ := detach_frame l w
  refine Good_detach_step hg l rfl f1 ?_
  intro h2 l2 hl2
  by_cases hh : h2 = h
  · subst hh
    simp only [World.setListener, Function.update_same] at hl2
    exact Or.inl (hx l2 hl2)
  · simp only [World.setListener, Function.update_noteq hh, f2] at hl2
    right
    refine ⟨hl2, ?_⟩
    intro a he2 hle hid
    exact (hg.unique h h2 l l2 a (Ne.symm hh) hl hl2 hle he2 hid).symm

/-- The step `detach()` on a listener that is in no variable and unlike the
listeners in the variables. -/
theorem Good_detach_free {w : World A} (hg : w.Good) (l : Listener)
    (hfresh : ∀ h2 l2 a, w.listeners h2 = some l2 → l.event_ = some a → l2.event_ = some a →
      l.id_ ≠ 0 → l.id_ ≠ l2.id_) :
    (l.detach w).2.Good := by
  obtain ⟨f1, f2, _, _⟩ := detach_frame l w
  refine Good_detach_step hg l rfl f1 ?_
  intro h2 l2 hl2
  rw [f2] at hl2
  right
  exact ⟨hl2, fun a he2 hle hid => (hfresh h2 l2 a hl2 hle he2 hid).symm⟩

theorem fits_detach (w : World A) (d l : Listener) (hf : w.fits l)
    (hd : ∀ a, l.event_ = some a → d.event_ = some a → d.id_ ≠ 0 → l.id_ ≠ 0 →
      l.id_ ≠ d.id_) :
    (d.detach w).2.fits l := by
  obtain ⟨k1, k2, k3, k4⟩ := detach_heap_cases d w
  by_cases hid : d.id_ = 0
  · rw [k1 hid]
    exact hf
  · cases he : d.event_ with
    | none =>
      rw [k2 hid he]
      exact hf
    | some a =>
      cases hh : w.heap a with
      | none =>
        rw [k3 a hid he hh]
        exact hf
      | some c =>
        rw [k4 a c hid he hh]
        refine ⟨hf.1, ?_⟩
        intro b c1 hlid hle hc1
        by_cases hb : b = a
        · subst hb
          simp only [World.setObj, Function.update_same, Option.some.injEq] at hc1
          subst hc1
          obtain ⟨t1, t2, t3⟩ := hf.2 b c hlid hle hh
          refine ⟨t1, ?_, t3⟩
          simp only [EventImpl.remove, List.mem_append, List.mem_singleton, not_or]
          exact ⟨t2, hd b hle he hid hlid⟩
        · simp only [World.setObj, Function.update_noteq hb] at hc1
          exact hf.2 b c1 hlid hle hc1

theorem destroyPtr_frame2 (w : World A) (p : Option Listener) :
    (w.destroyPtr p).nextAddr = w.nextAddr ∧ (w.destroyPtr p).listeners = w.listeners
      ∧ (w.destroyPtr p).overflow = w.overflow ∧ (w.destroyPtr p).events = w.events := by
  cases p with
  | none => exact ⟨rfl, rfl, rfl, rfl⟩
  | some l => exact detach_frame l w

/-- The step `h.reset()`. -/
theorem Good_assignPtr_none {w : World A} (hg : w.Good) (h : Nat) :
    (w.assignPtr h none).Good := by
  unfold World.assignPtr
  cases hl : w.listeners h with
  | none =>
    exact Good_setListener_harmless hg h none (fun l2 hl2 => by cases hl2)
  | some d =>
    exact Good_detach_var hg h d hl none (fun l2 hl2 => by cases hl2)

/-- The step `h = p` for a `ListenerPtr` to a listener that fits and is unlike the
listeners in the variables. -/
theorem Good_assignPtr_some {w : World A} (hg : w.Good) (h : Nat) (l : Listener)
    (hfit : w.fits l)
    (hfresh : ∀ h2 l2 a, h2 ≠ h → w.listeners h2 = some l2 → l.event_ = some a →
      l2.event_ = some a → (l.id_ ≠ 0 ∨ l2.id_ ≠ 0) → l.id_ ≠ l2.id_)
    (hold : ∀ d a, w.listeners h = some d → l.event_ = some a → d.event_ = some a →
      d.id_ ≠ 0 → l.id_ ≠ 0 → l.id_ ≠ d.id_) :
    (w.assignPtr h (some l)).Good := by
  have hg2 := Good_assignPtr_none hg h
  obtain ⟨f1, f2, _, _⟩ := destroyPtr_frame2 w (w.listeners h)
  refine Good_fill hg2 h l rfl rfl ?_ ?_ ?_ ?_
  · simp [World.assignPtr, World.setListener]
  · intro h2 hh
    simp [World.assignPtr, World.setListener, Function.update_noteq hh]
  · have : (w.destroyPtr (w.listeners h)).fits l := by
      cases hl : w.listeners h with
      | none => exact hfit
      | some d =>
        exact fits_detach w d l hfit (fun a he hde hdid hlid => hold d a hl he hde hdid hlid)
    exact fits_congr l rfl rfl this
  · intro h2 l2 a hh hl2 he he2 hor
    simp only [World.assignPtr, World.setListener, Function.update_noteq hh, f2] at hl2
    exact hfresh h2 l2 a hh hl2 he he2 hor

theorem release_heap_obj (w : World A) (p : Option Nat) (a : Nat) (c1 : Shared A)
    (h : (w.release p).heap a = some c1) : ∃ c, w.heap a = some c ∧ c1.obj = c.obj := by
  cases p with
  | none => exact ⟨c1, h, rfl⟩
  | some b =>
    simp only [World.release] at h
    cases hb : w.heap b with
    | none =>
      rw [hb] at h
      exact ⟨c1, h, rfl⟩
    | some cb =>
      rw [hb] at h
      simp only at h
      split at h
      · by_cases hab : a = b
        · subst hab
          simp at h
        · simp only [Function.update_noteq hab] at h
          exact ⟨c1, h, rfl⟩
      · by_cases hab : a = b
        · subst hab
          simp only [Function.update_same, Option.some.injEq] at h
          subst h
          exact ⟨cb, hb, rfl⟩
        · simp only [Function.update_noteq hab] at h
          exact ⟨c1, h, rfl⟩

theorem release_overflow (w : World A) (p : Option Nat) :
    (w.release p).overflow = w.overflow := by
  cases p with
  | none => rfl
  | some b =>
    simp only [World.release]
    cases hb : w.heap b with
    | none => rfl
    | some cb =>
      simp only
      split <;> rfl

theorem acquire_frame (w : World A) (p : Option Nat) :
    (w.acquire p).nextAddr = w.nextAddr ∧ (w.acquire p).listeners = w.listeners
      ∧ (w.acquire p).overflow = w.overflow
      ∧ ∀ a c1, (w.acquire p).heap a = some c1 → ∃ c, w.heap a = some c ∧ c1.obj = c.obj := by
  cases p with
  | none => exact ⟨rfl, rfl, rfl, fun a c1 h => ⟨c1, h, rfl⟩⟩
  | some b =>
    simp only [World.acquire]
    cases hb : w.heap b with
    | none => exact ⟨rfl, rfl, rfl, fun a c1 h => ⟨c1, h, rfl⟩⟩
    | some cb =>
      refine ⟨rfl, rfl, rfl, ?_⟩
      intro a c1 h
      by_cases hab : a = b
      · subst hab
        simp only [Function.update_same, Option.some.injEq] at h
        subst h
        exact ⟨cb, hb, rfl⟩
      · simp only [Function.update_noteq hab] at h
        exact ⟨c1, h, rfl⟩

theorem Good_release {w : World A} (hg : w.Good) (p : Option Nat) : (w.release p).Good :=
  Good_same_obj hg (release_frame w p).2.2.2 (release_frame w p).2.1 (release_heap_obj w p)

theorem Good_acquire {w : World A} (hg : w.Good) (p : Option Nat) : (w.acquire p).Good :=
  Good_same_obj hg (acquire_frame w p).1 (acquire_frame w p).2.1 (acquire_frame w p).2.2.2

theorem Good_setEvent {w : World A} (hg : w.Good) (e : Nat) (ev : Event) :
    (w.setEvent e ev).Good :=
  Good_same_obj hg rfl rfl (fun _ c1 h => ⟨c1, h, rfl⟩)

theorem Good_assignEvent {w : World A} (hg : w.Good) (dst : Nat) (p : Option Nat) :
    (w.assignEvent dst p).Good :=
  Good_release (Good_setEvent hg dst ⟨p⟩) _

theorem assignEvent_overflow (w : World A) (dst : Nat) (p : Option Nat) :
    (w.assignEvent dst p).overflow = w.overflow := by
  unfold World.assignEvent
  rw [release_overflow]
  rfl

theorem Good_newEvent {w : World A} (hg : w.Good) (e : Nat) : (w.newEvent e).Good := by
  unfold World.newEvent
  refine Good_assignEvent ?_ e _
  refine Good_step hg (fun _ _ => False) (Nat.le_succ _) ?_ ?_
  · intro b c1 hc1
    by_cases hb : b = w.nextAddr
    · subst hb
      simp only [Function.update_same, Option.some.injEq] at hc1
      subst hc1
      refine ⟨?_, Or.inl ⟨le_refl _, Nat.lt_succ_self _⟩⟩
      simp [EventImpl.counterInRange, EventImpl.fresh]
    · simp only [Function.update_noteq hb] at hc1
      exact ⟨hg.range b c1 hc1, Or.inr ⟨c1, hc1, le_refl _, fun id h1 h2 _ => ⟨h1, h2⟩⟩⟩
  · intro h l hl
    exact Or.inr ⟨hl, fun _ _ hx => hx⟩

theorem newEvent_overflow (w : World A) (e : Nat) : (w.newEvent e).overflow = w.overflow := by
  unfold World.newEvent
  rw [assignEvent_overflow]

theorem Good_copyEvent {w : World A} (hg : w.Good) (dst src : Nat) :
    (w.copyEvent dst src).Good :=
  Good_assignEvent (Good_acquire hg _) dst _

theorem copyEvent_overflow (w : World A) (dst src : Nat) :
    (w.copyEvent dst src).overflow = w.overflow := by
  unfold World.copyEvent
  rw [assignEvent_overflow, (acquire_frame w _).2.2.1]

theorem Good_moveEvent {w : World A} (hg : w.Good) (dst src : Nat) :
    (w.moveEvent dst src).Good :=
  Good_assignEvent (Good_setEvent hg src ⟨none⟩) dst _

theorem moveEvent_overflow (w : World A) (dst src : Nat) :
    (w.moveEvent dst src).overflow = w.overflow := by
  unfold World.moveEvent
  rw [assignEvent_overflow]
  rfl

theorem Good_dropEvent {w : World A} (hg : w.Good) (e : Nat) : (w.dropEvent e).Good :=
  Good_assignEvent hg e none

theorem dropEvent_overflow (w : World A) (e : Nat) : (w.dropEvent e).overflow = w.overflow :=
  assignEvent_overflow w e none

/-- The step `removeErased()` on the registry at `a`. -/
theorem Good_purge {w : World A} (hg : w.Good) (a : Nat) (c : Shared A)
    (hh : w.heap a = some c) : (w.purge a c).Good := by
  refine Good_setObj hg a c c.obj.removeErased hh (hg.range a c hh) (le_refl _) ?_
  intro id h1 h2
  rw [removeErased_callbacks, removeErased_erased]
  refine ⟨?_, by simp⟩
  obtain ⟨g, hg1⟩ := mem_mapKeys.mp h1
  exact mem_mapKeys.mpr ⟨g, List.mem_filter.mpr ⟨hg1, by simpa using h2⟩⟩

theorem Good_count {w : World A} (hg : w.Good) (e : Nat) : (w.count e).Good := by
  unfold World.count
  cases hev : (w.events e).eventImpl_ with
  | none =>
    simp only [Event.getListenersCount, hev]
    exact hg
  | some a =>
    cases hh : w.heap a with
    | none =>
      simp only [Event.getListenersCount, hev, hh]
      exact hg
    | some c =>
      rw [count_bound (w.events e) a c w hev hh]
      exact Good_purge hg a c hh

theorem count_overflow (w : World A) (e : Nat) : (w.count e).overflow = w.overflow := by
  unfold World.count
  cases hev : (w.events e).eventImpl_ with
  | none => simp only [Event.getListenersCount, hev]
  | some a =>
    cases hh : w.heap a with
    | none => simp only [Event.getListenersCount, hev, hh]
    | some c =>
      rw [count_bound (w.events e) a c w hev hh]
      rfl

theorem assignPtr_overflow (w : World A) (h : Nat) (p : Option Listener) :
    (w.assignPtr h p).overflow = w.overflow := by
  unfold World.assignPtr
  exact (destroyPtr_frame2 w _).2.2.1

/-- The step `h->detach()`. -/
theorem Good_detach {w w1 : World A} (hg : w.Good) (h : Nat) (hr : w.detach h = .ok w1) :
    w1.Good ∧ w1.overflow = w.overflow := by
  unfold World.detach at hr
  cases hl : w.listeners h with
  | none =>
    rw [hl] at hr
    cases hr
  | some l =>
    rw [hl] at hr
    simp only [Except.ok.injEq] at hr
    subst hr
    refine ⟨Good_detach_var hg h l hl _ ?_, (detach_frame l w).2.2.1⟩
    intro l2 hl2
    cases hl2
    obtain ⟨r1, r2⟩ := detach_result l w
    exact ⟨r1, fun a ha => (hg.fits h l hl).1 a (r2 a ha)⟩

/-- The step `dst = ListenerPtr(new Listener(std::move(*src)))`. -/
theorem Good_moveListener {w w1 : World A} (hg : w.Good) (dst src : Nat)
    (hr : w.moveListener dst src = .ok w1) : w1.Good ∧ w1.overflow = w.overflow := by
  unfold World.moveListener at hr
  cases hs : w.listeners src with
  | none =>
    rw [hs] at hr
    cases hr
  | some s =>
    rw [hs] at hr
    simp only [Except.ok.injEq, Listener.moveConstruct] at hr
    subst hr
    refine ⟨?_, by rw [assignPtr_overflow]; rfl⟩
    have hg1 : (w.setListener src (some { event_ := none, id_ := 0 })).Good :=
      Good_setListener_harmless hg src _ (by
        intro l2 hl2
        cases hl2
        exact ⟨rfl, fun a ha => by cases ha⟩)
    have hsl : ∀ h2, h2 ≠ src →
        (w.setListener src (some { event_ := none, id_ := 0 })).listeners h2
          = w.listeners h2 := fun h2 hh => by
      simp only [World.setListener, Function.update_noteq hh]
    have hsrc : (w.setListener src (some { event_ := none, id_ := 0 })).listeners src
        = some { event_ := none, id_ := 0 } := by
      simp only [World.setListener, Function.update_same]
    refine Good_assignPtr_some hg1 dst { event_ := s.event_, id_ := s.id_ }
      (fits_congr _ rfl rfl (hg.fits src s hs)) ?_ ?_
    · intro h2 l2 a _ hl2 he he2 hor
      by_cases hh : h2 = src
      · subst hh
        rw [hsrc] at hl2
        cases hl2
        cases he2
      · rw [hsl h2 hh] at hl2
        rcases hor with hid | hid
        · exact hg.unique src h2 s l2 a (Ne.symm hh) hs hl2 he he2 hid
        · exact (hg.unique h2 src l2 s a hh hl2 hs he2 he hid).symm
    · intro d a hd he hde hdid _
      by_cases hh : dst = src
      · subst hh
        rw [hsrc] at hd
        cases hd
        cases hde
      · rw [hsl dst hh] at hd
        exact (hg.unique dst src d s a hh hd hs hde he hdid).symm

/-- The step that gives the variable `dst` the listener of `src` and leaves `src`
sentinel, the listener in `dst` being overwritten. -/
theorem Good_move_slot {w : World A} (hg : w.Good) (dst src : Nat) (s : Listener)
    (hs : w.listeners src = some s) :
    ((w.setListener dst (some { event_ := s.event_, id_ := s.id_ })).setListener src
      (some { event_ := none, id_ := 0 })).Good := by
  have hg1 : (w.setListener src (some { event_ := none, id_ := 0 })).Good :=
    Good_setListener_harmless hg src _ (by
      intro l2 hl2
      cases hl2
      exact ⟨rfl, fun a ha => by cases ha⟩)
  by_cases hds : dst = src
  · subst hds
    have : (w.setListener dst (some { event_ := s.event_, id_ := s.id_ })).setListener dst
        (some { event_ := none, id_ := 0 })
        = w.setListener dst (some { event_ := none, id_ := 0 }) := by
      simp [World.setListener]
    rw [this]
    exact hg1
  · refine Good_fill hg1 dst { event_ := s.event_, id_ := s.id_ } rfl rfl ?_ ?_
      (fits_congr _ rfl rfl (hg.fits src s hs)) ?_
    · simp [World.setListener, Function.update_noteq hds]
    · intro h2 hh
      by_cases h2s : h2 = src
      · subst h2s
        simp [World.setListener]
      · simp [World.setListener, Function.update_noteq hh, Function.update_noteq h2s]
    · intro h2 l2 a hh hl2 he he2 hor
      by_cases h2s : h2 = src
      · subst h2s
        simp only [World.setListener, Function.update_same, Option.some.injEq] at hl2
        subst hl2
        cases he2
      · simp only [World.setListener, Function.update_noteq h2s] at hl2
        rcases hor with hid | hid
        · exact hg.unique src h2 s l2 a (Ne.symm h2s) hs hl2 he he2 hid
        · exact (hg.unique h2 src l2 s a h2s hl2 hs he2 he hid).symm

/-- The step `*dst = std::move(*src)`. -/
theorem Good_assignListener {w w1 : World A} (hg : w.Good) (dst src : Nat)
    (hr : w.assignListener dst src = .ok w1) : w1.Good ∧ w1.overflow = w.overflow := by
  unfold World.assignListener at hr
  cases hd : w.listeners dst with
  | none =>
    rw [hd] at hr
    cases hr
  | some d =>
    cases hs0 : w.listeners src with
    | none =>
      rw [hd, hs0] at hr
      cases hr
    | some s0 =>
      rw [hd, hs0] at hr
      simp only at hr
      have hg1 : ((d.detach w).2.setListener dst (some (d.detach w).1)).Good := by
        refine Good_detach_var hg dst d hd _ ?_
        intro l2 hl2
        cases hl2
        obtain ⟨r1, r2⟩ := detach_result d w
        exact ⟨r1, fun a ha => (hg.fits dst d hd).1 a (r2 a ha)⟩
      cases hs : ((d.detach w).2.setListener dst (some (d.detach w).1)).listeners src with
      | none =>
        rw [hs] at hr
        cases hr
      | some s =>
        rw [hs] at hr
        simp only [Except.ok.injEq] at hr
        subst hr
        exact ⟨Good_move_slot hg1 dst src s hs, (detach_frame d w).2.2.1⟩

/-- The step `dst = std::move(src)` on `ListenerPtr`s. -/
theorem Good_movePtr {w : World A} (hg : w.Good) (dst src : Nat) :
    (w.movePtr dst src).Good := by
  unfold World.movePtr
  have hg1 : (w.setListener src none).Good :=
    Good_setListener_harmless hg src none (fun l2 hl2 => by cases hl2)
  have hsl : ∀ h2, h2 ≠ src → (w.setListener src none).listeners h2 = w.listeners h2 :=
    fun h2 hh => by simp only [World.setListener, Function.update_noteq hh]
  have hsrc : (w.setListener src none).listeners src = none := by
    simp only [World.setListener, Function.update_same]
  cases hs : w.listeners src with
  | none => exact Good_assignPtr_none hg1 dst
  | some s =>
    refine Good_assignPtr_some hg1 dst s (fits_congr _ rfl rfl (hg.fits src s hs)) ?_ ?_
    · intro h2 l2 a _ hl2 he he2 hor
      by_cases hh : h2 = src
      · subst hh
        rw [hsrc] at hl2
        cases hl2
      · rw [hsl h2 hh] at hl2
        rcases hor with hid | hid
        · exact hg.unique src h2 s l2 a (Ne.symm hh) hs hl2 he he2 hid
        · exact (hg.unique h2 src l2 s a hh hl2 hs he2 he hid).symm
    · intro d a hd he hde hdid _
      by_cases hh : dst = src
      · subst hh
        rw [hsrc] at hd
        cases hd
      · rw [hsl dst hh] at hd
        exact (hg.unique dst src d s a hh hd hs hde he hdid).symm

theorem movePtr_overflow (w : World A) (dst src : Nat) :
    (w.movePtr dst src).overflow = w.overflow := by
  unfold World.movePtr
  rw [assignPtr_overflow]
  rfl

theorem mapKeys_mapEmplace_of_mem (n : Int) (f : Callable A) (m : CallbackMap A) (k : Int)
    (hk : k ∈ mapKeys m) : k ∈ mapKeys (mapEmplace n f m) := by
  induction m with
  | nil => simp [mapKeys] at hk
  | cons p m ih =>
    obtain ⟨k1, f1⟩ := p
    unfold mapEmplace
    by_cases h1 : n < k1
    · simp only [h1, if_true, mapKeys_cons]
      exact List.mem_cons_of_mem _ hk
    · by_cases h2 : n = k1
      · subst h2
        simp only [lt_self_iff_false, if_true, if_false]
        exact hk
      · simp only [h1, h2, if_false, mapKeys_cons]
        rw [mapKeys_cons] at hk
        rcases List.mem_cons.mp hk with h | h
        · exact List.mem_cons.mpr (Or.inl h)
        · exact List.mem_cons_of_mem _ (ih h)

theorem attach_overflow (w : World A) (e : Nat) (f : Callable A) (hopt : Option Nat) :
    (w.attach e f hopt).overflow = ((w.events e).attach f w).2.overflow := by
  unfold World.attach
  cases hopt with
  | none => exact (destroyPtr_frame2 _ _).2.2.1
  | some h => exact assignPtr_overflow _ _ _

theorem Inv_of {w w1 : World A} (hi : w.Inv) (hov : w1.overflow = w.overflow)
    (hg : w.Good → w1.Good) : w1.Inv := by
  rcases hi with h | h
  · left
    rw [hov]
    exact h
  · right
    exact hg h

/-- The step `h = e.attach(f)`, or `e.attach(f);`: the counter overflows, or the
new listener has an id above the ids of all listeners of the registry. -/
theorem Inv_attach {w : World A} (hi : w.Inv) (e : Nat) (f : Callable A) (hopt : Option Nat) :
    (w.attach e f hopt).Inv := by
  have hnull : (w.events e).attach f w = (none, w) → (w.attach e f hopt).Inv := by
    intro hat
    unfold World.attach
    rw [hat]
    cases hopt with
    | none => exact hi
    | some h => exact Inv_of hi (assignPtr_overflow w h none) (fun hg => Good_assignPtr_none hg h)
  cases hev : (w.events e).eventImpl_ with
  | none => exact hnull (by simp [Event.attach, hev])
  | some a =>
    cases hh : w.heap a with
    | none => exact hnull (by simp [Event.attach, hev, hh])
    | some c =>
      have hat : (w.events e).attach f w
          = (some { event_ := some a, id_ := (c.obj.attach f).2 },
             (w.noteOverflow c.obj).setObj a c (c.obj.attach f).1) := by
        simp [Event.attach, hev, hh]
      have hov := attach_overflow w e f hopt
      by_cases hmax : c.obj.nextCallbackId_ = 2147483647
      · left
        rw [hov, hat]
        simp [World.setObj, World.noteOverflow, hmax]
      · have hno : w.noteOverflow c.obj = w := by simp [World.noteOverflow, hmax]
        rw [hno] at hat
        rcases hi with ho | hg
        · left
          rw [hov, hat]
          exact ho
        · right
          have hr := hg.range a c hh
          unfold EventImpl.counterInRange at hr
          have hw : wrapInt (c.obj.nextCallbackId_ + 1) = c.obj.nextCallbackId_ + 1 :=
            wrapInt_eq _ (by omega) (by omega)
          have hid : (c.obj.attach f).2 = c.obj.nextCallbackId_ + 1 := by
            simp [EventImpl.attach, removeErased_next, hw]
          have hnx : (c.obj.attach f).1.nextCallbackId_ = c.obj.nextCallbackId_ + 1 := by
            simp [EventImpl.attach, removeErased_next, hw]
          have her : (c.obj.attach f).1.erased_ = [] := rfl
          have hnew : (c.obj.attach f).2 ∈ mapKeys (c.obj.attach f).1.callbacks_ := by
            simp only [EventImpl.attach]
            exact mem_mapEmplace _ _ _
          have hkeys : ∀ id, id ∈ mapKeys c.obj.callbacks_ → id ∉ c.obj.erased_ →
              id ∈ mapKeys (c.obj.attach f).1.callbacks_ := by
            intro id h1 h2
            simp only [EventImpl.attach]
            apply mapKeys_mapEmplace_of_mem
            rw [removeErased_callbacks]
            obtain ⟨g, hg1⟩ := mem_mapKeys.mp h1
            exact mem_mapKeys.mpr ⟨g, List.mem_filter.mpr ⟨hg1, by simpa using h2⟩⟩
          obtain ⟨wA, hwA⟩ : ∃ wA, wA = w.setObj a c (c.obj.attach f).1 := ⟨_, rfl⟩
          obtain ⟨n, hn⟩ : ∃ n, n = (c.obj.attach f).2 := ⟨_, rfl⟩
          rw [← hn] at hid hnew hat
          rw [← hwA] at hat
          have hgA : wA.Good := by
            rw [hwA]
            refine Good_setObj hg a c _ hh ?_ (by rw [hnx]; omega) ?_
            · unfold EventImpl.counterInRange
              rw [hnx]
              omega
            · intro id h1 h2
              exact ⟨hkeys id h1 h2, by rw [her]; simp⟩
          have hhA : wA.heap a = some { c with obj := (c.obj.attach f).1 } := by
            rw [hwA]
            simp [World.setObj]
          have hlA : wA.listeners = w.listeners := by rw [hwA]; rfl
          have hnA : wA.nextAddr = w.nextAddr := by rw [hwA]; rfl
          have hfit : wA.fits { event_ := some a, id_ := n } := by
            refine ⟨?_, ?_⟩
            · intro b hb
              cases hb
              rw [hnA]
              exact hg.heap_lt a c hh
            · intro b c1 _ hb hc1
              cases hb
              rw [hhA] at hc1
              cases hc1
              refine ⟨hnew, by rw [her]; simp, ?_⟩
              show n ≤ (c.obj.attach f).1.nextCallbackId_
              rw [hnx, hid]
          have hfresh : ∀ h2 l2 b, wA.listeners h2 = some l2 → some a = some b →
              l2.event_ = some b → (n ≠ 0 ∨ l2.id_ ≠ 0) → n ≠ l2.id_ := by
            intro h2 l2 b hl2 hb he2 hor
            cases hb
            rw [hlA] at hl2
            by_cases h0 : l2.id_ = 0
            · rcases hor with h | h
              · rw [h0]
                exact h
              · exact absurd h0 h
            · have := ((hg.fits h2 l2 hl2).2 a c h0 he2 hh).2.2
              omega
          unfold World.attach
          rw [hat]
          cases hopt with
          | none =>
            exact Good_detach_free hgA { event_ := some a, id_ := n }
              (fun h2 l2 b hl2 he he2 hid0 => hfresh h2 l2 b hl2 he he2 (Or.inl hid0))
          | some h =>
            exact Good_assignPtr_some hgA h { event_ := some a, id_ := n } hfit
              (fun h2 l2 b _ hl2 he he2 hor => hfresh h2 l2 b hl2 he he2 hor)
              (fun d b hd he hde hdid _ => hfresh h d b hd he hde (Or.inr hdid))

theorem Good_init : (World.init (A := A)).Good := by
  refine ⟨?_, ?_, ?_, ?_⟩
  · intro a c h
    cases h
  · intro a c h
    cases h
  · intro h l hl
    cases hl
  · intro h1 h2 l1 l2 a _ hl1
    cases hl1

theorem Inv_purge {w : World A} (hi : w.Inv) (a : Nat) (c : Shared A)
    (hh : w.heap a = some c) : (w.purge a c).Inv :=
  Inv_of hi rfl (fun hg => Good_purge hg a c hh)

theorem Inv_record {w : World A} (hi : w.Inv) (k : Int) (f : Callable A) (args : A) :
    (w.record k f args).Inv :=
  Inv_of hi rfl (fun hg => Good_same_obj hg rfl rfl (fun _ c1 h => ⟨c1, h, rfl⟩))

/-- Running user code keeps the invariant: bodies of statements and the loop of an
invocation. -/
theorem exec_Inv [ArgPack A] : ∀ fuel : Nat,
    (∀ (body : List (Stmt A)) (w w1 : World A),
        execBody fuel body w = .ok w1 → w.Inv → w1.Inv)
    ∧ (∀ (a : Nat) (cur : Option Int) (args : A) (w w1 : World A),
        invokeLoop fuel a cur args w = .ok w1 → w.Inv → w1.Inv) := by
  intro fuel
  induction fuel with
  | zero =>
    constructor
    · intro body w w1 h hi
      cases body with
      | nil =>
        simp only [execBody, Except.ok.injEq] at h
        subst h
        exact hi
      | cons s rest => simp [execBody] at h
    · intro a cur args w w1 h hi
      simp [invokeLoop] at h
  | succ fuel ih =>
    obtain ⟨ihE, ihL⟩ := ih
    constructor
    · intro body w w1 h hi
      cases body with
      | nil =>
        simp only [execBody, Except.ok.injEq] at h
        subst h
        exact hi
      | cons s rest =>
        cases s with
        | newEvent e =>
          simp only [execBody] at h
          exact ihE rest _ w1 h (Inv_of hi (newEvent_overflow w e) (fun hg => Good_newEvent hg e))
        | copyEvent dst src =>
          simp only [execBody] at h
          exact ihE rest _ w1 h
            (Inv_of hi (copyEvent_overflow w dst src) (fun hg => Good_copyEvent hg dst src))
        | moveEvent dst src =>
          simp only [execBody] at h
          exact ihE rest _ w1 h
            (Inv_of hi (moveEvent_overflow w dst src) (fun hg => Good_moveEvent hg dst src))
        | dropEvent e =>
          simp only [execBody] at h
          exact ihE rest _ w1 h
            (Inv_of hi (dropEvent_overflow w e) (fun hg => Good_dropEvent hg e))
        | attach e f hopt =>
          simp only [execBody] at h
          exact ihE rest _ w1 h (Inv_attach hi e f hopt)
        | count e =>
          simp only [execBody] at h
          exact ihE rest _ w1 h (Inv_of hi (count_overflow w e) (fun hg => Good_count hg e))
        | dropListener hv =>
          simp only [execBody] at h
          exact ihE rest _ w1 h
            (Inv_of hi (assignPtr_overflow w hv none) (fun hg => Good_assignPtr_none hg hv))
        | movePtr dst src =>
          simp only [execBody] at h
          exact ihE rest _ w1 h
            (Inv_of hi (movePtr_overflow w dst src) (fun hg => Good_movePtr hg dst src))
        | detach hv =>
          simp only [execBody] at h
          cases hr : w.detach hv with
          | error err =>
            rw [hr] at h
            cases h
          | ok w2 =>
            rw [hr] at h
            have hov : w2.overflow = w.overflow := by
              unfold World.detach at hr
              cases hl : w.listeners hv with
              | none =>
                rw [hl] at hr
                cases hr
              | some l =>
                rw [hl] at hr
                simp only [Except.ok.injEq] at hr
                subst hr
                exact (detach_frame l w).2.2.1
            exact ihE rest w2 w1 h (Inv_of hi hov (fun hg => (Good_detach hg hv hr).1))
        | moveListener dst src =>
          simp only [execBody] at h
          cases hr : w.moveListener dst src with
          | error err =>
            rw [hr] at h
            cases h
          | ok w2 =>
            rw [hr] at h
            have hov : w2.overflow = w.overflow := by
              unfold World.moveListener at hr
              cases hs : w.listeners src with
              | none =>
                rw [hs] at hr
                cases hr
              | some s =>
                rw [hs] at hr
                simp only [Except.ok.injEq] at hr
                subst hr
                rw [assignPtr_overflow]
                rfl
            exact ihE rest w2 w1 h
              (Inv_of hi hov (fun hg => (Good_moveListener hg dst src hr).1))
        | assignListener dst src =>
          simp only [execBody] at h
          cases hr : w.assignListener dst src with
          | error err =>
            rw [hr] at h
            cases h
          | ok w2 =>
            rw [hr] at h
            have hov : w2.overflow = w.overflow := by
              unfold World.assignListener at hr
              cases hd : w.listeners dst with
              | none =>
                rw [hd] at hr
                cases hr
              | some d =>
                cases hs0 : w.listeners src with
                | none =>
                  rw [hd, hs0] at hr
                  cases hr
                | some s0 =>
                  rw [hd, hs0] at hr
                  simp only at hr
                  cases hs : ((d.detach w).2.setListener dst (some (d.detach w).1)).listeners src with
                  | none =>
                    rw [hs] at hr
                    cases hr
                  | some s =>
                    rw [hs] at hr
                    simp only [Except.ok.injEq] at hr
                    subst hr
                    exact (detach_frame d w).2.2.1
            exact ihE rest w2 w1 h
              (Inv_of hi hov (fun hg => (Good_assignListener hg dst src hr).1))
        | invoke e args =>
          simp only [execBody] at h
          cases hev : (w.events e).eventImpl_ with
          | none =>
            rw [hev] at h
            exact ihE rest w w1 h hi
          | some a =>
            rw [hev] at h
            simp only at h
            cases hh : w.heap a with
            | none =>
              rw [hh] at h
              exact ihE rest w w1 h hi
            | some c =>
              rw [hh] at h
              simp only at h
              cases hL : invokeLoop fuel a none args (w.purge a c) with
              | error err =>
                rw [hL] at h
                cases h
              | ok w2 =>
                rw [hL] at h
                exact ihE rest w2 w1 h (ihL a none args _ w2 hL (Inv_purge hi a c hh))
    · intro a cur args w w1 h hi
      rw [invokeLoop.eq_def] at h
      simp only at h
      cases hh : w.heap a with
      | none =>
        rw [hh] at h
        cases h
      | some c =>
        rw [hh] at h
        simp only at h
        split at h
        · cases hm : mapNext cur c.obj.callbacks_ with
          | none =>
            rw [hm] at h
            simp only [Except.ok.injEq] at h
            subst h
            exact hi
          | some p =>
            obtain ⟨k, f⟩ := p
            rw [hm] at h
            simp only at h
            cases hb : execBody fuel f.body (w.record k f args) with
            | error err =>
              rw [hb] at h
              cases h
            | ok w2 =>
              rw [hb] at h
              exact ihL a (some k) _ w2 w1 h (ihE f.body _ w2 hb (Inv_record hi k f args))
        · cases h

/-- Claim C18. Let a program made of event construction, copy, move and destruction,
`attach`, invocation (whose callables run such statements in turn),
`getListenersCount`, listener move construction and move assignment, `detach()`,
listener destruction and `ListenerPtr` moves run from the initial world, where
nothing has been constructed, to the world `w` without overflow of a counter
`nextCallbackId_`. Then every listener in a variable of `w` that has a non-sentinel
id and whose registry still exists has its id among the keys of `callbacks_` or in
`erased_` of that registry; more precisely, the id is a key of `callbacks_` and not
pending removal. -/
theorem C18_handles_tracked [ArgPack A] (fuel : Nat) (prog : List (Stmt A)) (w : World A)
    (hrun : run fuel prog = .ok w) (hno : w.overflow = false) :
    w.handlesTracked
    ∧ ∀ h l a c, w.listeners h = some l → l.id_ ≠ 0 → l.event_ = some a →
        w.heap a = some c → l.id_ ∈ mapKeys c.obj.callbacks_ ∧ l.id_ ∉ c.obj.erased_ := by
  have hi := (exec_Inv fuel).1 prog World.init w hrun (Or.inr Good_init)
  rcases hi with ho | hg
  · rw [ho] at hno
    cases hno
  · have hs : ∀ h l a c, w.listeners h = some l → l.id_ ≠ 0 → l.event_ = some a →
        w.heap a = some c → l.id_ ∈ mapKeys c.obj.callbacks_ ∧ l.id_ ∉ c.obj.erased_ := by
      intro h l a c hl hid he hh
      obtain ⟨t1, t2, _⟩ := (hg.fits h l hl).2 a c hid he hh
      exact ⟨t1, t2⟩
    exact ⟨fun h l a c hl hid he hh => Or.inl (hs h l a c hl hid he hh).1, hs⟩

theorem C18_handles_tracked_witness :
    ∃ w, run (A := Nat) 20 [Stmt.newEvent 0, .attach 0 (.mk 1 [.detach 1]) (some 0),
        .attach 0 (.mk 2 []) (some 1), .invoke 0 5, .moveListener 2 0, .copyEvent 1 0,
        .attach 1 (.mk 3 []) (some 0), .count 0] = .ok w
      ∧ w.overflow = false
      ∧ w.listeners 0 = some { event_ := some 0, id_ := 3 }
      ∧ w.listeners 1 = some Listener.sentinel
      ∧ w.listeners 2 = some { event_ := some 0, id_ := 1 }
      ∧ w.handlesTracked := by
  refine ⟨_, rfl, ?_⟩
  refine ⟨rfl, rfl, rfl, rfl, And.left (C18_handles_tracked 20
      [Stmt.newEvent 0, .attach 0 (.mk 1 [.detach 1]) (some 0),
        .attach 0 (.mk 2 []) (some 1), .invoke 0 5, .moveListener 2 0, .copyEvent 1 0,
        .attach 1 (.mk 3 []) (some 0), .count 0] _ ?_ ?_)⟩
  · rfl
  · rfl

/-! ## The test suite of the repository

The scenarios of `tests/Event.cpp`, run in the embedding: each expectation of the
tests holds of the model. -/

theorem test_InvokeOnce :
    callsOfRun (run 10 [Stmt.newEvent 0, .attach 0 (.mk 7 []) (some 0), .invoke 0 (0 : Nat)])
      = some [{ id := 1, tag := 7, args := 0 }] := by
  rfl

theorem test_Invoke10 :
    (callsOfRun (run 20 ([Stmt.newEvent 0, .attach 0 (.mk 7 []) (some 0)]
      ++ List.replicate 10 (.invoke 0 (0 : Nat))))).map List.length = some 10 := by
  rfl

theorem test_MoveListener :
    (callsOfRun (run 20 ([Stmt.newEvent 0, .attach 0 (.mk 7 []) (some 0), .movePtr 1 0]
      ++ List.replicate 10 (.invoke 0 (0 : Nat))))).map List.length = some 10 := by
  rfl

theorem test_MoveListenerAndDestroyPrevious :
    (callsOfRun (run 20 ([Stmt.newEvent 0, .attach 0 (.mk 7 []) (some 0), .movePtr 1 0,
        .dropListener 0]
      ++ List.replicate 10 (.invoke 0 (0 : Nat))))).map List.length = some 10 := by
  rfl

theorem test_DetachListener :
    callsOfRun (run 20 ([Stmt.newEvent 0, .attach 0 (.mk 7 []) (some 0), .detach 0]
      ++ List.replicate 10 (.invoke 0 (0 : Nat)))) = some [] := by
  rfl

theorem test_MoveEvent :
    callsOfRun (run 20 ([Stmt.newEvent 0, .attach 0 (.mk 7 []) (some 0), .moveEvent 1 0]
      ++ List.replicate 10 (.invoke 0 (0 : Nat)) ++ [.invoke 1 0]))
      = some [{ id := 1, tag := 7, args := 0 }] := by
  rfl

theorem test_CopyEvent :
    (callsOfRun (run 30 ([Stmt.newEvent 0, .attach 0 (.mk 7 []) (some 0), .copyEvent 1 0]
      ++ List.replicate 10 (.invoke 0 (0 : Nat))
      ++ List.replicate 10 (.invoke 1 0)))).map List.length = some 20 := by
  rfl

theorem test_MoveEventAndDetachListener :
    countOfRun 1 (run 10 [Stmt.newEvent 0, .newEvent 1, .attach 0 (.mk 7 []) (some 0),
      .moveEvent 1 0, .dropListener 0] : Except Err (World Nat)) = some 0 := by
  rfl

theorem test_AutomaticallyDetachedListener :
    countOfRun 0 (run 10 [Stmt.newEvent 0, .attach 0 (.mk 7 []) none, .invoke 0 (0 : Nat)])
      = some 0
    ∧ callsOfRun (run 10 [Stmt.newEvent 0, .attach 0 (.mk 7 []) none, .invoke 0 (0 : Nat)])
      = some [] := by
  exact ⟨rfl, rfl⟩

theorem test_FunctorListener :
    countOfRun 0 (run 10 [Stmt.newEvent 0, .attach 0 (.mk 7 []) (some 0), .invoke 0 (0 : Nat)])
      = some 1 := by
  rfl

theorem test_Parameters :
    callsOfRun (run 10 [Stmt.newEvent 0, .attach 0 (.mk 7 []) (some 0),
      .invoke 0 ((1337 : Nat), "hello world")])
      = some [{ id := 1, tag := 7, args := (1337, "hello world") }] := by
  rfl

theorem test_MoveIntoEventWithListeners :
    callsOfRun (run 10 [Stmt.newEvent 0, .newEvent 1, .attach 1 (.mk 7 []) (some 0),
      .moveEvent 1 0, .invoke 1 (0 : Nat), .dropListener 0]) = some [] := by
  rfl

end sable
